import Mathlib

/-!
# AgentBoss: the off-chain event coordination layer

A shallow embedding of the polling tick of `BaseAgent.listenToEvents`, of
`BaseAgent.heuristicThink`, `BaseAgent.think`, `BaseAgent.getGameState` and
`BaseAgent.checkAndWithdraw` (src/src/strategies/BaseAgent.js), of `runDecisionCycle`
(src/src/strategies/Strategy_Aggressive.js, Strategy_Cunning.js, Strategy_Steady.js), of
`pollKillEvents` and `processQueue` (src/src/services/RespawnOracle.js), of the tools
`register_agent`, `list_bosses`, `attack_boss`, `get_balance` and `withdraw`
(src/src/strategies/mcp_server.js), of the success test of `createBosses`
(src/src/init_bosses.js) and of `SuiService.getBossStats` (src/Dapp/src/services/sui.js),
followed by the properties proved about them.

Modelling conventions.

* A JavaScript number is an integer or NaN (`JSNum`, `none` is NaN). Rounding of integers
  beyond 2^53 and the infinities are outside the model.
* A JavaScript `Set` or `Map` is the list of its keys (entries) in insertion order, which is
  the order in which JavaScript iterates it. An object used as a dictionary (`agents`,
  `leaderboard`) is the list of its entries in insertion order, its keys being addresses.
* A poll result is an array of objects; a field that the code reads with `parseInt` is
  represented by the primitive value it holds (a JSON number by its decimal rendering,
  since `parseInt` converts its argument to a string first).
* The callback handed to `listenToEvents` is observed only through whether it throws.
* The part of a tick that follows the `await` of the tool call is synchronous, so ticks
  act on the state one after the other, in the order in which their poll results arrive.
  A call of `pollKillEvents` is taken to run without another timer callback running at
  its `await`s. `processQueue` is modelled both as a call that runs to its end and, for
  overlapping timer callbacks, up to its first `await` (`timerFires`).
* The numbers that `heuristicThink` compares (the balance and the attack costs) are NaN,
  an infinity or a finite decimal (`JSNumber`), the decimal that the text denotes;
  JavaScript compares the binary64 numbers nearest to them.
* The arithmetic of `get_balance`, of `checkAndWithdraw` and of the amount of `withdraw`
  is that of binary64 (`Double`): the conversion of a decimal, the division, the
  subtraction, the product and `toFixed` are modelled with their rounding to nearest,
  ties to even. Overflow and underflow are outside the model.
* A tool handler is modelled from the point where its inputs (the stored registry, the
  answer of the ledger, a fresh key pair) are known; the ledger is an input.
-/

namespace AgentBoss

/-! ## JavaScript values -/

/-- A JavaScript number: an integer, or NaN (`none`). -/
abbrev JSNum := Option Int

/-- The comparison `a >= b`; false as soon as one side is NaN. -/
def jsGe (a b : JSNum) : Bool :=
  match a, b with
  | some x, some y => decide (y ≤ x)
  | _, _ => false

/-- The function `Math.max(a, b)`; NaN as soon as one side is NaN. -/
def jsMax (a b : JSNum) : JSNum :=
  match a, b with
  | some x, some y => some (max x y)
  | _, _ => none

/-- The difference `a - b`; NaN as soon as one side is NaN. -/
def jsSub (a b : JSNum) : JSNum :=
  match a, b with
  | some x, some y => some (x - y)
  | _, _ => none

/-- The sum `a + b`; NaN as soon as one side is NaN. -/
def jsAdd (a b : JSNum) : JSNum :=
  match a, b with
  | some x, some y => some (x + y)
  | _, _ => none

/-- The primitive values a parsed JSON field may hold, `undefined` standing for a missing
field. A JSON number is represented by `str` of its decimal rendering. -/
inductive JSVal where
  | undefined
  | null
  | bool (b : Bool)
  | str (s : String)
deriving DecidableEq, Repr

/-- The abstract operation ToString on a primitive value. -/
def JSVal.toJSString : JSVal → String
  | .undefined => "undefined"
  | .null => "null"
  | .bool true => "true"
  | .bool false => "false"
  | .str s => s

/-- The characters `parseInt` skips at the start of its input (white space and line
terminators of ECMAScript), by code point. -/
def isStrWhiteSpace (c : Char) : Bool :=
  let n := c.toNat
  n == 9 || n == 10 || n == 11 || n == 12 || n == 13 || n == 32 || n == 160 || n == 5760
    || (8192 ≤ n && n ≤ 8202) || n == 8232 || n == 8233 || n == 8239 || n == 8287
    || n == 12288 || n == 65279

/-- The value of a character as a digit of the given radix, if it is one. -/
def digitValue (radix : Nat) (c : Char) : Option Nat :=
  let n := c.toNat
  let v : Option Nat :=
    if 48 ≤ n && n ≤ 57 then some (n - 48)
    else if 97 ≤ n && n ≤ 122 then some (n - 97 + 10)
    else if 65 ≤ n && n ≤ 90 then some (n - 65 + 10)
    else none
  match v with
  | some d => if d < radix then some d else none
  | none => none

/-- The digits of the longest prefix made of digits of the radix. -/
def takeDigits (radix : Nat) : List Char → List Nat
  | [] => []
  | c :: cs =>
    match digitValue radix c with
    | some d => d :: takeDigits radix cs
    | none => []

/-- The function `parseInt(string)` with no radix argument, on the characters of the
string: skip white space, read a sign, read a `0x` or `0X` marker, read the longest run
of digits; NaN when that run is empty. -/
def parseIntChars (cs : List Char) : JSNum :=
  let s := cs.dropWhile isStrWhiteSpace
  let signed : Bool × List Char :=
    match s with
    | c :: r => if c.toNat == 45 then (true, r) else if c.toNat == 43 then (false, r) else (false, s)
    | [] => (false, s)
  let based : Nat × List Char :=
    match signed.2 with
    | c :: d :: r =>
      if c.toNat == 48 && (d.toNat == 120 || d.toNat == 88) then (16, r) else (10, signed.2)
    | _ => (10, signed.2)
  let ds := takeDigits based.1 based.2
  match ds with
  | [] => none
  | _ =>
    let v : Nat := ds.foldl (fun acc d => acc * based.1 + d) 0
    some (if signed.1 then - (v : Int) else (v : Int))

/-- The function `parseInt(v)` on a primitive value. -/
def parseInt (v : JSVal) : JSNum :=
  parseIntChars v.toJSString.toList

/-! ## Events as the agent receives them -/

/-- The `id` field of an event of the `list_events` tool: missing, `null`, a string, or an
object with the optional string fields `txDigest` and `eventSeq` (the shape of an event
id of the ledger). -/
inductive IdField where
  | undefined
  | null
  | str (s : String)
  | obj (txDigest : Option String) (eventSeq : Option String)
deriving DecidableEq, Repr

/-- An event of the `list_events` tool. `payload` stands for the fields `type`, `sender`
and `data`, which the tick does not read. -/
structure Event where
  id : IdField
  timestamp : JSVal
  payload : String
deriving DecidableEq, Repr

/-- A key of `processedEventDigests`: a string, or the value `undefined` (`none`). -/
abbrev DedupKey := Option String

/-- The four hexadecimal digits of a code point below 65536, lower case. -/
def hex4 (n : Nat) : List Char :=
  let h (d : Nat) : Char := if d < 10 then Char.ofNat (48 + d) else Char.ofNat (87 + d)
  [h (n / 4096 % 16), h (n / 256 % 16), h (n / 16 % 16), h (n % 16)]

/-- The escape `JSON.stringify` writes for one character of a string. -/
def jsonEscapeChar (c : Char) : List Char :=
  let n := c.toNat
  let bs := Char.ofNat 92
  if n == 34 then [bs, Char.ofNat 34]
  else if n == 92 then [bs, bs]
  else if n == 8 then [bs, Char.ofNat 98]
  else if n == 12 then [bs, Char.ofNat 102]
  else if n == 10 then [bs, Char.ofNat 110]
  else if n == 13 then [bs, Char.ofNat 114]
  else if n == 9 then [bs, Char.ofNat 116]
  else if n < 32 then bs :: Char.ofNat 117 :: hex4 n
  else [c]

/-- The text `JSON.stringify(s)` for a string `s`. -/
def jsonQuote (s : String) : String :=
  String.mk (Char.ofNat 34 :: (s.toList.flatMap jsonEscapeChar ++ [Char.ofNat 34]))

/-- The value `JSON.stringify(event.id)`; `undefined` for a missing id. The keys of an id
object are written in the order `txDigest`, `eventSeq`. -/
def jsonStringifyId : IdField → DedupKey
  | .undefined => none
  | .null => some "null"
  | .str s => some (jsonQuote s)
  | .obj d q =>
    let f1 : List String :=
      match d with
      | some x => [jsonQuote "txDigest" ++ ":" ++ jsonQuote x]
      | none => []
    let f2 : List String :=
      match q with
      | some x => [jsonQuote "eventSeq" ++ ":" ++ jsonQuote x]
      | none => []
    some ("\x7b" ++ ",".intercalate (f1 ++ f2) ++ "\x7d")

/-- The dedup identifier of the tick:
`event.id?.txDigest || JSON.stringify(event.id)`. -/
def eventId (e : Event) : DedupKey :=
  match e.id with
  | .obj (some d) q => if d ≠ "" then some d else jsonStringifyId (.obj (some d) q)
  | i => jsonStringifyId i

/-! ## The tick of `BaseAgent.listenToEvents` -/

/-- The mutable fields of the agent that the tick reads and writes. -/
structure AgentState where
  lastEventTimestamp : JSNum
  processedEventDigests : List DedupKey
deriving DecidableEq, Repr

/-- The method `Set.add`: a key not yet present goes last in iteration order. -/
def setAdd (s : List DedupKey) (k : DedupKey) : List DedupKey :=
  if k ∈ s then s else s ++ [k]

/-- The two statements `firstKey = set.values().next().value; set.delete(firstKey)`. -/
def setDeleteFirst (s : List DedupKey) : List DedupKey :=
  match s with
  | [] => []
  | k :: _ => s.erase k

/-- The body of `if (isNew)`: add the identifier, then drop the first key of the set when
the set holds more than 100. -/
def markProcessed (s : List DedupKey) (k : DedupKey) : List DedupKey :=
  let s1 := setAdd s k
  if s1.length > 100 then setDeleteFirst s1 else s1

/-- The test `eventTime >= this.lastEventTimestamp && !this.processedEventDigests.has(eventId)`. -/
def isNew (last : JSNum) (s : List DedupKey) (e : Event) : Bool :=
  jsGe (parseInt e.timestamp) last && !decide (eventId e ∈ s)

/-- The call `events.filter(...)`: the set after the pass and the events kept, in the
order of the poll result. The cursor is not written during the pass. -/
def filterNew (last : JSNum) : List DedupKey → List Event → List DedupKey × List Event
  | s, [] => (s, [])
  | s, e :: es =>
    if isNew last s e then
      let r := filterNew last (markProcessed s (eventId e)) es
      (r.1, e :: r.2)
    else filterNew last s es

/-- The comparator `parseInt(a.timestamp) - parseInt(b.timestamp)` read as "a may stay
before b": the difference is not positive (a NaN difference counts as zero). -/
def tsBefore (a b : Event) : Prop :=
  match jsSub (parseInt a.timestamp) (parseInt b.timestamp) with
  | some d => d ≤ 0
  | none => True

instance : DecidableRel tsBefore := fun a b => by
  unfold tsBefore
  cases jsSub (parseInt a.timestamp) (parseInt b.timestamp) <;> infer_instance

/-- The call `.sort(comparator)`: a stable sort, here by insertion. On the events that
pass the filter the comparator is a total preorder, for which every stable sort returns
the same array. -/
def sortByTimestamp (l : List Event) : List Event :=
  l.insertionSort tsBefore

/-- The loop `newEvents.forEach(...)`: the cursor after the loop, the events the
callback was invoked on, and whether the callback threw (which ends the loop). -/
def dispatch (throws : Event → Bool) : JSNum → List Event → JSNum × List Event × Bool
  | last, [] => (last, [], false)
  | last, e :: es =>
    if throws e then (last, [e], true)
    else
      let r := dispatch throws (jsMax last (parseInt e.timestamp)) es
      (r.1, e :: r.2.1, r.2.2)

/-- What the `list_events` call and `JSON.parse` hand to the tick: the tool call throws,
the text is not JSON (`JSON.parse` throws), the text is the object with an `error` field
that the tool answers when its own query fails (then `events.filter` is not a function
and the call throws), or the text is an array of events. -/
inductive PollResult where
  | callThrows
  | notJson (text : String)
  | errorObject (message : String)
  | events (es : List Event)
deriving DecidableEq, Repr

/-- One run of the interval callback of `listenToEvents`: the state after it and the
events the callback was invoked on, in order. -/
def tick (throws : Event → Bool) (st : AgentState) : PollResult → AgentState × List Event
  | .callThrows => (st, [])
  | .notJson _ => (st, [])
  | .errorObject _ => (st, [])
  | .events es =>
    let r := filterNew st.lastEventTimestamp st.processedEventDigests es
    let d := dispatch throws st.lastEventTimestamp (sortByTimestamp r.2)
    ({ lastEventTimestamp := d.1, processedEventDigests := r.1 }, d.2.1)

/-- The state in which `listenToEvents` leaves a freshly constructed agent before the
first tick: the cursor is `Date.now()`, the set is empty. -/
def startState (now : Int) : AgentState :=
  { lastEventTimestamp := some now, processedEventDigests := [] }

/-- A run of consecutive ticks: the final state and the events the callback was invoked
on, in order. -/
def runTicks (throws : Event → Bool) : AgentState → List PollResult → AgentState × List Event
  | st, [] => (st, [])
  | st, p :: ps =>
    let r := tick throws st p
    let r2 := runTicks throws r.1 ps
    (r2.1, r.2 ++ r2.2)

/-! ## The respawn oracle: `pollKillEvents` -/

/-- The field `parsedJson` of a CombatEvent, as far as `pollKillEvents` reads it. -/
structure KillJson where
  is_kill : Bool
  boss_id : String
deriving DecidableEq, Repr

/-- An element of `events.data` returned by `client.queryEvents`; `parsedJson` may be
missing. The field `timestampMs` is carried by the event but is not read by
`pollKillEvents`. -/
structure CombatEvent where
  txDigest : String
  eventSeq : String
  parsedJson : Option KillJson
  timestampMs : JSVal := .undefined
deriving DecidableEq, Repr

/-- The identifier of the oracle: the template `txDigest_eventSeq`. -/
def oracleEventId (e : CombatEvent) : String :=
  e.txDigest ++ "_" ++ e.eventSeq

/-- The fields of a boss object that `pollKillEvents` reads. -/
structure BossFields where
  name : String
  description : String
  skill : String
  difficulty : String
  max_hp : String
  attack_cost : String
  death_time : JSVal
deriving DecidableEq, Repr

/-- The outcome of `client.getObject`: the call throws, the answer has no `data.content`,
or the answer carries the fields of the object. -/
inductive GetObjectResult where
  | throws
  | noContent
  | content (fields : BossFields)
deriving DecidableEq, Repr

/-- The `data` of a queued task. -/
structure BossData where
  name : String
  description : String
  skill : String
  difficulty : String
  hp : String
  attack_cost : String
deriving DecidableEq, Repr

/-- A value of `createQueue`. -/
structure Task where
  createAt : JSNum
  data : BossData
deriving DecidableEq, Repr

/-- The map `createQueue`: its entries in insertion order. -/
abbrev CreateQueue := List (String × Task)

/-- The method `Map.has`. -/
def queueHas (q : CreateQueue) (k : String) : Bool :=
  q.any (fun p => p.1 == k)

/-- The method `Map.set`: a present key keeps its place and takes the new value, an absent
key goes last. -/
def queueSet (q : CreateQueue) (k : String) (v : Task) : CreateQueue :=
  if queueHas q k then q.map (fun p => if p.1 == k then (k, v) else p) else q ++ [(k, v)]

/-- The task built from the fields of the dead boss: `createAt = deathTime + 30000`, and
`hp` taken from `max_hp`. -/
def taskOfFields (f : BossFields) : Task :=
  { createAt := jsAdd (parseInt f.death_time) (some 30000),
    data := { name := f.name, description := f.description, skill := f.skill,
              difficulty := f.difficulty, hp := f.max_hp, attack_cost := f.attack_cost } }

/-- The state of the oracle module. -/
structure OracleState where
  lastProcessedEventId : Option String
  createQueue : CreateQueue
deriving DecidableEq, Repr

/-- The body of the `for` loop after the `break` test, on one event: the queue after it,
or `none` when `getObject` throws. -/
def handleEvent (getObject : String → GetObjectResult) (q : CreateQueue) (e : CombatEvent) :
    Option CreateQueue :=
  match e.parsedJson with
  | none => some q
  | some j =>
    if j.is_kill then
      if queueHas q j.boss_id then some q
      else
        match getObject j.boss_id with
        | .throws => none
        | .noContent => some q
        | .content f => some (queueSet q j.boss_id (taskOfFields f))
    else some q

/-- The test `lastProcessedEventId && eventId === lastProcessedEventId`. -/
def isCursor (last : Option String) (e : CombatEvent) : Bool :=
  match last with
  | none => false
  | some l => l ≠ "" && oracleEventId e == l

/-- What the `for` loop of `pollKillEvents` leaves behind: the queue, the events whose
body was run to its end (the event on which `getObject` throws is not among them), and
whether `getObject` threw. -/
structure LoopResult where
  createQueue : CreateQueue
  examined : List CombatEvent
  threw : Bool
deriving DecidableEq, Repr

/-- The `for` loop of `pollKillEvents` over `events.data`. -/
def killLoop (getObject : String → GetObjectResult) (last : Option String) :
    CreateQueue → List CombatEvent → LoopResult
  | q, [] => { createQueue := q, examined := [], threw := false }
  | q, e :: es =>
    if isCursor last e then { createQueue := q, examined := [], threw := false }
    else
      match handleEvent getObject q e with
      | none => { createQueue := q, examined := [], threw := true }
      | some q1 =>
        let r := killLoop getObject last q1 es
        { createQueue := r.createQueue, examined := e :: r.examined, threw := r.threw }

/-- One call of `pollKillEvents`. The argument `page` is `events.data`, or `none` when
`client.queryEvents` throws. The result is the state after the call and the events
examined by it. A throw of `getObject` keeps the entries set so far and leaves the cursor
where it was. -/
def pollKillEvents (getObject : String → GetObjectResult) (st : OracleState) :
    Option (List CombatEvent) → OracleState × List CombatEvent
  | none => (st, [])
  | some data =>
    let r := killLoop getObject st.lastProcessedEventId st.createQueue data
    if r.threw then
      ({ lastProcessedEventId := st.lastProcessedEventId, createQueue := r.createQueue },
        r.examined)
    else
      ({ lastProcessedEventId :=
            match data with
            | [] => st.lastProcessedEventId
            | e :: _ => some (oracleEventId e),
          createQueue := r.createQueue },
        r.examined)

/-- The answer of `queryEvents` with `limit: 20` and `order: "descending"` on a ledger
listed oldest first. -/
def queryEvents (ledger : List CombatEvent) : List CombatEvent :=
  ledger.reverse.take 20

/-- A step of the oracle and its environment: events are appended to the ledger, or the
timer runs `pollKillEvents` (`none`: the query throws; otherwise the behaviour of
`getObject` during that poll). -/
inductive OracleStep where
  | emit (es : List CombatEvent)
  | poll (getObject : Option (String → GetObjectResult))

/-- The ledger, the oracle, and the events examined so far by the polls. -/
structure World where
  ledger : List CombatEvent
  st : OracleState
  examined : List CombatEvent

/-- The world at start: nothing on the ledger, `lastProcessedEventId = null`, an empty
queue. -/
def World.init : World :=
  { ledger := [], st := { lastProcessedEventId := none, createQueue := [] }, examined := [] }

/-- The effect of one step. -/
def stepWorld (w : World) : OracleStep → World
  | .emit es => { w with ledger := w.ledger ++ es }
  | .poll none => w
  | .poll (some g) =>
    let r := pollKillEvents g w.st (some (queryEvents w.ledger))
    { ledger := w.ledger, st := r.1, examined := w.examined ++ r.2 }

/-- The effect of a schedule of steps. -/
def runWorld (w : World) (steps : List OracleStep) : World :=
  steps.foldl stepWorld w

/-- The events the cursor has moved past: those on the ledger up to and including the one
whose identifier is `lastProcessedEventId`. -/
def passedBy (last : Option String) : List CombatEvent → List CombatEvent
  | [] => []
  | e :: es =>
    match last with
    | none => []
    | some l =>
      if l ∈ (e :: es).map oracleEventId then
        if oracleEventId e = l then [e] else e :: passedBy last es
      else []


/-! ## The respawn oracle: `processQueue` -/

/-- The answer of `signAndExecuteTransactionBlock` as far as `processQueue` reads it.
`effects` is `none` when the answer has no `effects`, `some none` when `effects` has no
`status.status`, and `some (some s)` when `effects.status.status` is the string `s`.
`events` is `none` when the answer has no `events`; an element of the list is `none` when
that event has no `parsedJson`, and otherwise the `boss_id` read from it. -/
structure TxResponse where
  effects : Option (Option String)
  events : Option (List (Option String))
deriving DecidableEq, Repr

/-- The outcome of the `try` block up to the answer of the ledger: building the
transaction block or the call `signAndExecuteTransactionBlock` throws, or the call
answers. -/
inductive TxOutcome where
  | throws
  | response (r : TxResponse)
deriving DecidableEq, Repr

/-- The statement `task.createAt = now + 10000`. -/
def retryLater (now : Int) (t : Task) : Task :=
  { createAt := some (now + 10000), data := t.data }

/-- What the `try`/`catch` of `processQueue` does to a due task once the outcome of the
execution is known: `none` when the entry is deleted, otherwise the task that stays.
On a success status the line that reads `result.events[0].parsedJson.boss_id` runs
before `createQueue.delete`; when it throws, the `catch` sets the retry time. On any
other status the `else` branch (or the `catch`, when reading the status throws) sets the
retry time. -/
def afterExecution (now : Int) (t : Task) : TxOutcome → Option Task
  | .throws => some (retryLater now t)
  | .response r =>
    match r.effects with
    | some (some s) =>
      if s = "success" then
        match r.events with
        | some (some _ :: _) => none
        | _ => some (retryLater now t)
      else some (retryLater now t)
    | _ => some (retryLater now t)

/-- The test `now >= task.createAt`. -/
def isDue (now : Int) (t : Task) : Bool :=
  jsGe (some now) t.createAt

/-- What a call of `processQueue` leaves behind: the queue, and the keys for which the
`try` block was entered, in order. -/
structure QueueRun where
  createQueue : CreateQueue
  submitted : List String
deriving DecidableEq, Repr

/-- One call of `processQueue` at clock value `now`, each execution being awaited before
the loop goes on; `exec` gives the outcome of the execution for an entry. -/
def processQueue (exec : String → Task → TxOutcome) (now : Int) : CreateQueue → QueueRun
  | [] => { createQueue := [], submitted := [] }
  | (k, t) :: rest =>
    let r := processQueue exec now rest
    if isDue now t then
      match afterExecution now t (exec k t) with
      | none => { createQueue := r.createQueue, submitted := k :: r.submitted }
      | some t2 => { createQueue := (k, t2) :: r.createQueue, submitted := k :: r.submitted }
    else { createQueue := (k, t) :: r.createQueue, submitted := r.submitted }

/-- A firing of the 5-second timer: the clock value it reads and the outcomes of the
executions it starts. -/
structure QueueTick where
  now : Int
  exec : String → Task → TxOutcome

/-- Consecutive calls of `processQueue`, each finished before the next starts: the queue
at the end and the keys submitted by each call. -/
def runQueueTicks : CreateQueue → List QueueTick → CreateQueue × List (List String)
  | q, [] => (q, [])
  | q, tk :: rest =>
    let r := processQueue tk.exec tk.now q
    let r2 := runQueueTicks r.createQueue rest
    (r2.1, r.submitted :: r2.2)

/-- The method `Map.get`. -/
def queueGet (q : CreateQueue) (k : String) : Option Task :=
  (q.find? (fun p => p.1 == k)).map Prod.snd

/-- The scheduler between timer callbacks: the queue, and the keys of the executions that
have been started and whose awaited call has not returned yet. -/
structure Scheduler where
  createQueue : CreateQueue
  inFlight : List String
deriving DecidableEq, Repr

/-- The part of `processQueue` that runs when the timer fires, up to its first `await`:
the loop reaches the first due entry in iteration order and starts its execution. No
entry is changed before the awaited call returns, and nothing records that an execution
is under way. -/
def timerFires (now : Int) (s : Scheduler) : Scheduler :=
  match s.createQueue.find? (fun p => isDue now p.2) with
  | none => s
  | some p => { createQueue := s.createQueue, inFlight := s.inFlight ++ [p.1] }

/-! ## Numbers and values of the decision loop -/

/-- A finite decimal number, `mant / 10 ^ scale`. Every finite JavaScript number is one;
rounding to the nearest such number is outside the model. -/
structure Dec where
  mant : Int
  scale : Nat
deriving DecidableEq, Repr

/-- The order `a < b` of two finite decimals. -/
def Dec.lt (a b : Dec) : Bool :=
  decide (a.mant * ((10 ^ b.scale : Nat) : Int) < b.mant * ((10 ^ a.scale : Nat) : Int))

/-- A JavaScript number with fractions: NaN, an infinity, or a finite decimal. -/
inductive JSNumber where
  | nan
  | negInf
  | fin (d : Dec)
  | posInf
deriving DecidableEq, Repr

/-- The integer `n` as a JavaScript number. -/
def JSNumber.ofInt (n : Int) : JSNumber := .fin { mant := n, scale := 0 }

/-- The comparison `a < b`; false as soon as one side is NaN. -/
def jsLt : JSNumber → JSNumber → Bool
  | .nan, _ => false
  | _, .nan => false
  | .negInf, .negInf => false
  | .negInf, _ => true
  | .fin _, .negInf => false
  | .fin a, .fin b => Dec.lt a b
  | .fin _, .posInf => true
  | .posInf, _ => false

/-- A field of a parsed JSON object: missing (`undefined`), `null`, a boolean, a number or
a string. Arrays and objects as field values are outside the model. -/
inductive JSAtom where
  | undefined
  | null
  | bool (b : Bool)
  | num (n : JSNumber)
  | str (s : String)
deriving DecidableEq, Repr

/-- The conversion ToBoolean. -/
def JSAtom.truthy : JSAtom → Bool
  | .undefined => false
  | .null => false
  | .bool b => b
  | .num .nan => false
  | .num (.fin d) => d.mant ≠ 0
  | .num _ => true
  | .str s => s ≠ ""

/-- The number written by a list of decimal digits. -/
def digitsValue (ds : List Nat) : Nat :=
  ds.foldl (fun acc d => acc * 10 + d) 0

/-- The exponent part of a decimal literal at the head of the input: `e` or `E`, an
optional sign and at least one digit. The result is the exponent and the rest of the
input; without a well-formed exponent part the exponent is 0 and nothing is consumed. -/
def scanExponent (cs : List Char) : Int × List Char :=
  match cs with
  | c :: r =>
    if c.toNat == 101 || c.toNat == 69 then
      let signed : Bool × List Char :=
        match r with
        | d :: r2 =>
          if d.toNat == 45 then (true, r2) else if d.toNat == 43 then (false, r2) else (false, r)
        | [] => (false, r)
      let ds := takeDigits 10 signed.2
      match ds with
      | [] => (0, cs)
      | _ =>
        let v : Int := (digitsValue ds : Nat)
        (if signed.1 then - v else v, signed.2.drop ds.length)
    else (0, cs)
  | [] => (0, cs)

/-- The longest unsigned decimal literal at the head of the input (digits, an optional
fraction, an optional exponent part; at least one digit before or after the dot): its
value and the rest of the input. -/
def scanDecimal (cs : List Char) : Option (Dec × List Char) :=
  let ip := takeDigits 10 cs
  let r1 := cs.drop ip.length
  let dotted : Bool :=
    match r1 with
    | c :: _ => c.toNat == 46
    | [] => false
  let fp := if dotted then takeDigits 10 (r1.drop 1) else []
  let r2 := if dotted then (r1.drop 1).drop fp.length else r1
  if ip.isEmpty && fp.isEmpty then none
  else
    let ex := scanExponent r2
    let m : Nat := digitsValue (ip ++ fp)
    if 0 ≤ ex.1 then
      some ({ mant := ((m * 10 ^ ex.1.toNat : Nat) : Int), scale := fp.length }, ex.2)
    else
      some ({ mant := (m : Int), scale := fp.length + (- ex.1).toNat }, ex.2)

/-- The characters of the word `Infinity`. -/
def infinityWord : List Char := "Infinity".toList

/-- The function `parseFloat` on the characters of a string: skip white space, read a
sign, then `Infinity` or the longest decimal literal; NaN when there is none. -/
def parseFloatChars (cs : List Char) : JSNumber :=
  let s := cs.dropWhile isStrWhiteSpace
  let signed : Bool × List Char :=
    match s with
    | c :: r => if c.toNat == 45 then (true, r) else if c.toNat == 43 then (false, r) else (false, s)
    | [] => (false, s)
  if infinityWord.isPrefixOf signed.2 then (if signed.1 then .negInf else .posInf)
  else
    match scanDecimal signed.2 with
    | none => .nan
    | some (d, _) => .fin { mant := if signed.1 then - d.mant else d.mant, scale := d.scale }

/-- The function `parseFloat(v)`. A number is returned as it is, since `parseFloat` reads
back the text that the number is converted to. -/
def parseFloat : JSAtom → JSNumber
  | .undefined => .nan
  | .null => .nan
  | .bool _ => .nan
  | .num n => n
  | .str s => parseFloatChars s.toList

/-- The value of a string made of a radix marker and digits of that radix (`0x1f`,
`0o17`, `0b101`), if it is one. -/
def scanRadixLiteral (cs : List Char) : Option Nat :=
  match cs with
  | z :: m :: r =>
    let radix : Nat :=
      if m.toNat == 120 || m.toNat == 88 then 16
      else if m.toNat == 111 || m.toNat == 79 then 8
      else if m.toNat == 98 || m.toNat == 66 then 2
      else 0
    if z.toNat == 48 && radix ≠ 0 && !r.isEmpty && (takeDigits radix r).length == r.length then
      some ((takeDigits radix r).foldl (fun acc d => acc * radix + d) 0)
    else none
  | _ => none

/-- The conversion of a string to a number (as in `"500" > 0`): white space is trimmed at
both ends, the empty string is 0, and the whole rest must be a numeric literal. -/
def stringToNumber (cs : List Char) : JSNumber :=
  let s := ((cs.dropWhile isStrWhiteSpace).reverse.dropWhile isStrWhiteSpace).reverse
  if s.isEmpty then JSNumber.ofInt 0
  else
    match scanRadixLiteral s with
    | some n => JSNumber.ofInt n
    | none =>
      let signed : Bool × List Char :=
        match s with
        | c :: r =>
          if c.toNat == 45 then (true, r) else if c.toNat == 43 then (false, r) else (false, s)
        | [] => (false, s)
      if signed.2 == infinityWord then (if signed.1 then .negInf else .posInf)
      else
        match scanDecimal signed.2 with
        | some (d, []) => .fin { mant := if signed.1 then - d.mant else d.mant, scale := d.scale }
        | _ => .nan

/-- The conversion ToNumber. -/
def toNumber : JSAtom → JSNumber
  | .undefined => .nan
  | .null => JSNumber.ofInt 0
  | .bool true => JSNumber.ofInt 1
  | .bool false => JSNumber.ofInt 0
  | .num n => n
  | .str s => stringToNumber s.toList

/-! ## The decision of the agent: `heuristicThink` and `think` -/

/-- An element of `gameState.bosses`, as far as `heuristicThink` reads it. -/
structure Boss where
  id : JSAtom
  name : JSAtom
  isAlive : JSAtom
  hp : JSAtom
  attackCost : JSAtom
deriving DecidableEq, Repr

/-- The argument of `think` and `heuristicThink`. `bosses` is `none` when the field is not
an array; the elements of an array are objects. -/
structure GameState where
  bosses : Option (List Boss)
  balance : JSNumber
deriving DecidableEq, Repr

/-- The `reason` of a decision: one of the three texts of `heuristicThink` with the values
put into it, or the value found in the answer of the model. -/
inductive Reason where
  | noAliveBoss
  | insufficientBalance (balance : JSNumber) (name : JSAtom)
  | regularAttack (name : JSAtom)
  | other (text : JSAtom)
deriving DecidableEq, Repr

/-- A decision: the fields `action`, `boss_id` and `reason` of the returned value. -/
structure Decision where
  action : JSAtom
  boss_id : JSAtom
  reason : Reason
deriving DecidableEq, Repr

/-- The test `b.isAlive || b.hp > 0` of the filter. -/
def isAliveBoss (b : Boss) : Bool :=
  b.isAlive.truthy || jsLt (JSNumber.ofInt 0) (toNumber b.hp)

/-- The array `aliveBosses`. -/
def aliveBosses (gs : GameState) : List Boss :=
  match gs.bosses with
  | some bs => bs.filter isAliveBoss
  | none => []

/-- The method `heuristicThink`. -/
def heuristicThink (gs : GameState) : Decision :=
  match aliveBosses gs with
  | [] => { action := .str "WAIT", boss_id := .undefined, reason := .noAliveBoss }
  | target :: _ =>
    if jsLt gs.balance (parseFloat target.attackCost) then
      { action := .str "WAIT", boss_id := .undefined,
        reason := .insufficientBalance gs.balance target.name }
    else
      { action := .str "ATTACK", boss_id := target.id, reason := .regularAttack target.name }

/-- The configuration of the model that `think` reads. -/
structure LlmConfig where
  llmApiKey : Option String
  llmModel : Option String
deriving DecidableEq, Repr

/-- The method `String.includes` on lists of characters. -/
def includesChars (needle : List Char) : List Char → Bool
  | [] => needle.isEmpty
  | c :: cs => needle.isPrefixOf (c :: cs) || includesChars needle cs

/-- The test `!this.llmApiKey || !this.llmModel ||
this.llmModel.includes("your_endpoint_id")`. -/
def notConfigured (c : LlmConfig) : Bool :=
  match c.llmApiKey, c.llmModel with
  | some k, some m => k == "" || m == "" || includesChars "your_endpoint_id".toList m.toList
  | _, _ => true

/-- What the `try` block of `think` gets from the model: the request throws (or the
answer has no `choices[0].message.content`), the content is not JSON (the fence pattern
does not match or `JSON.parse` throws), the content parses to `null`, or it parses to a
value, given by the fields `action`, `boss_id` and `reason` read from it. -/
inductive LlmReply where
  | throws
  | notJson
  | null
  | value (d : Decision)
deriving DecidableEq, Repr

/-- The method `think`. -/
def think (c : LlmConfig) (reply : LlmReply) (gs : GameState) : Decision :=
  if notConfigured c then heuristicThink gs
  else
    match reply with
    | .throws => heuristicThink gs
    | .notJson => heuristicThink gs
    | .null => heuristicThink gs
    | .value d => d

/-! ## The decision cycle: `runDecisionCycle` -/

/-- The calls of the agent that a decision cycle makes. -/
inductive Call where
  | getGameState
  | think
  | attack (bossId : JSAtom)
  | checkAndWithdraw
deriving DecidableEq, Repr

/-- How a block of statements ends: normally, by `return`, or by a throw. -/
inductive Completion where
  | normal
  | returned
  | thrown
deriving DecidableEq, Repr

/-- The variable `isThinking` and the calls made so far. -/
structure CycleState where
  isThinking : Bool
  calls : List Call
deriving DecidableEq, Repr

/-- The outcome of an awaited call: it throws, or it returns a value. -/
inductive Awaited (α : Type) where
  | throws
  | value (a : α)

/-- The outcomes of the calls a decision cycle awaits: `getGameState` (`none` is `null`),
`think` (`none` is a value without fields, `null` or `undefined`), `attack` and
`checkAndWithdraw`. Every awaited call is taken to settle. -/
structure CycleEnv where
  gameState : Awaited (Option GameState)
  decision : GameState → Awaited (Option Decision)
  attack : JSAtom → Awaited Unit
  withdraw : Awaited Unit

/-- The statement `try body catch handler finally fin`: the handler runs when the body
throws, the last block runs in every case, and the statement ends as the body or the
handler did unless the last block itself returns or throws. -/
def tryCatchFinally (body handler fin : CycleState → CycleState × Completion)
    (s : CycleState) : CycleState × Completion :=
  let r1 := body s
  let r2 := if r1.2 = .thrown then handler r1.1 else r1
  let r3 := fin r2.1
  if r3.2 = .normal then (r3.1, r2.2) else r3

/-- The `switch` on `decision.action`. -/
def cycleSwitch (env : CycleEnv) (d : Decision) (s : CycleState) : CycleState × Completion :=
  if d.action = .str "ATTACK" then
    if d.boss_id.truthy then
      match env.attack d.boss_id with
      | .throws => ({ s with calls := s.calls ++ [.attack d.boss_id] }, .thrown)
      | .value _ => ({ s with calls := s.calls ++ [.attack d.boss_id] }, .normal)
    else (s, .normal)
  else if d.action = .str "WITHDRAW" then
    match env.withdraw with
    | .throws => ({ s with calls := s.calls ++ [.checkAndWithdraw] }, .thrown)
    | .value _ => ({ s with calls := s.calls ++ [.checkAndWithdraw] }, .normal)
  else (s, .normal)

/-- The body of the `try` block of `runDecisionCycle`. -/
def cycleBody (env : CycleEnv) (s : CycleState) : CycleState × Completion :=
  let s1 : CycleState := { s with calls := s.calls ++ [.getGameState] }
  match env.gameState with
  | .throws => (s1, .thrown)
  | .value none => (s1, .returned)
  | .value (some gs) =>
    let s2 : CycleState := { s1 with calls := s1.calls ++ [.think] }
    match env.decision gs with
    | .throws => (s2, .thrown)
    | .value none => (s2, .thrown)
    | .value (some d) => cycleSwitch env d s2

/-- The `catch` block: it logs the error. -/
def cycleCatch (s : CycleState) : CycleState × Completion := (s, .normal)

/-- The `finally` block: `isThinking = false`. -/
def cycleFinally (s : CycleState) : CycleState × Completion :=
  ({ s with isThinking := false }, .normal)

/-- The function `runDecisionCycle`: the guard `if (isThinking) return`, the assignment
`isThinking = true`, then the `try` statement. -/
def runDecisionCycle (env : CycleEnv) (s : CycleState) : CycleState :=
  if s.isThinking then s
  else
    (tryCatchFinally (cycleBody env) cycleCatch cycleFinally
      { s with isThinking := true }).1

/-! ## The result of the create command: `createBosses` -/

/-- A `status` field of the effects in the output of the command: missing, a string, or
an object with its own `status` field (`none` when that field is missing). -/
inductive StatusField where
  | missing
  | text (s : String)
  | object (status : Option String)
deriving DecidableEq, Repr

/-- The field `effects` of the parsed output: the `status` field of `effects.V2` when
`effects.V2` is present, and the field `effects.status`. -/
structure EffectsJson where
  v2 : Option StatusField
  status : StatusField
deriving DecidableEq, Repr

/-- The parsed output of the command as far as the success test reads it;
`confirmedLocalExecution` is the truth value of that field. -/
structure CommandResult where
  effects : Option EffectsJson
  confirmedLocalExecution : Bool
deriving DecidableEq, Repr

/-- The read `field.status` of a status field: `none` when it throws (the field is
missing), `some none` when it gives `undefined`. -/
def readInnerStatus : StatusField → Option (Option String)
  | .missing => none
  | .text _ => some none
  | .object st => some st

/-- The constant `status` of `createBosses`: `effects.V2.status.status` when `effects.V2`
is present, `effects.status.status` when only `effects` is, `null` otherwise; `none`
when the read throws. -/
def commandStatus (r : CommandResult) : Option (Option String) :=
  match r.effects with
  | none => some none
  | some e =>
    match e.v2 with
    | some sf => readInnerStatus sf
    | none => readInnerStatus e.status

/-- The test `result.effects && result.effects.V2 && result.effects.V2.status ===
"Success"`. -/
def v2IsSuccessText (r : CommandResult) : Bool :=
  match r.effects with
  | some e => e.v2 == some (.text "Success")
  | none => false

/-- The constant `isSuccess` of `createBosses`; `none` when computing `status` throws,
in which case the `catch` of the loop body reports an error. -/
def isSuccess (r : CommandResult) : Option Bool :=
  match commandStatus r with
  | none => none
  | some st =>
    some (st == some "Success" || st == some "success" || r.confirmedLocalExecution ||
      v2IsSuccessText r)

/-! ## The answers of the tools `attack_boss` and `withdraw` -/

/-- The field `effects.status` of an executed transaction: its `status`, which the ledger
sets to `success` or `failure`, and its `error` text. -/
structure ExecStatus where
  status : String
  error : String
deriving DecidableEq, Repr

/-- The answer of `signAndExecuteTransactionBlock` as the two tools read it: the digest,
the effects (`none` when missing), and the `damage` and `remaining_hp` of the CombatEvent
among the events, when there is one with a `parsedJson`. -/
structure TxResult where
  digest : String
  effects : Option ExecStatus
  combat : Option (String × String)
deriving DecidableEq, Repr

/-- The outcome of the submission: it throws with a message, or it returns. -/
inductive Submission where
  | throws (message : String)
  | returns (r : TxResult)
deriving DecidableEq, Repr

/-- The texts the two tools answer with once the transaction has been submitted. -/
inductive ToolAnswer where
  | attackSuccessful (digest : String) (combat : Option (String × String))
  | attackFailedOnChain (error : String)
  | attackRequestFailed (message : String)
  | withdrawalSuccessful (digest : String)
  | withdrawalFailed (message : String)
deriving DecidableEq, Repr

/-- The text of an answer. -/
def ToolAnswer.render : ToolAnswer → String
  | .attackSuccessful d none => "Attack successful! Hash: " ++ d
  | .attackSuccessful d (some c) =>
    "Attack successful! Hash: " ++ d ++ ", dealt " ++ c.1 ++ " damage, remaining HP: " ++ c.2
  | .attackFailedOnChain e => "Attack transaction submitted but failed: " ++ e
  | .attackRequestFailed m => "Attack request failed: " ++ m
  | .withdrawalSuccessful d => "Withdrawal successful! Hash: " ++ d
  | .withdrawalFailed m => "Withdrawal failed: " ++ m

/-- The answers that report a success. -/
def ToolAnswer.reportsSuccess : ToolAnswer → Bool
  | .attackSuccessful _ _ => true
  | .withdrawalSuccessful _ => true
  | _ => false

/-- The `try` statement of the tool `attack_boss`: the status `failure` gives the
failure text, a missing `effects` makes the read of the status throw, and any other
answer gives the success text. -/
def attackBossAnswer : Submission → ToolAnswer
  | .throws m => .attackRequestFailed m
  | .returns r =>
    match r.effects with
    | none => .attackRequestFailed "Cannot read properties of undefined (reading \x27status\x27)"
    | some st =>
      if st.status = "failure" then .attackFailedOnChain st.error
      else .attackSuccessful r.digest r.combat

/-- The `try` statement of the tool `withdraw`: the answer of the ledger is read for its
digest only. -/
def withdrawAnswer : Submission → ToolAnswer
  | .throws m => .withdrawalFailed m
  | .returns r => .withdrawalSuccessful r.digest

/-! ## The agent registry: `register_agent` -/

/-- An entry of the registry `agents`. -/
structure AgentRecord where
  id : String
  name : String
  secretKey : String
  apiKey : String
  registeredAt : String
deriving DecidableEq, Repr

/-- The object `agents`: its entries in insertion order, which is the order of
`Object.values` for keys that are addresses. -/
abbrev Registry := List (String × AgentRecord)

/-- The read `agents[key]`. -/
def registryGet (reg : Registry) (key : String) : Option AgentRecord :=
  (reg.find? (fun p => p.1 == key)).map Prod.snd

/-- The assignment `agents[key] = agent`. -/
def registrySet (reg : Registry) (key : String) (a : AgentRecord) : Registry :=
  if reg.any (fun p => p.1 == key) then reg.map (fun p => if p.1 == key then (key, a) else p)
  else reg ++ [(key, a)]

/-- The arguments of the tool that the handler reads; `none` is a missing argument. -/
structure RegisterArgs where
  agent_id : Option String
  name : Option String
deriving DecidableEq, Repr

/-- The truth value of an argument: missing and the empty string are falsy. -/
def truthyArg : Option String → Bool
  | some s => s ≠ ""
  | none => false

/-- What the handler draws from outside: the address, secret key and api key of a fresh
key pair, the clock, and the outcome of the ledger call (a digest, or the message of the
exception). -/
structure RegisterEnv where
  newAddress : String
  newSecretKey : String
  newApiKey : String
  now : String
  ledger : Except String String

/-- The JSON object the tool answers with. -/
inductive RegisterAnswer where
  | success (name address apiKey txHash : String)
  | alreadyRegistered (name address apiKey : String)
  | error (message : String)
deriving DecidableEq, Repr

/-- The lookup at the head of the handler: `agents[args.agent_id]`, and failing that the
first entry whose name is `args.name`. -/
def findAgent (reg : Registry) (args : RegisterArgs) : Option AgentRecord :=
  let byId : Option AgentRecord :=
    match args.agent_id with
    | some a => if a ≠ "" then registryGet reg a else none
    | none => none
  match byId with
  | some a => some a
  | none =>
    if truthyArg args.name then
      (reg.find? (fun p => p.2.name == args.name.getD "")).map Prod.snd
    else none

/-- The expression `args.name || fallback`. -/
def nameOr (args : RegisterArgs) (fallback : String) : String :=
  if truthyArg args.name then args.name.getD "" else fallback

/-- The handler of `register_agent`: the registry after the call, and the answer. The
stored secret keys are taken to be well-formed, so that rebuilding the key pair of a
known agent does not throw. -/
def registerAgent (reg : Registry) (args : RegisterArgs) (env : RegisterEnv) :
    Registry × RegisterAnswer :=
  let found := findAgent reg args
  let agent : AgentRecord :=
    match found with
    | some a => a
    | none =>
      { id := env.newAddress, name := nameOr args "Unnamed_Agent",
        secretKey := env.newSecretKey, apiKey := env.newApiKey, registeredAt := env.now }
  let reg2 : Registry :=
    match found with
    | some _ => reg
    | none => registrySet reg env.newAddress agent
  let answer : RegisterAnswer :=
    match env.ledger with
    | .ok digest => .success (nameOr args agent.name) agent.id agent.apiKey digest
    | .error m =>
      if includesChars "AlreadyRegistered".toList m.toList then
        .alreadyRegistered (nameOr args agent.name) agent.id agent.apiKey
      else .error ("On-chain registration failed: " ++ m)
  (reg2, answer)

/-! ## The statistics of a boss: `SuiService.getBossStats` -/

/-- The `parsedJson` of a CombatEvent as `getBossStats` reads it. -/
structure AttackJson where
  boss_id : String
  attacker : String
  damage : JSVal
deriving DecidableEq, Repr

/-- An element of `allEvents`; `parsedJson` is `none` when the field is missing. -/
structure StatEvent where
  parsedJson : Option AttackJson
deriving DecidableEq, Repr

/-- A value of the object `leaderboard`. -/
structure AttackerStats where
  damage : JSNum
  attacks : Nat
deriving DecidableEq, Repr

/-- The object `leaderboard`: its entries in insertion order, which is the order of
`Object.entries` for keys that are addresses. -/
abbrev Leaderboard := List (String × AttackerStats)

/-- The three statements that update `leaderboard[attacker]`: the entry is created with
zeros when it is missing, then `dmg` and 1 are added to it. -/
def leaderboardAdd : Leaderboard → String → JSNum → Leaderboard
  | [], attacker, dmg => [(attacker, { damage := jsAdd (some 0) dmg, attacks := 1 })]
  | (k, v) :: rest, attacker, dmg =>
    if k == attacker then (k, { damage := jsAdd v.damage dmg, attacks := v.attacks + 1 }) :: rest
    else (k, v) :: leaderboardAdd rest attacker dmg

/-- The variables `totalDamage`, `totalAttacks` and `leaderboard`. -/
structure StatsAcc where
  totalDamage : JSNum
  totalAttacks : Nat
  leaderboard : Leaderboard
deriving DecidableEq, Repr

/-- The body of `allEvents.forEach`. -/
def statsStep (bossId : String) (acc : StatsAcc) (e : StatEvent) : StatsAcc :=
  match e.parsedJson with
  | some j =>
    if j.boss_id = bossId then
      { totalDamage := jsAdd acc.totalDamage (parseInt j.damage),
        totalAttacks := acc.totalAttacks + 1,
        leaderboard := leaderboardAdd acc.leaderboard j.attacker (parseInt j.damage) }
    else acc
  | none => acc

/-- An element of the returned leaderboard. -/
structure LeaderEntry where
  address : String
  damage : JSNum
  attacks : Nat
deriving DecidableEq, Repr

/-- The comparator `b.damage - a.damage` read as "a may stay before b": the difference
is not positive (a NaN difference counts as zero). -/
def dmgBefore (a b : LeaderEntry) : Prop :=
  match jsSub b.damage a.damage with
  | some d => d ≤ 0
  | none => True

instance : DecidableRel dmgBefore := fun a b => by
  unfold dmgBefore
  cases jsSub b.damage a.damage <;> infer_instance

/-- The value `getBossStats` returns. -/
structure BossStats where
  totalDamage : JSNum
  totalAttacks : Nat
  leaderboard : List LeaderEntry
deriving DecidableEq, Repr

/-- The chain `Object.entries(leaderboard).map(...).sort(...).slice(0, 5)`; the sort is
stable, here by insertion. -/
def sortedLeaderboard (lb : Leaderboard) : List LeaderEntry :=
  ((lb.map (fun p => ({ address := p.1, damage := p.2.damage, attacks := p.2.attacks } :
    LeaderEntry))).insertionSort dmgBefore).take 5

/-- The method `getBossStats` once the pages have been fetched into `allEvents`. -/
def getBossStats (allEvents : List StatEvent) (bossId : String) : BossStats :=
  let acc := allEvents.foldl (statsStep bossId)
    { totalDamage := some 0, totalAttacks := 0, leaderboard := [] }
  { totalDamage := acc.totalDamage, totalAttacks := acc.totalAttacks,
    leaderboard := sortedLeaderboard acc.leaderboard }

/-! ## The balance as the agent reads it: the pattern `/Balance: ([\d.]+) SUI/` -/

/-- The characters of the class `[\d.]`. -/
def isDigitOrDot (c : Char) : Bool :=
  (48 ≤ c.toNat && c.toNat ≤ 57) || c.toNat == 46

/-- An attempt of the pattern at the head of the input: the text `Balance: `, the
longest run of digits and dots, which must not be empty, and the text ` SUI`. A shorter
run cannot be followed by a blank, so that backtracking finds nothing more. -/
def matchBalanceAt (cs : List Char) : Option (List Char) :=
  if "Balance: ".toList.isPrefixOf cs then
    let rest := cs.drop 9
    let run := rest.takeWhile isDigitOrDot
    if !run.isEmpty && " SUI".toList.isPrefixOf (rest.drop run.length) then some run else none
  else none

/-- The call `text.match(/Balance: ([\d.]+) SUI/)`: the group of the leftmost match,
`none` when the result is `null`. -/
def matchBalance : List Char → Option (List Char)
  | [] => none
  | c :: cs =>
    match matchBalanceAt (c :: cs) with
    | some g => some g
    | none => matchBalance cs

/-- The expression `parseFloat(balanceMatch[1])` of a text that matches. -/
def parsedBalance (text : String) : Option JSNumber :=
  (matchBalance text.toList).map parseFloatChars

/-! ## The game state: `list_bosses` and `BaseAgent.getGameState` -/

/-- An element of the array the tool `list_bosses` answers with. The keys are `id`,
`name`, `hp`, `max_hp`, `is_alive` and `attack_cost`, the last one a text such as
`1.00 SUI`. -/
structure ListedBoss where
  id : String
  name : JSAtom
  hp : JSAtom
  max_hp : JSAtom
  is_alive : JSAtom
  attack_cost : String
deriving DecidableEq, Repr

/-- What `heuristicThink` reads in a parsed element of that array: it has no key
`isAlive` and no key `attackCost`. -/
def ListedBoss.asRead (b : ListedBoss) : Boss :=
  { id := .str b.id, name := b.name, isAlive := .undefined, hp := b.hp,
    attackCost := .undefined }

/-- The text of the answer of `list_bosses`, parsed: the array of bosses, or the object
with the key `error` that the tool answers with when its query throws. -/
inductive ListBossesAnswer where
  | bosses (l : List ListedBoss)
  | error (message : String)
deriving DecidableEq, Repr

/-- The method `getGameState` when both tool calls answer: `bosses` is the parsed answer
of `list_bosses`, `balance` the number read in the answer of `get_balance`, and 0 when
the pattern does not match. -/
def getGameState (listed : ListBossesAnswer) (balanceText : String) : GameState :=
  { bosses :=
      match listed with
      | .bosses l => some (l.map ListedBoss.asRead)
      | .error _ => none,
    balance := (parsedBalance balanceText).getD (JSNumber.ofInt 0) }

/-! ## The balance as the server writes it: the tool `get_balance` -/

/-- A finite binary64 number that is not negative, `mant * 2 ^ exp`. The mantissa is not
kept normalised; numbers below 2^-1022 or above 2^1024 are outside the model. -/
structure Double where
  mant : Nat
  exp : Int
deriving DecidableEq, Repr

/-- The power `2 ^ e` for `e ≥ 0`, and 1 for a negative `e`. -/
def pow2 (e : Int) : Nat := 2 ^ e.toNat

/-- The number of binary digits of `n`, counted in at most `fuel` halvings. -/
def bitLengthAux : Nat → Nat → Nat
  | 0, _ => 0
  | fuel + 1, n => if n = 0 then 0 else bitLengthAux fuel (n / 2) + 1

/-- The number of binary digits of `n`. -/
def bitLength (n : Nat) : Nat := bitLengthAux n n

/-- The integer nearest to `num / den`, the even one of two nearest. -/
def roundHalfEven (num den : Nat) : Nat :=
  let q := num / den
  let r := num % den
  if 2 * r < den then q else if den < 2 * r then q + 1 else if q % 2 = 0 then q else q + 1

/-- The exponent `k` with `2 ^ k ≤ num / den < 2 ^ (k + 1)`. -/
def binaryExponent (num den : Nat) : Int :=
  let d : Int := (bitLength num : Int) - (bitLength den : Int)
  if den * pow2 d ≤ num * pow2 (- d) then d else d - 1

/-- The binary64 number nearest to `num / den`, ties to even: the quotient is rounded to
53 binary digits. -/
def roundToDouble (num den : Nat) : Double :=
  if num = 0 then { mant := 0, exp := 0 }
  else
    let e := binaryExponent num den - 52
    { mant := roundHalfEven (num * pow2 (- e)) (den * pow2 e), exp := e }

/-- The conversion to a number of a string of decimal digits that writes `n`. -/
def numberOfDigits (n : Nat) : Double := roundToDouble n 1

/-- The quotient `x / c` for a positive integer `c` that is a binary64 number. -/
def Double.divNat (x : Double) (c : Nat) : Double :=
  roundToDouble (x.mant * pow2 x.exp) (c * pow2 (- x.exp))

/-- The test `a = b` on the values of two numbers. -/
def Double.same (a b : Double) : Bool :=
  a.mant * pow2 a.exp * pow2 (- b.exp) == b.mant * pow2 b.exp * pow2 (- a.exp)

/-- The decimal digit `d` as a character. -/
def digitChar (d : Nat) : Char := Char.ofNat (48 + d)

/-- The decimal digits of `n` put before `acc`, produced in at most `fuel` divisions. -/
def natDigitsAux : Nat → Nat → List Char → List Char
  | 0, _, acc => acc
  | fuel + 1, n, acc =>
    if n = 0 then acc else natDigitsAux fuel (n / 10) (digitChar (n % 10) :: acc)

/-- The decimal digits of `n`, most significant first; `0` is written `0`. -/
def natDigits (n : Nat) : List Char :=
  if n = 0 then [digitChar 0] else natDigitsAux n n []

/-- The search for the shortest decimal that converts back to `x`, for an integer `x`
of `nd` digits: the first number of `k`, `k + 1`, ... significant digits next to `x`
whose conversion is `x`, the closer one of two. -/
def shortestDecimalAux (x : Double) (value nd : Nat) : Nat → Nat → Nat
  | 0, _ => value
  | fuel + 1, k =>
    let p := 10 ^ (nd - k)
    let lo := value / p * p
    let hi := lo + p
    let okLo := (numberOfDigits lo).same x
    let okHi := (numberOfDigits hi).same x
    if okLo && okHi then (if value - lo ≤ hi - value then lo else hi)
    else if okLo then lo
    else if okHi then hi
    else shortestDecimalAux x value nd fuel (k + 1)

/-- The conversion of a number `x ≥ 10^21` to a string: the digits of the shortest
decimal that converts back to `x`, a dot after the first digit when there are several,
and the exponent. -/
def exponentForm (x : Double) : List Char :=
  let value := x.mant * pow2 x.exp / pow2 (- x.exp)
  let v := shortestDecimalAux x value (natDigits value).length 17 1
  let all := natDigits v
  let ds := (all.reverse.dropWhile (fun c => c == digitChar 0)).reverse
  let e := natDigits (all.length - 1)
  match ds with
  | [] => all
  | [d] => d :: Char.ofNat 101 :: Char.ofNat 43 :: e
  | d :: more => d :: Char.ofNat 46 :: more ++ Char.ofNat 101 :: Char.ofNat 43 :: e

/-- The integer `n` for which `n / 10 ^ f - x` is closest to zero, the larger one of
two. -/
def fixedMantissa (f : Nat) (x : Double) : Nat :=
  (2 * (x.mant * pow2 x.exp * 10 ^ f) + pow2 (- x.exp)) / (2 * pow2 (- x.exp))

/-- The digits of `n` with the dot that leaves `f ≥ 1` digits behind it; zeros are put
in front until there are `f + 1` digits. -/
def fixedDigits (f n : Nat) : List Char :=
  let m := natDigits n
  let padded := List.replicate (f + 1 - m.length) (digitChar 0) ++ m
  padded.take (padded.length - f) ++ Char.ofNat 46 :: padded.drop (padded.length - f)

/-- The method `toFixed(f)` with `1 ≤ f`, on a number that is not negative. -/
def toFixed (f : Nat) (x : Double) : List Char :=
  if 10 ^ 21 * pow2 (- x.exp) ≤ x.mant * pow2 x.exp then exponentForm x
  else fixedDigits f (fixedMantissa f x)

/-- The text the tool `get_balance` answers with when the ledger gives `totalBalance`,
a string of decimal digits that counts MIST. -/
def getBalanceText (totalBalance : Nat) : String :=
  String.mk ("Balance: ".toList ++
    toFixed 4 ((numberOfDigits totalBalance).divNat 1000000000) ++ " SUI".toList)

/-! ## The auto-withdrawal: `BaseAgent.checkAndWithdraw` and the amount of `withdraw` -/

/-- The order `a ≤ b` of two finite decimals. -/
def Dec.le (a b : Dec) : Bool :=
  decide (a.mant * ((10 ^ b.scale : Nat) : Int) ≤ b.mant * ((10 ^ a.scale : Nat) : Int))

/-- The comparison `a <= b`; false as soon as one side is NaN. -/
def jsLe : JSNumber → JSNumber → Bool
  | .nan, _ => false
  | _, .nan => false
  | .negInf, _ => true
  | .fin _, .negInf => false
  | .fin a, .fin b => Dec.le a b
  | .fin _, .posInf => true
  | .posInf, .posInf => true
  | .posInf, _ => false

/-- The binary64 number nearest to a decimal that is not negative: the number that
`parseFloat` returns for the decimal it reads, and the value of a numeric literal. -/
def Dec.toDouble (d : Dec) : Double :=
  roundToDouble d.mant.toNat (10 ^ d.scale)

/-- The comparison `a <= b` of two binary64 numbers. -/
def Double.le (a b : Double) : Bool :=
  decide (a.mant * pow2 a.exp * pow2 (- b.exp) ≤ b.mant * pow2 b.exp * pow2 (- a.exp))

/-- The difference `a - b` of two binary64 numbers with `b ≤ a`: the exact difference,
rounded. -/
def Double.sub (a b : Double) : Double :=
  roundToDouble
    (a.mant * pow2 a.exp * pow2 (- b.exp) - b.mant * pow2 b.exp * pow2 (- a.exp))
    (pow2 (- a.exp) * pow2 (- b.exp))

/-- The product `x * c` for a positive integer `c` that is a binary64 number. -/
def Double.mulNat (x : Double) (c : Nat) : Double :=
  roundToDouble (x.mant * pow2 x.exp * c) (pow2 (- x.exp))

/-- The function `Math.floor` on a binary64 number that is not negative. -/
def Double.floor (x : Double) : Nat :=
  x.mant * pow2 x.exp / pow2 (- x.exp)

/-- The literal `0.1`. -/
def oneTenth : Double := Dec.toDouble { mant := 1, scale := 1 }

/-- The withdrawal configuration of an agent: `withdrawThreshold`, a number written as a
decimal (every binary64 number is one), and `withdrawAddress` (`none` is `null`). -/
structure WithdrawConfig where
  withdrawThreshold : JSNumber
  withdrawAddress : Option String
deriving DecidableEq, Repr

/-- The configuration the constructor sets. -/
def constructorConfig : WithdrawConfig :=
  { withdrawThreshold := JSNumber.ofInt 0, withdrawAddress := none }

/-- The arguments of a call of the tool `withdraw`, the agent's own address apart. -/
structure WithdrawCall where
  target_address : String
  amount_sui : Double
deriving DecidableEq, Repr

/-- The method `checkAndWithdraw`: the call of the tool `withdraw` it makes, if any.
`balanceText` is the text of the answer of `get_balance`, `none` when that call throws
(the `catch` logs the error). The test `withdrawThreshold <= 0` is made on the decimal,
whose sign the rounding keeps; the other comparisons and the subtraction are those of
binary64. The group of the pattern holds digits and dots only, so that the number read
from it is NaN or a decimal that is not negative; with NaN on either side the test
`totalSui >= withdrawThreshold` is false, as it is for an infinite threshold. -/
def checkAndWithdraw (c : WithdrawConfig) (balanceText : Option String) :
    Option WithdrawCall :=
  match c.withdrawAddress with
  | none => none
  | some address =>
    if address = "" || jsLe c.withdrawThreshold (JSNumber.ofInt 0) then none
    else
      match balanceText with
      | none => none
      | some text =>
        match parsedBalance text, c.withdrawThreshold with
        | some (.fin b), .fin t =>
          let totalSui := b.toDouble
          let threshold := t.toDouble
          if threshold.le totalSui then
            let withdrawAmount := totalSui.sub threshold
            if withdrawAmount.le oneTenth then none
            else some { target_address := address, amount_sui := withdrawAmount }
          else none
        | _, _ => none

/-- The constant `amountMist` of the tool `withdraw`:
`Math.floor(args.amount_sui * 1000000000)`. -/
def withdrawAmountMist (amount_sui : Double) : Nat :=
  (amount_sui.mulNat 1000000000).floor

/-! ## Definitions used in the statements -/

/-- An event whose timestamp `parseInt` reads as a number. -/
def Numeric (e : Event) : Prop := ∃ x, parseInt e.timestamp = some x

/-- The integer `parseInt` reads from the timestamp, 0 when it reads none. -/
def tsKey (e : Event) : Int := (parseInt e.timestamp).getD 0

/-- The order of the keys, a total preorder on all events. -/
def keyLe (a b : Event) : Prop := tsKey a ≤ tsKey b

instance : DecidableRel keyLe := fun a b => by unfold keyLe; infer_instance

instance : IsTotal Event keyLe := ⟨fun a b => Int.le_total (tsKey a) (tsKey b)⟩

instance : IsTrans Event keyLe := ⟨fun _ _ _ h1 h2 => Int.le_trans h1 h2⟩

/-- The state before tick number `i` of a run on successfully parsed poll results with a
callback that does not throw. -/
def stateBefore (st : AgentState) (polls : List (List Event)) (i : Nat) : AgentState :=
  (runTicks (fun _ => false) st ((polls.take i).map PollResult.events)).1

/-! ## Schedules of the oracle -/

/-- The number of events on the ledger that the cursor has not moved past. -/
def pendingCount (w : World) : Nat :=
  w.ledger.length - (passedBy w.st.lastProcessedEventId w.ledger).length

/-- Whether a poll started in this world runs to the end of its loop, that is, whether
no call of `getObject` throws during it. -/
def completes (w : World) (g : String → GetObjectResult) : Bool :=
  !(killLoop g w.st.lastProcessedEventId w.st.createQueue (queryEvents w.ledger)).threw

/-- A schedule keeps within the page limit when every poll that runs to completion starts
with at most 20 events beyond the cursor. -/
def withinLimit : World → List OracleStep → Bool
  | _, [] => true
  | w, .emit es :: r => withinLimit (stepWorld w (.emit es)) r
  | w, .poll none :: r => withinLimit (stepWorld w (.poll none)) r
  | w, .poll (some g) :: r =>
    (!(completes w g) || decide (pendingCount w ≤ 20)) &&
      withinLimit (stepWorld w (.poll (some g))) r

/-- The cursor is the identifier of the `n`-th event of the ledger (`null` for `n = 0`). -/
def CursorAt (last : Option String) (ledger : List CombatEvent) : Nat → Prop
  | 0 => last = none
  | m + 1 => ∃ e, ledger[m]? = some e ∧ last = some (oracleEventId e)

/-- The invariant of a schedule: the cursor is at some position `n` of the ledger and the
first `n` events of the ledger have all been examined. -/
def Inv (w : World) : Prop :=
  ∃ n, CursorAt w.st.lastProcessedEventId w.ledger n ∧ ∀ e ∈ w.ledger.take n, e ∈ w.examined

/-! ## Definitions used in the statements on `processQueue` -/

/-- The failures of an execution: the call throws, the answer has no effects, or the
status of the effects is not `success`. -/
def isFailure : TxOutcome → Bool
  | .throws => true
  | .response r =>
    match r.effects with
    | some (some s) => s ≠ "success"
    | _ => true

/-- The entry of key `k` is due and its execution fails at every tick of the list. -/
def failsAtEveryTick (k : String) : CreateQueue → List QueueTick → Bool
  | _, [] => true
  | q, tk :: rest =>
    (match queueGet q k with
      | some t => isDue tk.now t && isFailure (tk.exec k t)
      | none => false) &&
      failsAtEveryTick k (processQueue tk.exec tk.now q).createQueue rest

/-- The entry of key `k` after each tick of the list. -/
def entryTrace (k : String) : CreateQueue → List QueueTick → List (Option Task)
  | _, [] => []
  | q, tk :: rest =>
    queueGet (processQueue tk.exec tk.now q).createQueue k ::
      entryTrace k (processQueue tk.exec tk.now q).createQueue rest

/-! ## Definitions used in the statements on the tools and on the agent -/

/-- A registry is well formed when every key is the id of its entry, no key occurs twice
(the registry is an object) and no two entries share a name. -/
def WellFormed (reg : Registry) : Prop :=
  (∀ p ∈ reg, p.1 = p.2.id) ∧ (reg.map Prod.fst).Nodup ∧
    (reg.map (fun p => p.2.name)).Nodup

/-- The attacks on a boss: the `parsedJson` of the events whose `boss_id` is its id. -/
def attacksOn (events : List StatEvent) (bossId : String) : List AttackJson :=
  events.filterMap (fun e =>
    match e.parsedJson with
    | some j => if j.boss_id = bossId then some j else none
    | none => none)

/-- The damage of an attack as an integer (0 when `parseInt` gives NaN). -/
def damageValue (j : AttackJson) : Int := (parseInt j.damage).getD 0

/-- The attacks of one attacker on a boss. -/
def attacksBy (events : List StatEvent) (bossId attacker : String) : List AttackJson :=
  (attacksOn events bossId).filter (fun j => j.attacker == attacker)

/-- The summed damage of one attacker on a boss. -/
def damageBy (events : List StatEvent) (bossId attacker : String) : Int :=
  ((attacksBy events bossId attacker).map damageValue).sum

/-- The value of a finite decimal as a rational number. -/
def Dec.toRat (d : Dec) : ℚ := (d.mant : ℚ) / ((10 : ℚ) ^ d.scale)

/-- The value of a binary64 number as a rational number. -/
def Double.toRat (x : Double) : ℚ := (x.mant : ℚ) * (2 : ℚ) ^ x.exp

/-- The damage of a leaderboard entry as an integer (0 for NaN). -/
def dmgKey (e : LeaderEntry) : Int := e.damage.getD 0

/-- The order of the leaderboard on entries with numeric damage: `a` has at least the
damage of `b`. -/
def dmgGe (a b : LeaderEntry) : Prop := dmgKey b ≤ dmgKey a

instance : DecidableRel dmgGe := fun a b => by unfold dmgGe; infer_instance

instance : IsTotal LeaderEntry dmgGe := ⟨fun a b => Int.le_total (dmgKey b) (dmgKey a)⟩

instance : IsTrans LeaderEntry dmgGe := ⟨fun _ _ _ h1 h2 => Int.le_trans h2 h1⟩

/-! ## Concrete inputs -/

/-- A CombatEvent of transaction `txA`, first event of the transaction, at time 150. -/
def attackEvent : Event :=
  { id := .obj (some "txA") (some "0"), timestamp := .str "150", payload := "CombatEvent" }

/-- A RewardEvent of the same transaction `txA`, second event of the transaction. -/
def rewardEvent : Event :=
  { id := .obj (some "txA") (some "1"), timestamp := .str "150", payload := "RewardEvent" }

/-- A CombatEvent of transaction `txB`, at time 200. -/
def laterEvent : Event :=
  { id := .obj (some "txB") (some "0"), timestamp := .str "200", payload := "CombatEvent" }

/-- The event number `i` of a family of events of distinct transactions, all at time 5. -/
def numberedEvent (i : Nat) : Event :=
  { id := .obj (some (String.mk [Char.ofNat (65 + i / 16), Char.ofNat (65 + i % 16)]))
      (some "0"),
    timestamp := .str "5", payload := "CombatEvent" }

/-- A poll result of 102 events: 101 events of distinct transactions, then the first of
them once more. -/
def overflowPoll : List Event :=
  (List.range 101).map numberedEvent ++ [numberedEvent 0]

/-- The identifiers of the events number 1 to 99. -/
def laterKeys : List DedupKey :=
  (List.range 99).map (fun i => eventId (numberedEvent (i + 1)))

/-- A kill event of boss `0xb055`. -/
def killEvent : CombatEvent :=
  { txDigest := "tx1", eventSeq := "0",
    parsedJson := some { is_kill := true, boss_id := "0xb055" } }

/-- An attack on boss `0xb055` that does not kill, in the transaction number `i`. -/
def hitEvent (i : Nat) : CombatEvent :=
  { txDigest := String.mk [Char.ofNat (65 + i)], eventSeq := "0",
    parsedJson := some { is_kill := false, boss_id := "0xb055" } }

/-- The fields of the dead boss `0xb055`. -/
def deadBoss : BossFields :=
  { name := "Dragon", description := "d", skill := "s", difficulty := "hard",
    max_hp := "1000", attack_cost := "100", death_time := .str "100" }

/-- A `getObject` that answers with the content of the dead boss. -/
def getDeadBoss : String → GetObjectResult := fun _ => .content deadBoss

/-- A `getObject` whose answer has no content. -/
def getNothing : String → GetObjectResult := fun _ => .noContent

/-- A `getObject` that throws. -/
def getThrowing : String → GetObjectResult := fun _ => .throws

/-- A schedule: a kill and a hit are emitted, a poll runs, a hit is emitted, the query of
the next poll throws, and a last poll runs. -/
def sampleSchedule : List OracleStep :=
  [.emit [killEvent, hitEvent 0], .poll (some getDeadBoss), .emit [hitEvent 1], .poll none,
    .poll (some getNothing)]

/-- A schedule in which 21 events, the oldest a kill, are emitted before the first poll. -/
def burstSchedule : List OracleStep :=
  [.emit (killEvent :: (List.range 20).map hitEvent), .poll (some getDeadBoss)]

/-- A schedule in which the only poll gets no content for the dead boss. -/
def noContentSchedule : List OracleStep :=
  [.emit [killEvent], .poll (some getNothing)]

/-- An oracle state whose queue already holds the boss `0xb055`. -/
def queuedState : OracleState :=
  { lastProcessedEventId := none, createQueue := [("0xb055", taskOfFields deadBoss)] }

/-! ## Concrete inputs for the scheduler -/

/-- The kill event of the scenario: first event of transaction `tx1`, timestamp 100. -/
def scenarioKill : CombatEvent :=
  { txDigest := "tx1", eventSeq := "0",
    parsedJson := some { is_kill := true, boss_id := "0xb055" },
    timestampMs := .str "100" }

/-- The dead boss as the ledger shows it when its `death_time` is 250. -/
def lateDeathBoss : BossFields :=
  { name := "Dragon", description := "d", skill := "s", difficulty := "hard",
    max_hp := "1000", attack_cost := "100", death_time := .str "250" }

/-- A `getObject` that answers with `lateDeathBoss`. -/
def getLateDeathBoss : String → GetObjectResult := fun _ => .content lateDeathBoss

/-- The state of the oracle at start. -/
def freshOracle : OracleState :=
  { lastProcessedEventId := none, createQueue := [] }

/-- A queue holding the boss `0xb055`, to be created at 30100. -/
def pendingQueue : CreateQueue :=
  [("0xb055", taskOfFields deadBoss)]

/-- A ledger that answers every execution with a success status and no event. -/
def succeedWithoutEvent : String → Task → TxOutcome :=
  fun _ _ => .response { effects := some (some "success"), events := some [] }

/-- A ledger that rejects every execution. -/
def rejectAll : String → Task → TxOutcome :=
  fun _ _ => .response { effects := some (some "failure"), events := none }

/-- A ledger call that always throws. -/
def throwAll : String → Task → TxOutcome :=
  fun _ _ => .throws

/-- A ledger whose answers carry no effects. -/
def answerWithoutEffects : String → Task → TxOutcome :=
  fun _ _ => .response { effects := none, events := none }

/-- Three ticks at which the entry of `pendingQueue` is due and its execution fails, each
in another way. -/
def retryTicks : List QueueTick :=
  [{ now := 40000, exec := rejectAll }, { now := 50000, exec := throwAll },
    { now := 60000, exec := answerWithoutEffects }]

/-- Two ticks, 10 seconds apart, on a ledger that succeeds without emitting an event. -/
def eventlessTicks : List QueueTick :=
  [{ now := 40000, exec := succeedWithoutEvent }, { now := 50000, exec := succeedWithoutEvent }]

/-! ## Concrete inputs for the decision loop -/

/-- A boss as the `list_bosses` tool lists it: the keys `is_alive` and `attack_cost` of
the tool are not the keys `isAlive` and `attackCost` that `heuristicThink` reads, so
these two fields are missing. -/
def listedBoss : Boss :=
  { id := .str "0x567", name := .str "Goblin King", isAlive := .undefined,
    hp := .num (JSNumber.ofInt 500), attackCost := .undefined }

/-- The game state made of `listedBoss` and an empty wallet. -/
def listedState : GameState :=
  { bosses := some [listedBoss], balance := JSNumber.ofInt 0 }

/-- An open target with the given identifier and attack cost. -/
def openTarget (id : String) (cost : Int) : Boss :=
  { id := .str id, name := .str id, isAlive := .bool true, hp := .num (JSNumber.ofInt 100),
    attackCost := .num (JSNumber.ofInt cost) }

/-- Two open targets of cost 1 and 2, balance 1. -/
def twoTargetState : GameState :=
  { bosses := some [openTarget "0xa" 1, openTarget "0xb" 2], balance := JSNumber.ofInt 1 }

/-- One open target of cost 1, balance 5. -/
def affordableState : GameState :=
  { bosses := some [openTarget "0xa" 1], balance := JSNumber.ofInt 5 }

/-- One open target of cost 10, balance 5. -/
def expensiveState : GameState :=
  { bosses := some [openTarget "0xa" 10], balance := JSNumber.ofInt 5 }

/-- A configuration with a key and an endpoint. -/
def liveConfig : LlmConfig :=
  { llmApiKey := some "key", llmModel := some "ep-2024" }

/-- An answer of the model whose action is none of the three. -/
def danceDecision : Decision :=
  { action := .str "DANCE", boss_id := .undefined, reason := .other (.str "why not") }

/-- An answer of the model that attacks without naming a boss. -/
def blindAttack : Decision :=
  { action := .str "ATTACK", boss_id := .undefined, reason := .other (.str "attack") }

/-! ## Concrete inputs for the tools and for the agent -/

/-- The fields of a dead boss whose `death_time` is missing. -/
def undatedBoss : BossFields :=
  { name := "Dragon", description := "d", skill := "s", difficulty := "hard",
    max_hp := "1000", attack_cost := "100", death_time := .undefined }

/-- A `getObject` that answers with `undatedBoss`. -/
def getUndatedBoss : String → GetObjectResult := fun _ => .content undatedBoss

/-- The output of a command whose transaction failed and was executed locally. -/
def failedButConfirmed : CommandResult :=
  { effects := some { v2 := none, status := .object (some "failure") },
    confirmedLocalExecution := true }

/-- The output of a command whose `effects.V2.status` is the text `success`. -/
def lowerCaseSuccess : CommandResult :=
  { effects := some { v2 := some (.text "success"), status := .missing },
    confirmedLocalExecution := false }

/-- The answer of the ledger for a transaction that was executed and failed. -/
def rejectedTransfer : TxResult :=
  { digest := "9xQk", effects := some { status := "failure", error := "InsufficientCoinBalance" },
    combat := none }

/-- The answer of the ledger for an attack that was executed. -/
def landedAttack : TxResult :=
  { digest := "7aBc", effects := some { status := "success", error := "undefined" },
    combat := some ("120", "380") }

/-- A registry with one agent, registered without a name. -/
def namelessRegistry : Registry :=
  [("0xaaa", { id := "0xaaa", name := "Unnamed_Agent", secretKey := "c2VjcmV0", apiKey := "sk_1",
               registeredAt := "2026-01-01T00:00:00.000Z" })]

/-- A registry with one agent named `alpha`. -/
def alphaRegistry : Registry :=
  [("0xaaa", { id := "0xaaa", name := "alpha", secretKey := "c2VjcmV0", apiKey := "sk_1",
               registeredAt := "2026-01-01T00:00:00.000Z" })]

/-- A call of `register_agent` without arguments. -/
def namelessCall : RegisterArgs := { agent_id := none, name := none }

/-- A call of `register_agent` that names `alpha`. -/
def alphaCall : RegisterArgs := { agent_id := none, name := some "alpha" }

/-- A fresh key pair with address `0xbbb`, and a ledger call that returns. -/
def freshEnv : RegisterEnv :=
  { newAddress := "0xbbb", newSecretKey := "bmV3", newApiKey := "sk_2",
    now := "2026-01-02T00:00:00.000Z", ledger := .ok "5tXh" }

/-- A fresh key pair with address `0xbbb`, and a ledger call that throws because the
network is down. -/
def offlineEnv : RegisterEnv :=
  { newAddress := "0xbbb", newSecretKey := "bmV3", newApiKey := "sk_2",
    now := "2026-01-02T00:00:00.000Z", ledger := .error "fetch failed" }

/-- Four attacks on the boss `0xb055` by two attackers, and one attack on another boss. -/
def sampleAttacks : List StatEvent :=
  [{ parsedJson := some { boss_id := "0xb055", attacker := "0xa1", damage := .str "10" } },
   { parsedJson := some { boss_id := "0xb055", attacker := "0xa2", damage := .str "25" } },
   { parsedJson := some { boss_id := "0x0ther", attacker := "0xa1", damage := .str "99" } },
   { parsedJson := none },
   { parsedJson := some { boss_id := "0xb055", attacker := "0xa1", damage := .str "7" } },
   { parsedJson := some { boss_id := "0xb055", attacker := "0xa2", damage := .str "1" } }]

/-- The withdrawal configuration of `Strategy_Aggressive.js`. -/
def aggressiveConfig : WithdrawConfig :=
  { withdrawThreshold := JSNumber.ofInt 50,
    withdrawAddress :=
      some "0xf89a3f7ae3c528f13b3ce2a62d688e9263d8b93a2d0bdeec85c0300e425b32d3" }

/-- A boss as `list_bosses` lists it: alive, with an attack cost of one SUI. -/
def goblinKing : ListedBoss :=
  { id := "0x567", name := .str "Goblin King", hp := .str "500", max_hp := .str "500",
    is_alive := .bool true, attack_cost := "1.00 SUI" }

/-- A boss as `list_bosses` lists it: `is_alive` is false while `hp` is still positive. -/
def fallenKing : ListedBoss :=
  { id := "0x568", name := .str "Fallen King", hp := .str "20", max_hp := .str "500",
    is_alive := .bool false, attack_cost := "1.00 SUI" }

/-! ## Lemmas on the dedup set -/

theorem setAdd_of_not_mem {s : List DedupKey} {k : DedupKey} (h : k ∉ s) :
    setAdd s k = s ++ [k] := by
  simp [setAdd, h]

theorem markProcessed_of_lt {s : List DedupKey} {k : DedupKey} (h : k ∉ s)
    (hl : s.length < 100) : markProcessed s k = s ++ [k] := by
  have h1 : ¬ (s.length + 1 > 100) := by omega
  simp [markProcessed, setAdd_of_not_mem h, h1]

theorem markProcessed_of_full {a : DedupKey} {s : List DedupKey} {k : DedupKey}
    (h : k ∉ a :: s) (hl : 100 ≤ (a :: s).length) : markProcessed (a :: s) k = s ++ [k] := by
  have h1 : (a :: s).length + 1 > 100 := by omega
  simp only [markProcessed, setAdd_of_not_mem h, List.length_append, List.length_singleton, h1,
    if_true]
  simp [setDeleteFirst]

theorem markProcessed_length_le (s : List DedupKey) (k : DedupKey) (hl : s.length ≤ 100) :
    (markProcessed s k).length ≤ 100 := by
  by_cases hk : k ∈ s
  · have h1 : ¬ (s.length > 100) := by omega
    simp [markProcessed, setAdd, hk, h1, hl]
  · rcases Nat.lt_or_ge s.length 100 with h | h
    · rw [markProcessed_of_lt hk h]; simp; omega
    · cases s with
      | nil => simp at h
      | cons a t =>
        rw [markProcessed_of_full hk h]
        simp at hl ⊢; omega

theorem markProcessed_nodup (s : List DedupKey) (k : DedupKey) (hn : s.Nodup) :
    (markProcessed s k).Nodup := by
  have h1 : (setAdd s k).Nodup := by
    unfold setAdd
    split
    · exact hn
    · rename_i hk
      exact List.Nodup.append hn (List.nodup_singleton k) (by simpa using hk)
  unfold markProcessed
  simp only
  split
  · unfold setDeleteFirst
    split
    · exact List.nodup_nil
    · exact h1.erase _
  · exact h1

/-! ## Lemmas on the filter pass -/

theorem filterNew_append (last : JSNum) (s : List DedupKey) (l1 l2 : List Event) :
    filterNew last s (l1 ++ l2) =
      ((filterNew last (filterNew last s l1).1 l2).1,
        (filterNew last s l1).2 ++ (filterNew last (filterNew last s l1).1 l2).2) := by
  induction l1 generalizing s with
  | nil => simp [filterNew]
  | cons e es ih =>
    simp only [List.cons_append, filterNew]
    split
    · simp [ih]
    · simp [ih]

theorem filterNew_length_le (last : JSNum) (s : List DedupKey) (l : List Event)
    (hl : s.length ≤ 100) : (filterNew last s l).1.length ≤ 100 := by
  induction l generalizing s with
  | nil => simpa [filterNew] using hl
  | cons e es ih =>
    simp only [filterNew]
    split
    · exact ih _ (markProcessed_length_le s _ hl)
    · exact ih _ hl

theorem filterNew_nodup (last : JSNum) (s : List DedupKey) (l : List Event)
    (hn : s.Nodup) : (filterNew last s l).1.Nodup := by
  induction l generalizing s with
  | nil => simpa [filterNew] using hn
  | cons e es ih =>
    simp only [filterNew]
    split
    · exact ih _ (markProcessed_nodup s _ hn)
    · exact ih _ hn

theorem filterNew_kept_ge (last : JSNum) (s : List DedupKey) (l : List Event) :
    ∀ e ∈ (filterNew last s l).2, jsGe (parseInt e.timestamp) last = true := by
  induction l generalizing s with
  | nil => simp [filterNew]
  | cons e es ih =>
    simp only [filterNew]
    split
    · rename_i h
      intro x hx
      simp only [List.mem_cons] at hx
      rcases hx with rfl | hx
      · simp only [isNew, Bool.and_eq_true] at h
        exact h.1
      · exact ih _ x hx
    · exact ih _

theorem filterNew_kept_sublist (last : JSNum) (s : List DedupKey) (l : List Event) :
    (filterNew last s l).2.Sublist l := by
  induction l generalizing s with
  | nil => simp [filterNew]
  | cons e es ih =>
    simp only [filterNew]
    split
    · exact (ih _).cons₂ e
    · exact (ih _).cons e

theorem jsGe_some {a b : JSNum} (h : jsGe a b = true) :
    ∃ x y, a = some x ∧ b = some y ∧ y ≤ x := by
  cases a <;> cases b <;> simp [jsGe] at h
  exact ⟨_, _, rfl, rfl, h⟩

/-! ## Lemmas on the sort and on the dispatch loop -/

theorem tsBefore_iff_keyLe {a b : Event} (ha : Numeric a) (hb : Numeric b) :
    tsBefore a b ↔ keyLe a b := by
  obtain ⟨x, hx⟩ := ha
  obtain ⟨y, hy⟩ := hb
  simp only [tsBefore, keyLe, tsKey, hx, hy, jsSub, Option.getD_some]
  omega

theorem orderedInsert_congr (a : Event) (l : List Event) (ha : Numeric a)
    (hl : ∀ e ∈ l, Numeric e) :
    l.orderedInsert tsBefore a = l.orderedInsert keyLe a := by
  induction l with
  | nil => rfl
  | cons b t ih =>
    have hb : Numeric b := hl b (List.mem_cons_self _ _)
    have ht : ∀ e ∈ t, Numeric e := fun e he => hl e (List.mem_cons_of_mem _ he)
    simp only [List.orderedInsert]
    by_cases h : tsBefore a b
    · have h2 : keyLe a b := (tsBefore_iff_keyLe ha hb).1 h
      simp [h, h2]
    · have h2 : ¬ keyLe a b := fun hk => h ((tsBefore_iff_keyLe ha hb).2 hk)
      simp [h, h2, ih ht]

theorem sortByTimestamp_eq (l : List Event) (hl : ∀ e ∈ l, Numeric e) :
    sortByTimestamp l = l.insertionSort keyLe := by
  unfold sortByTimestamp
  induction l with
  | nil => rfl
  | cons a t ih =>
    have ht : ∀ e ∈ t, Numeric e := fun e he => hl e (List.mem_cons_of_mem _ he)
    simp only [List.insertionSort]
    rw [ih ht]
    apply orderedInsert_congr a _ (hl a (List.mem_cons_self _ _))
    intro e he
    exact ht e ((List.perm_insertionSort keyLe t).mem_iff.1 he)

theorem sortByTimestamp_perm (l : List Event) : (sortByTimestamp l).Perm l :=
  List.perm_insertionSort tsBefore l

theorem dispatch_calls_initial (throws : Event → Bool) (last : JSNum) (l : List Event) :
    (dispatch throws last l).2.1 <+: l := by
  induction l generalizing last with
  | nil => simp [dispatch]
  | cons e es ih =>
    simp only [dispatch]
    split
    · exact ⟨es, rfl⟩
    · obtain ⟨t, ht⟩ := ih (jsMax last (parseInt e.timestamp))
      exact ⟨t, by simp [ht]⟩

theorem dispatch_cursor_ge (throws : Event → Bool) (t : Int) (l : List Event)
    (hl : ∀ e ∈ l, Numeric e) :
    ∃ u, (dispatch throws (some t) l).1 = some u ∧ t ≤ u := by
  induction l generalizing t with
  | nil => exact ⟨t, rfl, le_refl t⟩
  | cons e es ih =>
    simp only [dispatch]
    split
    · exact ⟨t, rfl, le_refl t⟩
    · obtain ⟨x, hx⟩ := hl e (List.mem_cons_self _ _)
      have ht : ∀ a ∈ es, Numeric a := fun a ha => hl a (List.mem_cons_of_mem _ ha)
      obtain ⟨u, hu, hle⟩ := ih (max t x) ht
      refine ⟨u, ?_, le_trans (le_max_left t x) hle⟩
      simpa [hx, jsMax] using hu

theorem kept_numeric (last : JSNum) (s : List DedupKey) (l : List Event) :
    ∀ e ∈ sortByTimestamp (filterNew last s l).2, Numeric e := by
  intro e he
  have h1 : e ∈ (filterNew last s l).2 := (sortByTimestamp_perm _).mem_iff.1 he
  obtain ⟨x, _, hx, _, _⟩ := jsGe_some (filterNew_kept_ge last s l e h1)
  exact ⟨x, hx⟩

theorem tick_set_inv (throws : Event → Bool) (st : AgentState) (p : PollResult)
    (hn : st.processedEventDigests.Nodup) (hl : st.processedEventDigests.length ≤ 100) :
    (tick throws st p).1.processedEventDigests.Nodup ∧
      (tick throws st p).1.processedEventDigests.length ≤ 100 := by
  cases p with
  | callThrows => exact ⟨hn, hl⟩
  | notJson t => exact ⟨hn, hl⟩
  | errorObject m => exact ⟨hn, hl⟩
  | events es =>
    exact ⟨filterNew_nodup _ _ es hn, filterNew_length_le _ _ es hl⟩

theorem runTicks_set_inv (throws : Event → Bool) (st : AgentState) (polls : List PollResult)
    (hn : st.processedEventDigests.Nodup) (hl : st.processedEventDigests.length ≤ 100) :
    (runTicks throws st polls).1.processedEventDigests.Nodup ∧
      (runTicks throws st polls).1.processedEventDigests.length ≤ 100 := by
  induction polls generalizing st with
  | nil => exact ⟨hn, hl⟩
  | cons p ps ih =>
    simp only [runTicks]
    exact ih _ (tick_set_inv throws st p hn hl).1 (tick_set_inv throws st p hn hl).2

/-! ## The claims on `BaseAgent.listenToEvents` -/

/-- C4: the cursor only moves forward. From a numeric cursor `t`, whatever the poll
result (events with a missing or non-numeric timestamp included) and whatever the
callback does, the cursor after the tick is a number that is at least `t`. -/
theorem cursor_only_moves_forward (throws : Event → Bool) (t : Int) (s : List DedupKey)
    (p : PollResult) :
    ∃ u, (tick throws { lastEventTimestamp := some t, processedEventDigests := s }
        p).1.lastEventTimestamp = some u ∧ t ≤ u := by
  cases p with
  | callThrows => exact ⟨t, rfl, le_refl t⟩
  | notJson x => exact ⟨t, rfl, le_refl t⟩
  | errorObject m => exact ⟨t, rfl, le_refl t⟩
  | events es =>
    simp only [tick]
    exact dispatch_cursor_ge throws t _ (kept_numeric (some t) s es)

/-- C5: within one tick the callback is invoked in ascending order of
`parseInt(timestamp)`: of any two events dispatched in the tick, the one dispatched first
has a numeric timestamp that is at most the numeric timestamp of the other. -/
theorem dispatch_in_ascending_timestamp_order (throws : Event → Bool) (st : AgentState)
    (p : PollResult) :
    (tick throws st p).2.Pairwise (fun a b =>
      ∃ x y, parseInt a.timestamp = some x ∧ parseInt b.timestamp = some y ∧ x ≤ y) := by
  cases p with
  | callThrows => exact List.Pairwise.nil
  | notJson x => exact List.Pairwise.nil
  | errorObject m => exact List.Pairwise.nil
  | events es =>
    simp only [tick]
    have hnum := kept_numeric st.lastEventTimestamp st.processedEventDigests es
    have hsorted : (sortByTimestamp (filterNew st.lastEventTimestamp
        st.processedEventDigests es).2).Pairwise keyLe := by
      rw [sortByTimestamp_eq _ (fun e he => by
        obtain ⟨x, _, hx, _, _⟩ := jsGe_some (filterNew_kept_ge _ _ es e he)
        exact ⟨x, hx⟩)]
      exact List.sorted_insertionSort keyLe _
    have hsub := (dispatch_calls_initial throws st.lastEventTimestamp
      (sortByTimestamp (filterNew st.lastEventTimestamp st.processedEventDigests es).2)).sublist
    have h1 := hsorted.sublist hsub
    refine List.Pairwise.imp_of_mem ?_ h1
    intro a b ha hb hab
    obtain ⟨x, hx⟩ := hnum a (hsub.subset ha)
    obtain ⟨y, hy⟩ := hnum b (hsub.subset hb)
    refine ⟨x, y, hx, hy, ?_⟩
    simpa [keyLe, tsKey, hx, hy] using hab

/-- C6: the dedup set is capacity-bounded with oldest-first eviction. After every run of
ticks from the start state the set holds at most 100 identifiers; and when a new
identifier is inserted into a set of 100, the identifier removed is the first one in
insertion order, the new one stays, and the others keep their order. -/
theorem dedup_set_bounded_oldest_evicted :
    (∀ (throws : Event → Bool) (now : Int) (polls : List PollResult),
      (runTicks throws (startState now) polls).1.processedEventDigests.length ≤ 100) ∧
    (∀ (oldest : DedupKey) (rest : List DedupKey) (k : DedupKey),
      (oldest :: rest).Nodup → k ∉ oldest :: rest → (oldest :: rest).length = 100 →
        markProcessed (oldest :: rest) k = rest ++ [k] ∧
          oldest ∉ markProcessed (oldest :: rest) k ∧ k ∈ markProcessed (oldest :: rest) k) := by
  constructor
  · intro throws now polls
    exact (runTicks_set_inv throws (startState now) polls List.nodup_nil (by simp [startState])).2
  · intro oldest rest k hn hk hl
    have h := markProcessed_of_full hk (le_of_eq hl.symm)
    rw [h]
    refine ⟨rfl, ?_, by simp⟩
    intro hmem
    rcases List.mem_append.1 hmem with h1 | h1
    · exact (List.nodup_cons.1 hn).1 h1
    · simp only [List.mem_singleton] at h1
      exact hk (by simp [h1])

/-- C8: a failed fetch is invisible to downstream state. When the `list_events` call
throws, or its text is not JSON, or its text is the error object of the tool, the tick
invokes no callback and leaves the cursor and the dedup set as they were; when
`client.queryEvents` throws, `pollKillEvents` examines no event and leaves
`lastProcessedEventId` and `createQueue` as they were. -/
theorem failed_fetch_changes_nothing (throws : Event → Bool) (st : AgentState)
    (text message : String) (getObject : String → GetObjectResult) (ost : OracleState) :
    tick throws st .callThrows = (st, []) ∧
      tick throws st (.notJson text) = (st, []) ∧
      tick throws st (.errorObject message) = (st, []) ∧
      pollKillEvents getObject ost none = (ost, []) :=
  ⟨rfl, rfl, rfl, rfl⟩

theorem filterNew_skip_seen (last : JSNum) (s : List DedupKey) (pre post : List Event)
    (e : Event) (h : eventId e ∈ (filterNew last s pre).1) :
    filterNew last s (pre ++ e :: post) = filterNew last s (pre ++ post) := by
  rw [filterNew_append, filterNew_append]
  have h1 : isNew last (filterNew last s pre).1 e = false := by
    simp [isNew, h]
  simp [filterNew, h1]

theorem filterNew_ids_nodup (last : JSNum) (es : List Event) :
    ∀ (rest K : List DedupKey), (rest ++ K).Nodup → (rest ++ K).length ≤ 100 →
      K.length + es.length ≤ 101 →
      (K ++ (filterNew last (rest ++ K) es).2.map eventId).Nodup := by
  induction es with
  | nil =>
    intro rest K hn _ _
    simpa [filterNew] using (List.nodup_append.1 hn).2.1
  | cons e es ih =>
    intro rest K hn hl hk
    simp only [filterNew]
    split
    · rename_i hnew
      have hid : eventId e ∉ rest ++ K := by
        simp only [isNew, Bool.and_eq_true, Bool.not_eq_true', decide_eq_false_iff_not] at hnew
        exact hnew.2
      have hnod : (rest ++ K ++ [eventId e]).Nodup :=
        List.Nodup.append hn (List.nodup_singleton _) (by simpa using hid)
      simp only [List.map_cons]
      rcases Nat.lt_or_ge (rest ++ K).length 100 with hlt | hge
      · rw [markProcessed_of_lt hid hlt]
        have := ih rest (K ++ [eventId e]) (by simpa using hnod)
          (by simp at hlt ⊢; omega) (by simp at hk ⊢; omega)
        simpa using this
      · cases rest with
        | nil =>
          have hes : es = [] := by
            simp at hge hk
            exact List.length_eq_zero.1 (by omega)
          subst hes
          simp only [List.nil_append] at hnod
          simpa [filterNew] using hnod
        | cons r rs =>
          have hfull : markProcessed (r :: (rs ++ K)) (eventId e) = (rs ++ K) ++ [eventId e] :=
            markProcessed_of_full (by simpa using hid) (by simpa using hge)
          simp only [List.cons_append] at hid hnod hge hl ⊢
          rw [hfull]
          have hnod2 : (rs ++ (K ++ [eventId e])).Nodup := by
            have := (List.nodup_cons.1 hnod).2
            simpa using this
          have := ih rs (K ++ [eventId e]) hnod2
            (by simp at hl ⊢; omega) (by simp at hk ⊢; omega)
          simpa using this
    · exact ih rest K hn hl (by simp at hk ⊢; omega)

theorem tick_calls_subperm (throws : Event → Bool) (st : AgentState) (es : List Event) :
    (tick throws st (.events es)).2.Subperm
      (filterNew st.lastEventTimestamp st.processedEventDigests es).2 := by
  simp only [tick]
  exact (dispatch_calls_initial throws _ _).sublist.subperm.trans
    (sortByTimestamp_perm _).subperm

/-- C2 (amended): an event whose identifier is in `processedEventDigests` at the moment
the filter reaches it is not passed to the callback, the tick runs as if that occurrence
were not in the poll result; and in every state reached from the start, a poll result of
at most 101 events never leads to two callback invocations with the same identifier. -/
theorem seen_identifier_is_not_dispatched :
    (∀ (throws : Event → Bool) (st : AgentState) (pre post : List Event) (e : Event),
      eventId e ∈ (filterNew st.lastEventTimestamp st.processedEventDigests pre).1 →
        tick throws st (.events (pre ++ e :: post)) = tick throws st (.events (pre ++ post))) ∧
    (∀ (throws : Event → Bool) (now : Int) (history : List PollResult) (es : List Event),
      es.length ≤ 101 →
        ((tick throws (runTicks throws (startState now) history).1 (.events es)).2.map
          eventId).Nodup) := by
  constructor
  · intro throws st pre post e h
    simp only [tick, filterNew_skip_seen _ _ pre post e h]
  · intro throws now history es hlen
    have hinv := runTicks_set_inv throws (startState now) history List.nodup_nil
      (by simp [startState])
    have h1 := filterNew_ids_nodup (runTicks throws (startState now) history).1.lastEventTimestamp
      es (runTicks throws (startState now) history).1.processedEventDigests []
      (by simpa using hinv.1) (by simpa using hinv.2) (by simpa using hlen)
    simp only [List.append_nil, List.nil_append] at h1
    obtain ⟨l, hl1, hl2⟩ := tick_calls_subperm throws
      (runTicks throws (startState now) history).1 es
    exact ((hl1.map eventId).nodup_iff).1 (h1.sublist (hl2.map eventId))

/-! ## Runs without eviction and without a throwing callback -/

theorem dispatch_no_throw (last : JSNum) (l : List Event) :
    (dispatch (fun _ => false) last l).2.1 = l := by
  induction l generalizing last with
  | nil => rfl
  | cons e es ih => simp [dispatch, ih]

theorem tick_no_throw_calls (st : AgentState) (es : List Event) :
    (tick (fun _ => false) st (.events es)).2 =
      sortByTimestamp (filterNew st.lastEventTimestamp st.processedEventDigests es).2 := by
  simp [tick, dispatch_no_throw]

theorem length_lt_of_new {U S : List DedupKey} {k : DedupKey} (hU : U.length ≤ 100)
    (hS : S.Nodup) (hSU : S ⊆ U) (hk : k ∈ U) (hkS : k ∉ S) : S.length < 100 := by
  have hn : (k :: S).Nodup := List.nodup_cons.2 ⟨hkS, hS⟩
  have hsub : (k :: S) ⊆ U := by
    intro x hx
    rcases List.mem_cons.1 hx with rfl | hx
    · exact hk
    · exact hSU hx
  have := (List.subperm_of_subset hn hsub).length_le
  simp at this
  omega

theorem filterNew_no_evict (last : JSNum) (U : List DedupKey) (hU : U.length ≤ 100)
    (es : List Event) :
    ∀ (S : List DedupKey), S.Nodup → S ⊆ U → (∀ e ∈ es, eventId e ∈ U) →
      (filterNew last S es).1 = S ++ (filterNew last S es).2.map eventId ∧
      (filterNew last S es).1 ⊆ U ∧
      (∀ e ∈ es, jsGe (parseInt e.timestamp) last = true →
        eventId e ∈ (filterNew last S es).1) := by
  induction es with
  | nil =>
    intro S _ hSU _
    simp [filterNew, hSU]
  | cons e es ih =>
    intro S hS hSU hes
    have hes2 : ∀ x ∈ es, eventId x ∈ U := fun x hx => hes x (List.mem_cons_of_mem _ hx)
    simp only [filterNew]
    split
    · rename_i hnew
      simp only [isNew, Bool.and_eq_true, Bool.not_eq_true', decide_eq_false_iff_not] at hnew
      have hlt := length_lt_of_new hU hS hSU (hes e (List.mem_cons_self _ _)) hnew.2
      rw [markProcessed_of_lt hnew.2 hlt]
      have hS2 : (S ++ [eventId e]).Nodup :=
        List.Nodup.append hS (List.nodup_singleton _) (by simpa using hnew.2)
      have hSU2 : S ++ [eventId e] ⊆ U := by
        intro x hx
        rcases List.mem_append.1 hx with hx | hx
        · exact hSU hx
        · simp only [List.mem_singleton] at hx
          subst hx
          exact hes e (List.mem_cons_self _ _)
      obtain ⟨h1, h2, h3⟩ := ih (S ++ [eventId e]) hS2 hSU2 hes2
      refine ⟨by simpa using h1, h2, ?_⟩
      intro x hx hge
      rcases List.mem_cons.1 hx with rfl | hx
      · rw [h1]
        simp
      · exact h3 x hx hge
    · rename_i hnew
      obtain ⟨h1, h2, h3⟩ := ih S hS hSU hes2
      refine ⟨h1, h2, ?_⟩
      intro x hx hge
      rcases List.mem_cons.1 hx with rfl | hx
      · have hx2 : eventId x ∈ S := by
          by_contra hc
          exact hnew (by simp [isNew, hge, hc])
        rw [h1]
        exact List.mem_append_left _ hx2
      · exact h3 x hx hge

theorem runTicks_no_evict (U : List DedupKey) (hU : U.length ≤ 100)
    (polls : List (List Event)) :
    ∀ (st : AgentState), st.processedEventDigests.Nodup → st.processedEventDigests ⊆ U →
      (∀ p ∈ polls, ∀ e ∈ p, eventId e ∈ U) →
      ((runTicks (fun _ => false) st (polls.map PollResult.events)).1.processedEventDigests.Perm
        (st.processedEventDigests ++
          (runTicks (fun _ => false) st (polls.map PollResult.events)).2.map eventId)) ∧
      (∀ e ∈ (runTicks (fun _ => false) st (polls.map PollResult.events)).2,
        ∃ i p, polls[i]? = some p ∧ e ∈ p ∧
          jsGe (parseInt e.timestamp) (stateBefore st polls i).lastEventTimestamp = true) ∧
      (∀ i p e, polls[i]? = some p → e ∈ p →
        jsGe (parseInt e.timestamp) (stateBefore st polls i).lastEventTimestamp = true →
        eventId e ∈
          (runTicks (fun _ => false) st (polls.map PollResult.events)).1.processedEventDigests) := by
  induction polls with
  | nil =>
    intro st _ _ _
    simp [runTicks]
  | cons p ps ih =>
    intro st hS hSU hids
    have hp : ∀ e ∈ p, eventId e ∈ U := hids p (List.mem_cons_self _ _)
    have hps : ∀ q ∈ ps, ∀ e ∈ q, eventId e ∈ U :=
      fun q hq => hids q (List.mem_cons_of_mem _ hq)
    obtain ⟨f1, f2, f3⟩ := filterNew_no_evict st.lastEventTimestamp U hU p
      st.processedEventDigests hS hSU hp
    have hset1 : (tick (fun _ => false) st (.events p)).1.processedEventDigests =
        (filterNew st.lastEventTimestamp st.processedEventDigests p).1 := rfl
    have hn1 : (tick (fun _ => false) st (.events p)).1.processedEventDigests.Nodup :=
      filterNew_nodup _ _ p hS
    obtain ⟨a, b, c⟩ := ih (tick (fun _ => false) st (.events p)).1 hn1
      (by rw [hset1]; exact f2) hps
    have hcalls := tick_no_throw_calls st p
    have hperm1 : ((tick (fun _ => false) st (.events p)).2.map eventId).Perm
        ((filterNew st.lastEventTimestamp st.processedEventDigests p).2.map eventId) := by
      rw [hcalls]
      exact (sortByTimestamp_perm _).map eventId
    simp only [List.map_cons, runTicks]
    refine ⟨?_, ?_, ?_⟩
    · refine a.trans ?_
      rw [hset1, f1, List.map_append, List.append_assoc]
      exact List.Perm.append_left _ (List.Perm.append_right _ hperm1.symm)
    · intro e he
      rcases List.mem_append.1 he with he | he
      · refine ⟨0, p, List.getElem?_cons_zero, ?_, ?_⟩
        · rw [hcalls] at he
          exact (filterNew_kept_sublist _ _ p).subset ((sortByTimestamp_perm _).mem_iff.1 he)
        · rw [hcalls] at he
          simpa [stateBefore, runTicks] using
            filterNew_kept_ge _ _ p e ((sortByTimestamp_perm _).mem_iff.1 he)
      · obtain ⟨i, q, hq, heq, hge⟩ := b e he
        refine ⟨i + 1, q, by simpa using hq, heq, ?_⟩
        simpa [stateBefore, runTicks] using hge
    · intro i q e hq heq hge
      cases i with
      | zero =>
        simp only [List.getElem?_cons_zero, Option.some.injEq] at hq
        subst hq
        have h0 : eventId e ∈ (tick (fun _ => false) st (.events p)).1.processedEventDigests := by
          rw [hset1]
          exact f3 e heq (by simpa [stateBefore, runTicks] using hge)
        exact a.mem_iff.2 (List.mem_append_left _ h0)
      | succ j =>
        exact c j q e (by simpa using hq) heq (by simpa [stateBefore, runTicks] using hge)

/-- C1 (amended): exactly-once dispatch below the capacity of the dedup set. For every
sequence of poll results in which no two distinct events share a dedup identifier and at
most 100 distinct identifiers occur, handed to ticks whose callback does not throw, no
event is passed to the callback twice, and an event is passed to the callback exactly
when some poll result delivers it with a timestamp that is not earlier than the cursor
`lastEventTimestamp` at the start of that tick. -/
theorem each_event_dispatched_exactly_once (now : Int) (polls : List (List Event))
    (hid : ∀ p ∈ polls, ∀ q ∈ polls, ∀ a ∈ p, ∀ b ∈ q, eventId a = eventId b → a = b)
    (hcap : ((polls.flatten.map eventId).dedup).length ≤ 100) :
    (runTicks (fun _ => false) (startState now) (polls.map PollResult.events)).2.Nodup ∧
    ∀ e, e ∈ (runTicks (fun _ => false) (startState now) (polls.map PollResult.events)).2 ↔
      ∃ i p, polls[i]? = some p ∧ e ∈ p ∧
        jsGe (parseInt e.timestamp)
          (stateBefore (startState now) polls i).lastEventTimestamp = true := by
  have hU : ∀ p ∈ polls, ∀ e ∈ p, eventId e ∈ (polls.flatten.map eventId).dedup := by
    intro p hp e he
    rw [List.mem_dedup]
    exact List.mem_map_of_mem _ (List.mem_flatten.2 ⟨p, hp, he⟩)
  obtain ⟨a, b, c⟩ := runTicks_no_evict _ hcap polls (startState now) List.nodup_nil
    (by simp [startState]) hU
  have hinv := runTicks_set_inv (fun _ => false) (startState now)
    (polls.map PollResult.events) List.nodup_nil (by simp [startState])
  have hnod : ((runTicks (fun _ => false) (startState now)
      (polls.map PollResult.events)).2.map eventId).Nodup := by
    have := a.nodup_iff.1 hinv.1
    simpa [startState] using this
  refine ⟨hnod.of_map _, ?_⟩
  intro e
  constructor
  · exact b e
  · rintro ⟨i, p, hp, hep, hge⟩
    have h1 := a.mem_iff.1 (c i p e hp hep hge)
    simp only [startState, List.nil_append, List.mem_map] at h1
    obtain ⟨x, hx, hxe⟩ := h1
    obtain ⟨j, q, hq, hxq, _⟩ := b x hx
    have := hid q (List.getElem?_mem hq) p (List.getElem?_mem hp) x hxq e hep hxe
    rw [← this]
    exact hx

/-! ## Lemmas on `pollKillEvents` -/

theorem queueHas_iff (q : CreateQueue) (k : String) :
    queueHas q k = true ↔ k ∈ q.map Prod.fst := by
  simp only [queueHas, List.any_eq_true, beq_iff_eq, List.mem_map]

theorem queueSet_of_absent (q : CreateQueue) (k : String) (v : Task)
    (h : ¬ queueHas q k = true) : queueSet q k v = q ++ [(k, v)] := by
  simp [queueSet, h]

theorem handleEvent_grows (getObject : String → GetObjectResult) (q q1 : CreateQueue)
    (e : CombatEvent) (h : handleEvent getObject q e = some q1) :
    q <+: q1 ∧ ((q.map Prod.fst).Nodup → (q1.map Prod.fst).Nodup) := by
  unfold handleEvent at h
  split at h
  · cases h
    exact ⟨List.prefix_refl q, id⟩
  · rename_i j _
    split at h
    · split at h
      · cases h
        exact ⟨List.prefix_refl q, id⟩
      · rename_i hhas
        split at h
        · cases h
        · cases h
          exact ⟨List.prefix_refl q, id⟩
        · cases h
          rw [queueSet_of_absent q _ _ hhas]
          refine ⟨List.prefix_append q _, ?_⟩
          intro hn
          rw [List.map_append]
          refine List.Nodup.append hn (by simp) ?_
          have hk : j.boss_id ∉ q.map Prod.fst := fun hm => hhas ((queueHas_iff q _).2 hm)
          simpa using hk
    · cases h
      exact ⟨List.prefix_refl q, id⟩

theorem killLoop_grows (getObject : String → GetObjectResult) (last : Option String)
    (data : List CombatEvent) :
    ∀ (q : CreateQueue), q <+: (killLoop getObject last q data).createQueue ∧
      ((q.map Prod.fst).Nodup →
        ((killLoop getObject last q data).createQueue.map Prod.fst).Nodup) := by
  induction data with
  | nil =>
    intro q
    exact ⟨List.prefix_refl q, id⟩
  | cons e es ih =>
    intro q
    simp only [killLoop]
    split
    · exact ⟨List.prefix_refl q, id⟩
    · cases hh : handleEvent getObject q e with
      | none => exact ⟨List.prefix_refl q, id⟩
      | some q1 =>
        obtain ⟨h1, h2⟩ := handleEvent_grows getObject q q1 e hh
        obtain ⟨h3, h4⟩ := ih q1
        exact ⟨h1.trans h3, fun hn => h4 (h2 hn)⟩

theorem pollKillEvents_queue (getObject : String → GetObjectResult) (st : OracleState)
    (data : List CombatEvent) :
    (pollKillEvents getObject st (some data)).1.createQueue =
      (killLoop getObject st.lastProcessedEventId st.createQueue data).createQueue := by
  simp only [pollKillEvents]
  split <;> rfl

/-! ## The claims on the enqueue of the respawn oracle -/

/-- C10: enqueue is idempotent and first-writer-wins. Whatever page a poll receives and
whatever `getObject` answers, every entry that was in `createQueue` before the poll is
still there after it, at the same place with the same `createAt` and `data`; a queue with
one entry per boss id has one entry per boss id afterwards; and a page made of one kill
event for a boss that is already queued leaves `createQueue` unchanged. -/
theorem enqueue_is_idempotent (getObject : String → GetObjectResult) (st : OracleState)
    (page : Option (List CombatEvent))
    (hkeys : (st.createQueue.map Prod.fst).Nodup) :
    st.createQueue <+: (pollKillEvents getObject st page).1.createQueue ∧
      ((pollKillEvents getObject st page).1.createQueue.map Prod.fst).Nodup ∧
      (∀ (e : CombatEvent) (j : KillJson), e.parsedJson = some j → j.is_kill = true →
        queueHas st.createQueue j.boss_id = true →
        (pollKillEvents getObject st (some [e])).1.createQueue = st.createQueue) := by
  refine ⟨?_, ?_, ?_⟩
  · cases page with
    | none => exact List.prefix_refl _
    | some data =>
      rw [pollKillEvents_queue]
      exact (killLoop_grows getObject _ data _).1
  · cases page with
    | none => exact hkeys
    | some data =>
      rw [pollKillEvents_queue]
      exact (killLoop_grows getObject _ data _).2 hkeys
  · intro e j hj hkill hhas
    rw [pollKillEvents_queue]
    have hh : handleEvent getObject st.createQueue e = some st.createQueue := by
      simp [handleEvent, hj, hkill, hhas]
    simp only [killLoop]
    split
    · rfl
    · simp [hh, killLoop]

/-! ## Lemmas on schedules of the oracle -/

theorem oracleEventId_ne_empty (e : CombatEvent) : oracleEventId e ≠ "" := by
  intro h
  have h1 := congrArg String.length h
  simp [oracleEventId, String.length_append] at h1
  have h2 : "_".length = 1 := by decide
  omega

theorem isCursor_none (e : CombatEvent) : isCursor none e = false := rfl

theorem isCursor_of_ne (c : String) (e : CombatEvent) (h : oracleEventId e ≠ c) :
    isCursor (some c) e = false := by
  simp [isCursor, h]

theorem cursorAt_le {last : Option String} {ledger : List CombatEvent} {n : Nat}
    (h : CursorAt last ledger n) : n ≤ ledger.length := by
  cases n with
  | zero => exact Nat.zero_le _
  | succ m =>
    obtain ⟨e, he, _⟩ := h
    have := (List.getElem?_eq_some.1 he).1
    omega

theorem passedBy_eq_take (ledger : List CombatEvent) :
    ∀ (last : Option String) (n : Nat), (ledger.map oracleEventId).Nodup →
      CursorAt last ledger n → passedBy last ledger = ledger.take n := by
  induction ledger with
  | nil =>
    intro last n _ _
    simp [passedBy]
  | cons x xs ih =>
    intro last n hn hc
    cases n with
    | zero =>
      have h0 : last = none := hc
      subst h0
      simp [passedBy]
    | succ m =>
      obtain ⟨e, he, hl⟩ := hc
      subst hl
      have hmem : oracleEventId e ∈ (x :: xs).map oracleEventId :=
        List.mem_map_of_mem _ (List.getElem?_mem he)
      simp only [passedBy, hmem, if_true]
      cases m with
      | zero =>
        simp only [List.getElem?_cons_zero, Option.some.injEq] at he
        subst he
        simp
      | succ k =>
        have he2 : xs[k]? = some e := by simpa using he
        have hx : oracleEventId x ≠ oracleEventId e := by
          intro hxe
          have h1 : oracleEventId x ∉ xs.map oracleEventId := by
            simpa using (List.nodup_cons.1 hn).1
          exact h1 (hxe ▸ List.mem_map_of_mem _ (List.getElem?_mem he2))
        have hrec := ih (some (oracleEventId e)) (k + 1)
          (by simpa using (List.nodup_cons.1 hn).2) ⟨e, he2, rfl⟩
        simp [hx, hrec]

theorem killLoop_examines (g : String → GetObjectResult) (last : Option String)
    (news : List CombatEvent) :
    ∀ (rest : List CombatEvent) (q : CreateQueue),
      (∀ e ∈ news, isCursor last e = false) →
      (killLoop g last q (news ++ rest)).threw = false →
      ∀ e ∈ news, e ∈ (killLoop g last q (news ++ rest)).examined := by
  induction news with
  | nil =>
    intro rest q _ _ e he
    simp at he
  | cons x xs ih =>
    intro rest q hcur hthrew e he
    have hx : isCursor last x = false := hcur x (List.mem_cons_self _ _)
    simp only [List.cons_append, killLoop, hx] at hthrew ⊢
    cases hh : handleEvent g q x with
    | none => simp [hh] at hthrew
    | some q1 =>
      simp only [hh] at hthrew ⊢
      rcases List.mem_cons.1 he with rfl | he
      · simp
      · exact List.mem_cons_of_mem _
          (ih rest q1 (fun a ha => hcur a (List.mem_cons_of_mem _ ha)) hthrew e he)

theorem runWorld_cons (w : World) (s : OracleStep) (r : List OracleStep) :
    runWorld w (s :: r) = runWorld (stepWorld w s) r := rfl

theorem stepWorld_ledger_grows (w : World) (s : OracleStep) :
    w.ledger <+: (stepWorld w s).ledger := by
  cases s with
  | emit es => exact List.prefix_append _ _
  | poll g =>
    cases g with
    | none => exact List.prefix_refl _
    | some g => exact List.prefix_refl _

theorem runWorld_ledger_grows (steps : List OracleStep) :
    ∀ w : World, w.ledger <+: (runWorld w steps).ledger := by
  induction steps with
  | nil => intro w; exact List.prefix_refl _
  | cons s r ih =>
    intro w
    rw [runWorld_cons]
    exact (stepWorld_ledger_grows w s).trans (ih _)

theorem inv_emit (w : World) (es : List CombatEvent) (h : Inv w) :
    Inv (stepWorld w (.emit es)) := by
  obtain ⟨n, hc, hex⟩ := h
  have hle := cursorAt_le hc
  refine ⟨n, ?_, ?_⟩
  · cases n with
    | zero => exact hc
    | succ m =>
      obtain ⟨e, he, hl⟩ := hc
      refine ⟨e, ?_, hl⟩
      simp only [stepWorld]
      rw [List.getElem?_append_left (by omega)]
      exact he
  · intro e he
    simp only [stepWorld] at he ⊢
    rw [List.take_append_of_le_length hle] at he
    exact hex e he

theorem not_cursor_beyond (ledger : List CombatEvent) (last : Option String) (n : Nat)
    (hn : (ledger.map oracleEventId).Nodup) (hc : CursorAt last ledger n) :
    ∀ e ∈ ledger.drop n, isCursor last e = false := by
  intro e he
  cases n with
  | zero =>
    have h0 : last = none := hc
    subst h0
    rfl
  | succ m =>
    obtain ⟨c, hcm, hl⟩ := hc
    subst hl
    apply isCursor_of_ne
    intro heq
    have hsplit : (ledger.take (m + 1) ++ ledger.drop (m + 1)).map oracleEventId =
        ledger.map oracleEventId := by rw [List.take_append_drop]
    rw [← hsplit, List.map_append] at hn
    have hdisj := (List.nodup_append.1 hn).2.2
    have hc1 : c ∈ ledger.take (m + 1) := by
      apply List.getElem?_mem (n := m)
      rw [List.getElem?_take_of_lt (Nat.lt_succ_self m)]
      exact hcm
    exact hdisj (List.mem_map_of_mem _ hc1) (heq ▸ List.mem_map_of_mem _ he)

theorem queryEvents_split (ledger : List CombatEvent) (n : Nat)
    (h : ledger.length - n ≤ 20) :
    ∃ rest, queryEvents ledger = (ledger.drop n).reverse ++ rest := by
  refine ⟨((ledger.take n).reverse).take (20 - (ledger.drop n).reverse.length), ?_⟩
  have h1 : ledger.reverse = (ledger.drop n).reverse ++ (ledger.take n).reverse := by
    rw [← List.reverse_append, List.take_append_drop]
  have h2 : (ledger.drop n).reverse.length ≤ 20 := by simpa using h
  unfold queryEvents
  rw [h1, List.take_append_eq_append_take, List.take_of_length_le h2]

theorem queryEvents_head (L : List CombatEvent) (b : CombatEvent) :
    ∃ t, queryEvents (L ++ [b]) = b :: t := by
  refine ⟨L.reverse.take 19, ?_⟩
  simp [queryEvents]

theorem inv_poll (w : World) (g : String → GetObjectResult) (h : Inv w)
    (hn : (w.ledger.map oracleEventId).Nodup)
    (hlim : completes w g = true → pendingCount w ≤ 20) :
    Inv (stepWorld w (.poll (some g))) := by
  obtain ⟨n, hc, hex⟩ := h
  have hle := cursorAt_le hc
  by_cases hthrew : (killLoop g w.st.lastProcessedEventId w.st.createQueue
      (queryEvents w.ledger)).threw = true
  · refine ⟨n, ?_, ?_⟩
    · simpa [stepWorld, pollKillEvents, hthrew] using hc
    · intro e he
      simp only [stepWorld] at he ⊢
      exact List.mem_append_left _ (hex e he)
  · have hthrew2 : (killLoop g w.st.lastProcessedEventId w.st.createQueue
        (queryEvents w.ledger)).threw = false := by simpa using hthrew
    have hpend : w.ledger.length - n ≤ 20 := by
      have := hlim (by simp [completes, hthrew2])
      rw [pendingCount, passedBy_eq_take w.ledger _ n hn hc] at this
      simpa [List.length_take, Nat.min_eq_left hle] using this
    obtain ⟨rest, hpage⟩ := queryEvents_split w.ledger n hpend
    have hnew : ∀ e ∈ w.ledger.drop n,
        e ∈ (killLoop g w.st.lastProcessedEventId w.st.createQueue
          (queryEvents w.ledger)).examined := by
      intro e he
      have hcur : ∀ a ∈ (w.ledger.drop n).reverse,
          isCursor w.st.lastProcessedEventId a = false :=
        fun a ha => not_cursor_beyond w.ledger _ n hn hc a (List.mem_reverse.1 ha)
      rw [hpage] at hthrew2 ⊢
      exact killLoop_examines g _ _ rest _ hcur hthrew2 e (List.mem_reverse.2 he)
    have hall : ∀ e ∈ w.ledger, e ∈ (stepWorld w (.poll (some g))).examined := by
      intro e he
      rw [← List.take_append_drop n w.ledger] at he
      simp only [stepWorld, pollKillEvents, hthrew2]
      rcases List.mem_append.1 he with h1 | h1
      · exact List.mem_append_left _ (hex e h1)
      · exact List.mem_append_right _ (by simpa using hnew e h1)
    rcases List.eq_nil_or_concat w.ledger with hnil | ⟨L, b, hL⟩
    · refine ⟨0, ?_, by simp⟩
      have hn0 : n = 0 := by
        rw [hnil] at hle
        simpa using hle
      subst hn0
      have h0 : w.st.lastProcessedEventId = none := hc
      simp [stepWorld, pollKillEvents, hthrew2, hnil, queryEvents, CursorAt, h0]
    · rw [List.concat_eq_append] at hL
      obtain ⟨t, ht⟩ := queryEvents_head L b
      refine ⟨w.ledger.length, ?_, ?_⟩
      · have hlen : w.ledger.length = L.length + 1 := by rw [hL]; simp
        rw [hlen]
        refine ⟨b, ?_, ?_⟩
        · simp only [stepWorld]
          rw [hL]
          exact List.getElem?_concat_length L b
        · simp only [stepWorld, pollKillEvents, hthrew2]
          rw [hL, ht]
          simp
      · intro e he
        have he2 : e ∈ w.ledger := by
          simp only [stepWorld] at he
          exact List.mem_of_mem_take he
        exact hall e he2

theorem runWorld_inv (steps : List OracleStep) :
    ∀ w : World, Inv w → withinLimit w steps = true →
      ((runWorld w steps).ledger.map oracleEventId).Nodup → Inv (runWorld w steps) := by
  induction steps with
  | nil =>
    intro w h _ _
    exact h
  | cons s r ih =>
    intro w h hlim hn
    rw [runWorld_cons] at hn ⊢
    have hnw : (w.ledger.map oracleEventId).Nodup :=
      hn.sublist (((stepWorld_ledger_grows w s).trans
        (runWorld_ledger_grows r _)).sublist.map oracleEventId)
    cases s with
    | emit es => exact ih _ (inv_emit w es h) hlim hn
    | poll g =>
      cases g with
      | none => exact ih _ h hlim hn
      | some g =>
        simp only [withinLimit, Bool.and_eq_true, Bool.or_eq_true, Bool.not_eq_true',
          decide_eq_true_eq] at hlim
        refine ih _ (inv_poll w g h hnw ?_) hlim.2 hn
        intro hcomp
        rcases hlim.1 with h1 | h1
        · rw [hcomp] at h1
          cases h1
        · exact h1

theorem handleEvent_new_entry (g : String → GetObjectResult) (q q1 : CreateQueue)
    (e : CombatEvent) (h : handleEvent g q e = some q1) :
    ∀ p ∈ q1, p ∈ q ∨ ∃ f, g p.1 = .content f ∧ p.2 = taskOfFields f := by
  unfold handleEvent at h
  cases hj : e.parsedJson with
  | none =>
    simp only [hj, Option.some.injEq] at h
    subst h
    exact fun p hp => Or.inl hp
  | some j =>
    simp only [hj] at h
    by_cases hk : j.is_kill = true
    · simp only [hk, if_true] at h
      by_cases hq : queueHas q j.boss_id = true
      · simp only [hq, if_true, Option.some.injEq] at h
        subst h
        exact fun p hp => Or.inl hp
      · simp only [hq, Bool.false_eq_true, if_false] at h
        cases hg : g j.boss_id with
        | throws => simp [hg] at h
        | noContent =>
          simp only [hg, Option.some.injEq] at h
          subst h
          exact fun p hp => Or.inl hp
        | content f =>
          simp only [hg, Option.some.injEq] at h
          rw [queueSet_of_absent q _ _ hq] at h
          subst h
          intro p hp
          rw [List.mem_append, List.mem_singleton] at hp
          rcases hp with hp | hp
          · exact Or.inl hp
          · right
            subst hp
            exact ⟨f, hg, rfl⟩
    · simp only [hk, Bool.false_eq_true, if_false, Option.some.injEq] at h
      subst h
      exact fun p hp => Or.inl hp

theorem handleEvent_of_throw (g : String → GetObjectResult) (q : CreateQueue)
    (e : CombatEvent) (j : KillJson) (hj : e.parsedJson = some j) (hk : j.is_kill = true)
    (hq : queueHas q j.boss_id = false) (hg : g j.boss_id = .throws) :
    handleEvent g q e = none := by
  simp [handleEvent, hj, hk, hq, hg]

theorem handleEvent_keeps_unqueued (g : String → GetObjectResult) (q q1 : CreateQueue)
    (x : CombatEvent) (b : String) (h : handleEvent g q x = some q1)
    (hq : queueHas q b = false) (hg : g b = .throws) : queueHas q1 b = false := by
  by_contra hc
  have hc2 : queueHas q1 b = true := by simpa using hc
  rw [queueHas_iff, List.mem_map] at hc2
  obtain ⟨p, hp, hpb⟩ := hc2
  rcases handleEvent_new_entry g q q1 x h p hp with h1 | ⟨f, hf, _⟩
  · have : queueHas q b = true := by
      rw [queueHas_iff, List.mem_map]
      exact ⟨p, h1, hpb⟩
    rw [hq] at this
    exact absurd this (by simp)
  · rw [hpb, hg] at hf
    exact absurd hf (by simp)

/-- When `getObject` throws for the boss of a kill event that the loop reaches, the loop
ends there: the flag is set and the event is not among those whose body ran to its end. -/
theorem killLoop_of_throw (g : String → GetObjectResult) (last : Option String)
    (e : CombatEvent) (j : KillJson) (post : List CombatEvent)
    (hj : e.parsedJson = some j) (hk : j.is_kill = true) (hg : g j.boss_id = .throws)
    (he : isCursor last e = false) :
    ∀ (pre : List CombatEvent) (q : CreateQueue),
      (∀ a ∈ pre, isCursor last a = false) → queueHas q j.boss_id = false →
      (killLoop g last q (pre ++ e :: post)).threw = true ∧
        e ∉ (killLoop g last q (pre ++ e :: post)).examined := by
  intro pre
  induction pre with
  | nil =>
    intro q _ hq
    have hh := handleEvent_of_throw g q e j hj hk hq hg
    simp [killLoop, he, hh]
  | cons x xs ih =>
    intro q hcur hq
    have hx : isCursor last x = false := hcur x (List.mem_cons_self _ _)
    cases hh : handleEvent g q x with
    | none => simp [killLoop, hx, hh]
    | some q1 =>
      have hq1 := handleEvent_keeps_unqueued g q q1 x j.boss_id hh hq hg
      obtain ⟨i1, i2⟩ := ih q1 (fun a ha => hcur a (List.mem_cons_of_mem _ ha)) hq1
      have hne : e ≠ x := by
        intro hex
        rw [← hex, handleEvent_of_throw g q e j hj hk hq hg] at hh
        exact absurd hh (by simp)
      have hstep : killLoop g last q (x :: (xs ++ e :: post)) =
          { createQueue := (killLoop g last q1 (xs ++ e :: post)).createQueue,
            examined := x :: (killLoop g last q1 (xs ++ e :: post)).examined,
            threw := (killLoop g last q1 (xs ++ e :: post)).threw } := by
        simp [killLoop, hx, hh]
      rw [List.cons_append, hstep]
      refine ⟨i1, ?_⟩
      simp only [List.mem_cons, not_or]
      exact ⟨hne, i2⟩

/-- C9 (amended): the cursor of the respawn oracle never moves past an event whose loop
body no poll has run to its end, provided every poll that runs to completion starts with
at most 20 events of the ledger beyond the cursor (the page limit of the query) and
identifiers are unique on the ledger. Running the body on a kill event whose boss is not
queued enqueues the boss when `getObject` answers with the content of the boss object
and leaves the queue as it is when the answer has no content. When `getObject` throws
for such an event that the loop of a poll reaches, the body does not run to its end, the
event is not counted as examined by that poll, and the poll leaves
`lastProcessedEventId` where it was. -/
theorem cursor_never_passes_unexamined_event (steps : List OracleStep)
    (hunique : ((runWorld World.init steps).ledger.map oracleEventId).Nodup)
    (hlimit : withinLimit World.init steps = true) :
    (∀ e ∈ passedBy (runWorld World.init steps).st.lastProcessedEventId
        (runWorld World.init steps).ledger, e ∈ (runWorld World.init steps).examined) ∧
    (∀ (g : String → GetObjectResult) (q : CreateQueue) (e : CombatEvent) (j : KillJson)
        (f : BossFields), e.parsedJson = some j → j.is_kill = true →
        queueHas q j.boss_id = false → g j.boss_id = .content f →
        handleEvent g q e = some (q ++ [(j.boss_id, taskOfFields f)])) ∧
    (∀ (g : String → GetObjectResult) (q : CreateQueue) (e : CombatEvent) (j : KillJson),
        e.parsedJson = some j → j.is_kill = true →
        queueHas q j.boss_id = false → g j.boss_id = .noContent →
        handleEvent g q e = some q) ∧
    (∀ (g : String → GetObjectResult) (st : OracleState) (pre post : List CombatEvent)
        (e : CombatEvent) (j : KillJson), e.parsedJson = some j → j.is_kill = true →
        queueHas st.createQueue j.boss_id = false → g j.boss_id = .throws →
        (∀ a ∈ pre ++ [e], isCursor st.lastProcessedEventId a = false) →
        handleEvent g st.createQueue e = none ∧
          (pollKillEvents g st (some (pre ++ e :: post))).1.lastProcessedEventId =
            st.lastProcessedEventId ∧
          e ∉ (pollKillEvents g st (some (pre ++ e :: post))).2) := by
  refine ⟨?_, ?_, ?_, ?_⟩
  · have hinit : Inv World.init := ⟨0, rfl, by simp⟩
    obtain ⟨n, hc, hex⟩ := runWorld_inv steps World.init hinit hlimit hunique
    intro e he
    rw [passedBy_eq_take _ _ n hunique hc] at he
    exact hex e he
  · intro g q e j f hj hk hq hg
    simp [handleEvent, hj, hk, hq, hg, queueSet]
  · intro g q e j hj hk hq hg
    simp [handleEvent, hj, hk, hq, hg]
  · intro g st pre post e j hj hk hq hg hcur
    have he : isCursor st.lastProcessedEventId e = false :=
      hcur e (List.mem_append_right _ (List.mem_singleton_self e))
    obtain ⟨h1, h2⟩ := killLoop_of_throw g st.lastProcessedEventId e j post hj hk hg he pre
      st.createQueue (fun a ha => hcur a (List.mem_append_left _ ha)) hq
    refine ⟨handleEvent_of_throw g st.createQueue e j hj hk hq hg, ?_, ?_⟩
    · simp [pollKillEvents, h1]
    · simpa [pollKillEvents, h1] using h2

/-! ## Evaluations, counterexamples and instances -/

set_option maxRecDepth 100000

/-- C1, counterexample: the poll results `[laterEvent]` then `[attackEvent]` are handed to
an agent started at time 100. The timestamp 150 of `attackEvent` is not earlier than the
start time, yet the callback is never invoked on it: the cursor is 200 when it arrives. -/
theorem late_event_is_never_dispatched :
    jsGe (parseInt attackEvent.timestamp) (startState 100).lastEventTimestamp = true ∧
      (runTicks (fun _ => false) (startState 100)
        [.events [laterEvent], .events [attackEvent]]).2 = [laterEvent] := by
  decide

/-- C1, instance of the amended claim on two poll results that deliver the same two
events in opposite orders. -/
theorem each_event_dispatched_exactly_once_witness :
    (runTicks (fun _ => false) (startState 100)
      ([[laterEvent, attackEvent], [attackEvent, laterEvent]].map PollResult.events)).2.Nodup :=
  (each_event_dispatched_exactly_once 100 [[laterEvent, attackEvent], [attackEvent, laterEvent]]
    (by decide) (by decide)).1

/-- C2, counterexample: one poll result of 102 events holds the identifier of
`numberedEvent 0` twice, and the callback runs for both occurrences, because the 101st
insertion evicts that identifier before the filter reaches the second occurrence. -/
theorem overflowing_poll_dispatches_identifier_twice :
    overflowPoll.length = 102 ∧
      (overflowPoll.map eventId).count (eventId (numberedEvent 0)) = 2 ∧
      ((tick (fun _ => false) (startState 0) (.events overflowPoll)).2.map eventId).count
        (eventId (numberedEvent 0)) = 2 := by
  decide

/-- C2, instance of the amended claim: a repeated `laterEvent` in one poll result. -/
theorem seen_identifier_is_not_dispatched_witness :
    tick (fun _ => false) (startState 100) (.events ([laterEvent] ++ laterEvent :: [attackEvent]))
        = tick (fun _ => false) (startState 100) (.events ([laterEvent] ++ [attackEvent])) ∧
      ((tick (fun _ => false) (runTicks (fun _ => false) (startState 100) []).1
        (.events [laterEvent, attackEvent, laterEvent])).2.map eventId).Nodup :=
  ⟨seen_identifier_is_not_dispatched.1 (fun _ => false) (startState 100) [laterEvent]
      [attackEvent] laterEvent (by decide),
    seen_identifier_is_not_dispatched.2 (fun _ => false) 100 []
      [laterEvent, attackEvent, laterEvent] (by decide)⟩

/-- C3, evaluation at the failing input: two distinct events of one transaction (event
sequences 0 and 1) receive the same dedup identifier in `listenToEvents`, the digest
alone, so only the first of them in the poll result is dispatched; the identifier of
`pollKillEvents` tells the same two ledger events apart. -/
theorem same_transaction_events_share_identifier :
    attackEvent ≠ rewardEvent ∧
      eventId attackEvent = some "txA" ∧ eventId rewardEvent = some "txA" ∧
      (tick (fun _ => false) (startState 100) (.events [rewardEvent, attackEvent])).2
        = [rewardEvent] ∧
      oracleEventId { txDigest := "txA", eventSeq := "0", parsedJson := none } ≠
        oracleEventId { txDigest := "txA", eventSeq := "1", parsedJson := none } := by
  decide

/-- C6, instance: inserting a new identifier into a set of 100 removes the oldest. -/
theorem dedup_set_bounded_oldest_evicted_witness :
    markProcessed (eventId (numberedEvent 0) :: laterKeys) (some "txNew") =
      laterKeys ++ [some "txNew"] :=
  (dedup_set_bounded_oldest_evicted.2 (eventId (numberedEvent 0)) laterKeys (some "txNew")
    (by decide) (by decide) (by decide)).1

/-- C7, evaluation at the failing input: the callback throws on `attackEvent`, the first
of two new events of a tick. The callback is not invoked on `laterEvent`, the cursor
stays at 100 instead of advancing to 200, both identifiers are in the dedup set, and a
second delivery of the same poll result dispatches nothing. -/
theorem throwing_callback_aborts_the_tick :
    tick (fun e => decide (e = attackEvent)) (startState 100)
        (.events [laterEvent, attackEvent]) =
      ({ lastEventTimestamp := some 100, processedEventDigests := [some "txB", some "txA"] },
        [attackEvent]) ∧
      (runTicks (fun e => decide (e = attackEvent)) (startState 100)
        [.events [laterEvent, attackEvent], .events [laterEvent, attackEvent]]).2
        = [attackEvent] := by
  decide

/-- C9, counterexample: when `getObject` answers without content, the kill event is
examined and the cursor moves past it, but its boss, which is not queued, is not
enqueued; and when 21 events are emitted before a poll, the cursor moves past the oldest
of them, a kill event, that no poll has examined. -/
theorem kill_event_passed_without_enqueue :
    (killEvent ∈ passedBy (runWorld World.init noContentSchedule).st.lastProcessedEventId
        (runWorld World.init noContentSchedule).ledger ∧
      killEvent ∈ (runWorld World.init noContentSchedule).examined ∧
      (runWorld World.init noContentSchedule).st.createQueue = []) ∧
    (killEvent ∈ passedBy (runWorld World.init burstSchedule).st.lastProcessedEventId
        (runWorld World.init burstSchedule).ledger ∧
      killEvent ∉ (runWorld World.init burstSchedule).examined) := by
  decide

/-- C9, instance of the amended claim on `sampleSchedule`: the hit emitted between the
two polls lies behind the cursor at the end and has been examined; and a poll on the
kill event during which `getObject` throws leaves the cursor at `null` and does not
count the event as examined. -/
theorem cursor_never_passes_unexamined_event_witness :
    withinLimit World.init sampleSchedule = true ∧
      hitEvent 1 ∈ passedBy (runWorld World.init sampleSchedule).st.lastProcessedEventId
        (runWorld World.init sampleSchedule).ledger ∧
      hitEvent 1 ∈ (runWorld World.init sampleSchedule).examined ∧
      (pollKillEvents getThrowing freshOracle
          (some ([] ++ killEvent :: []))).1.lastProcessedEventId =
        freshOracle.lastProcessedEventId ∧
      killEvent ∉ (pollKillEvents getThrowing freshOracle (some ([] ++ killEvent :: []))).2 :=
  ⟨by decide, by decide,
    (cursor_never_passes_unexamined_event sampleSchedule (by decide) (by decide)).1
      (hitEvent 1) (by decide),
    ((cursor_never_passes_unexamined_event sampleSchedule (by decide) (by decide)).2.2.2
      getThrowing freshOracle [] [] killEvent { is_kill := true, boss_id := "0xb055" }
      rfl rfl (by decide) rfl (by decide)).2⟩

/-- C10, instance: a second kill event for the queued boss `0xb055` changes nothing. -/
theorem enqueue_is_idempotent_witness :
    (pollKillEvents getDeadBoss queuedState (some [killEvent])).1.createQueue =
      queuedState.createQueue :=
  (enqueue_is_idempotent getDeadBoss queuedState (some [killEvent]) (by decide)).2.2
    killEvent { is_kill := true, boss_id := "0xb055" } rfl rfl (by decide)

/-! ## Lemmas on `processQueue` -/

theorem afterExecution_of_failure (now : Int) (t : Task) (o : TxOutcome)
    (h : isFailure o = true) : afterExecution now t o = some (retryLater now t) := by
  cases o with
  | throws => rfl
  | response r =>
    simp only [isFailure] at h
    simp only [afterExecution]
    split
    · rename_i s hs
      simp only [hs, decide_eq_true_eq] at h
      simp [h]
    · rfl

theorem queueGet_cons_self (k : String) (t : Task) (q : CreateQueue) :
    queueGet ((k, t) :: q) k = some t := by
  simp [queueGet, List.find?]

theorem queueGet_cons_ne (k k2 : String) (t : Task) (q : CreateQueue) (h : k2 ≠ k) :
    queueGet ((k2, t) :: q) k = queueGet q k := by
  have h2 : (k2 == k) = false := by simpa using h
  simp [queueGet, List.find?, h2]

theorem processQueue_get_of_failure (exec : String → Task → TxOutcome) (now : Int)
    (k : String) (t : Task) (q : CreateQueue) (hget : queueGet q k = some t)
    (hdue : isDue now t = true) (hfail : isFailure (exec k t) = true) :
    queueGet (processQueue exec now q).createQueue k = some (retryLater now t) := by
  induction q with
  | nil => simp [queueGet] at hget
  | cons p rest ih =>
    obtain ⟨k2, t2⟩ := p
    by_cases hk : k2 = k
    · subst hk
      rw [queueGet_cons_self] at hget
      have ht : t2 = t := Option.some.inj hget
      rw [ht]
      simp only [processQueue, hdue, if_true, afterExecution_of_failure now t _ hfail]
      exact queueGet_cons_self _ _ _
    · rw [queueGet_cons_ne k k2 t2 rest hk] at hget
      simp only [processQueue]
      split
      · split
        · exact ih hget
        · rw [queueGet_cons_ne k k2 _ _ hk]
          exact ih hget
      · rw [queueGet_cons_ne k k2 _ _ hk]
        exact ih hget

theorem isDue_iff (now : Int) (t : Task) :
    isDue now t = true ↔ ∃ c, t.createAt = some c ∧ c ≤ now := by
  unfold isDue
  cases h : t.createAt with
  | none => simp [jsGe]
  | some c => simp [jsGe]

theorem retry_chain (k : String) (ticks : List QueueTick) :
    ∀ (q : CreateQueue) (t : Task) (c : Int), queueGet q k = some t → t.createAt = some c →
      failsAtEveryTick k q ticks = true →
      entryTrace k q ticks = ticks.map (fun tk => some (retryLater tk.now t)) ∧
        List.Chain (fun a b => a < b) c (ticks.map (fun tk => tk.now + 10000)) := by
  induction ticks with
  | nil =>
    intro q t c _ _ _
    exact ⟨rfl, List.Chain.nil⟩
  | cons tk rest ih =>
    intro q t c hget hc hfail
    simp only [failsAtEveryTick, hget, Bool.and_eq_true] at hfail
    obtain ⟨⟨hdue, hf⟩, hrest⟩ := hfail
    have hnext := processQueue_get_of_failure tk.exec tk.now k t q hget hdue hf
    obtain ⟨h1, h2⟩ := ih (processQueue tk.exec tk.now q).createQueue (retryLater tk.now t)
      (tk.now + 10000) hnext rfl hrest
    obtain ⟨c2, hc2, hle⟩ := (isDue_iff tk.now t).1 hdue
    have hcc : c2 = c := by
      rw [hc] at hc2
      exact (Option.some.inj hc2).symm
    refine ⟨?_, ?_⟩
    · simp only [entryTrace, List.map_cons, hnext]
      rw [h1]
      rfl
    · simp only [List.map_cons]
      exact List.Chain.cons (by omega) h2

theorem processQueue_submitted (exec : String → Task → TxOutcome) (now : Int)
    (q : CreateQueue) :
    (processQueue exec now q).submitted = (q.filter (fun p => isDue now p.2)).map Prod.fst := by
  induction q with
  | nil => rfl
  | cons p rest ih =>
    obtain ⟨k, t⟩ := p
    simp only [processQueue, List.filter_cons]
    split
    · split <;> simp [ih]
    · simp [ih]

theorem processQueue_keeps_not_due (exec : String → Task → TxOutcome) (now : Int)
    (q : CreateQueue) :
    (q.filter (fun p => !isDue now p.2)).Sublist (processQueue exec now q).createQueue := by
  induction q with
  | nil => exact List.Sublist.slnil
  | cons p rest ih =>
    obtain ⟨k, t⟩ := p
    by_cases hdue : isDue now t = true
    · simp only [processQueue, List.filter_cons, hdue, Bool.not_true, Bool.false_eq_true,
        if_false, if_true]
      cases afterExecution now t (exec k t) with
      | none => exact ih
      | some t2 => exact ih.cons _
    · have hdue2 : isDue now t = false := by simpa using hdue
      simp only [processQueue, List.filter_cons, hdue2, Bool.not_false, Bool.false_eq_true,
        if_false, if_true]
      exact ih.cons₂ _

/-! ## The claims on the scheduler of the respawn oracle -/

/-- C11 (amended): when the same single kill event is delivered in two consecutive polls
starting from `lastProcessedEventId = null` and an empty queue, and `getObject` answers
the first poll with the content of the boss object, the queue afterwards holds exactly
one entry, for that boss, and its `createAt` is `parseInt(death_time)` of the boss object
plus 30000; it is 30100 when the boss died at 100. -/
theorem duplicate_kill_event_enqueued_once (g1 g2 : String → GetObjectResult)
    (e : CombatEvent) (j : KillJson) (f : BossFields)
    (hj : e.parsedJson = some j) (hk : j.is_kill = true) (hg : g1 j.boss_id = .content f) :
    (pollKillEvents g2
        (pollKillEvents g1 { lastProcessedEventId := none, createQueue := [] } (some [e])).1
        (some [e])).1.createQueue =
      [(j.boss_id, { createAt := jsAdd (parseInt f.death_time) (some 30000),
                     data := (taskOfFields f).data })] ∧
    (parseInt f.death_time = some 100 → (taskOfFields f).createAt = some 30100) := by
  constructor
  · have hne := oracleEventId_ne_empty e
    simp [pollKillEvents, killLoop, isCursor, handleEvent, hj, hk, hg, queueHas, queueSet,
      hne, taskOfFields]
  · intro h
    simp [taskOfFields, h, jsAdd]

/-- C13: a failing scheduled action is never dropped and its retry time strictly
increases. If the entry of key `k` is due and its execution fails (the call throws, the
answer has no effects, or the status is not `success`) at every tick of a list of
consecutive ticks, then after each tick the entry is still in the queue with the same
data and with `createAt = now + 10000` for the clock value of that tick, and the
sequence that starts with the initial `createAt` and goes on with these retry times is
strictly increasing. -/
theorem failed_action_is_kept_and_retried_later (k : String) (ticks : List QueueTick)
    (q : CreateQueue) (t : Task) (c : Int)
    (hget : queueGet q k = some t) (hc : t.createAt = some c)
    (hfail : failsAtEveryTick k q ticks = true) :
    entryTrace k q ticks =
        ticks.map (fun tk => some { createAt := some (tk.now + 10000), data := t.data }) ∧
      List.Chain (fun a b => a < b) c (ticks.map (fun tk => tk.now + 10000)) :=
  retry_chain k ticks q t c hget hc hfail

/-- C14: `processQueue` acts on exactly the due entries. The executions started are those
of the entries with `now >= createAt`, in the order of the queue; an entry is due exactly
when its `createAt` is a number that is at most `now`; and the entries that are not due
stay in the queue, unchanged and in their order. -/
theorem process_queue_acts_on_due_entries (exec : String → Task → TxOutcome) (now : Int)
    (q : CreateQueue) :
    (processQueue exec now q).submitted = (q.filter (fun p => isDue now p.2)).map Prod.fst ∧
      (∀ t : Task, isDue now t = true ↔ ∃ c, t.createAt = some c ∧ c ≤ now) ∧
      (q.filter (fun p => !isDue now p.2)).Sublist (processQueue exec now q).createQueue :=
  ⟨processQueue_submitted exec now q, isDue_iff now, processQueue_keeps_not_due exec now q⟩

/-! ## The claims on the decision cycle -/

/-- C16: starting a decision cycle while one is in flight is a no-op. Entered with
`isThinking = true`, `runDecisionCycle` makes no call (`getGameState`, `think`, `attack`,
`checkAndWithdraw`) and leaves `isThinking` true, whatever the awaited calls would do. -/
theorem busy_cycle_is_a_no_op (env : CycleEnv) (calls : List Call) :
    runDecisionCycle env { isThinking := true, calls := calls } =
      { isThinking := true, calls := calls } := by
  simp [runDecisionCycle]

/-- C17: the busy flag is always released. Entered with `isThinking = false`, a decision
cycle ends with `isThinking = false` whatever the awaited calls do: `getGameState`
returns `null` or throws, `think` throws or returns a value with or without an `action`,
`attack` or `checkAndWithdraw` throws or returns. -/
theorem busy_flag_is_always_released (env : CycleEnv) (calls : List Call) :
    (runDecisionCycle env { isThinking := false, calls := calls }).isThinking = false := by
  simp only [runDecisionCycle, Bool.false_eq_true, if_false, tryCatchFinally, cycleFinally,
    if_true]

/-! ## The claims on `heuristicThink` and `think` -/

theorem heuristicThink_action (gs : GameState) :
    (heuristicThink gs).action = .str "WAIT" ∨ (heuristicThink gs).action = .str "ATTACK" := by
  unfold heuristicThink
  split
  · exact Or.inl rfl
  · split
    · exact Or.inl rfl
    · exact Or.inr rfl

/-- C19 (amended): `heuristicThink` never returns WITHDRAW, whatever the withdrawal
threshold of the agent, which it does not read. With balance 5 it returns WAIT when no
boss is alive or when the attack cost of the first alive boss is a number greater than
5, and ATTACK on the first alive boss when that cost is a number that is at most 5. -/
theorem heuristic_never_withdraws (gs : GameState)
    (hb : gs.balance = JSNumber.ofInt 5) :
    (heuristicThink gs).action ≠ .str "WITHDRAW" ∧
      (aliveBosses gs = [] → (heuristicThink gs).action = .str "WAIT") ∧
      (∀ (target : Boss) (rest : List Boss) (c : Dec),
        aliveBosses gs = target :: rest → parseFloat target.attackCost = .fin c →
          (Dec.lt { mant := 5, scale := 0 } c = true →
            (heuristicThink gs).action = .str "WAIT") ∧
          (Dec.lt { mant := 5, scale := 0 } c = false →
            (heuristicThink gs).action = .str "ATTACK" ∧
              (heuristicThink gs).boss_id = target.id)) := by
  refine ⟨?_, ?_, ?_⟩
  · rcases heuristicThink_action gs with h | h <;> rw [h] <;> decide
  · intro h
    simp [heuristicThink, h]
  · intro target rest c h hc
    constructor
    · intro hlt
      simp [heuristicThink, h, hb, hc, JSNumber.ofInt, jsLt, hlt]
    · intro hlt
      simp [heuristicThink, h, hb, hc, JSNumber.ofInt, jsLt, hlt]

theorem think_falls_back_on_failure (c : LlmConfig) (gs : GameState) :
    think c .throws gs = heuristicThink gs ∧ think c .notJson gs = heuristicThink gs ∧
      think c .null gs = heuristicThink gs := by
  simp only [think]
  refine ⟨?_, ?_, ?_⟩ <;> split <;> rfl

theorem heuristic_attacks_iff_affordable (gs : GameState) (target : Boss) (rest : List Boss)
    (b c : Dec) (h : aliveBosses gs = target :: rest) (hb : gs.balance = .fin b)
    (hc : parseFloat target.attackCost = .fin c) :
    ((heuristicThink gs).action = .str "ATTACK" ↔ Dec.lt b c = false) ∧
      ((heuristicThink gs).action = .str "WAIT" ↔ Dec.lt b c = true) ∧
      ((heuristicThink gs).action = .str "ATTACK" → (heuristicThink gs).boss_id = target.id) := by
  cases hlt : Dec.lt b c <;> simp [heuristicThink, h, hb, hc, jsLt, hlt]

theorem processQueue_keys_sublist (exec : String → Task → TxOutcome) (now : Int)
    (q : CreateQueue) :
    ((processQueue exec now q).createQueue.map Prod.fst).Sublist (q.map Prod.fst) := by
  induction q with
  | nil => exact List.Sublist.slnil
  | cons p rest ih =>
    obtain ⟨k, t⟩ := p
    simp only [processQueue]
    split
    · cases afterExecution now t (exec k t) with
      | none => exact ih.cons _
      | some t2 => exact ih.cons₂ _
    · exact ih.cons₂ _

theorem runQueueTicks_submitted_nodup (ticks : List QueueTick) :
    ∀ q : CreateQueue, (q.map Prod.fst).Nodup →
      ∀ l ∈ (runQueueTicks q ticks).2, l.Nodup := by
  induction ticks with
  | nil =>
    intro q _ l hl
    simp [runQueueTicks] at hl
  | cons tk rest ih =>
    intro q hq l hl
    simp only [runQueueTicks, List.mem_cons] at hl
    rcases hl with rfl | hl
    · rw [processQueue_submitted]
      exact hq.sublist ((List.filter_sublist _).map Prod.fst)
    · exact ih _ (hq.sublist (processQueue_keys_sublist tk.exec tk.now q)) l hl

/-- C15 (amended): the scheduler starts at most one execution per boss id as long as
ticks do not overlap. In a run of ticks each of which finishes before the next one fires,
on a queue with one entry per boss id, no tick submits two executions for the same boss
id; and a timer firing that finds no execution in flight leaves at most one in flight
when it reaches its first `await`. -/
theorem single_flight_without_overlap (ticks : List QueueTick) (q : CreateQueue)
    (now : Int) (hkeys : (q.map Prod.fst).Nodup) :
    (∀ l ∈ (runQueueTicks q ticks).2, l.Nodup) ∧
      (timerFires now { createQueue := q, inFlight := [] }).inFlight.length ≤ 1 := by
  refine ⟨runQueueTicks_submitted_nodup ticks q hkeys, ?_⟩
  simp only [timerFires]
  split <;> simp

/-- The fallbacks of `think`: it returns the decision of `heuristicThink` when the model
is not configured, when the request throws, when the content is not JSON and when it
parses to `null`. A value parsed from the content is returned without any check; the
decision cycle makes no call for an action that is neither ATTACK nor WITHDRAW and for
an ATTACK whose `boss_id` is missing or empty. -/
theorem think_falls_back_on_failed_calls (c : LlmConfig) (gs : GameState) (reply : LlmReply)
    (d : Decision) (env : CycleEnv) (s : CycleState) :
    (notConfigured c = true → think c reply gs = heuristicThink gs) ∧
      think c .throws gs = heuristicThink gs ∧
      think c .notJson gs = heuristicThink gs ∧
      think c .null gs = heuristicThink gs ∧
      (notConfigured c = false → think c (.value d) gs = d) ∧
      (d.action ≠ .str "ATTACK" → d.action ≠ .str "WITHDRAW" →
        cycleSwitch env d s = (s, .normal)) ∧
      (d.action = .str "ATTACK" → d.boss_id.truthy = false →
        cycleSwitch env d s = (s, .normal)) := by
  obtain ⟨h1, h2, h3⟩ := think_falls_back_on_failure c gs
  refine ⟨?_, h1, h2, h3, ?_, ?_, ?_⟩
  · intro h
    simp [think, h]
  · intro h
    simp [think, h]
  · intro ha hw
    simp [cycleSwitch, ha, hw]
  · intro ha hb
    simp [cycleSwitch, ha, hb]

/-! ## Evaluations, counterexamples and instances for the scheduler and the decision loop -/

/-- C11, counterexample: the kill event of the scenario (timestamp 100) is delivered in
two consecutive polls. When `getObject` answers without content the queue stays empty;
when the boss object carries `death_time` 250 the one entry has `createAt` 30250, which
is the death time of the object plus 30000 and not the timestamp of the event plus
30000. -/
theorem scenario_entry_follows_the_boss_object :
    parseInt scenarioKill.timestampMs = some 100 ∧
      (pollKillEvents getNothing (pollKillEvents getNothing freshOracle
        (some [scenarioKill])).1 (some [scenarioKill])).1.createQueue = [] ∧
      (pollKillEvents getLateDeathBoss (pollKillEvents getLateDeathBoss freshOracle
        (some [scenarioKill])).1 (some [scenarioKill])).1.createQueue.map
          (fun p => (p.1, p.2.createAt)) = [("0xb055", some 30250)] := by
  decide

/-- C11, instance of the amended claim: the boss object carries `death_time` 100. -/
theorem duplicate_kill_event_enqueued_once_witness :
    (pollKillEvents getDeadBoss
        (pollKillEvents getDeadBoss { lastProcessedEventId := none, createQueue := [] }
          (some [scenarioKill])).1
        (some [scenarioKill])).1.createQueue =
      [("0xb055", { createAt := jsAdd (parseInt deadBoss.death_time) (some 30000),
                    data := (taskOfFields deadBoss).data })] :=
  (duplicate_kill_event_enqueued_once getDeadBoss getDeadBoss scenarioKill
    { is_kill := true, boss_id := "0xb055" } deadBoss rfl rfl rfl).1

/-- C12, evaluation at the failing input: the entry of `pendingQueue` is due at 40000 and
the ledger answers with a success status and an empty list of events. Reading
`result.events[0].parsedJson` throws before `createQueue.delete` is reached, so the entry
stays with `createAt = 50000`, and the tick at 50000 submits the transaction again. -/
theorem success_without_event_is_submitted_again :
    afterExecution 40000 (taskOfFields deadBoss)
        (succeedWithoutEvent "0xb055" (taskOfFields deadBoss)) =
      some { createAt := some 50000, data := (taskOfFields deadBoss).data } ∧
    queueHas (processQueue succeedWithoutEvent 40000 pendingQueue).createQueue "0xb055" = true ∧
    (runQueueTicks pendingQueue eventlessTicks).2 = [["0xb055"], ["0xb055"]] := by
  decide

/-- C13, instance: three failing ticks on `pendingQueue`. -/
theorem failed_action_is_kept_and_retried_later_witness :
    failsAtEveryTick "0xb055" pendingQueue retryTicks = true ∧
      (entryTrace "0xb055" pendingQueue retryTicks =
          retryTicks.map (fun tk =>
            some { createAt := some (tk.now + 10000), data := (taskOfFields deadBoss).data }) ∧
        List.Chain (fun a b => a < b) (30100 : Int)
          (retryTicks.map (fun tk => tk.now + 10000))) :=
  ⟨by decide,
    failed_action_is_kept_and_retried_later "0xb055" retryTicks pendingQueue
      (taskOfFields deadBoss) 30100 (by decide) (by decide) (by decide)⟩

/-- C15, counterexample: the timer fires at 40000 and starts the execution for `0xb055`;
it fires again at 45000 while that execution is in flight, finds the entry unchanged and
due, and starts a second execution for `0xb055`. -/
theorem overlapping_ticks_start_two_executions :
    timerFires 45000 (timerFires 40000 { createQueue := pendingQueue, inFlight := [] }) =
      { createQueue := pendingQueue, inFlight := ["0xb055", "0xb055"] } := by
  decide

/-- C18, evaluation at the failing input: a boss in the shape the `list_bosses` tool
lists has no `attackCost`, `parseFloat` of it is NaN, the test `balance < NaN` is false,
and `heuristicThink` returns ATTACK with a balance of 0. With two open targets of cost 1
and 2 and balance 1 it attacks the first. -/
theorem heuristic_attacks_when_cost_is_missing :
    parseFloat listedBoss.attackCost = .nan ∧
      heuristicThink listedState =
        { action := .str "ATTACK", boss_id := .str "0x567",
          reason := .regularAttack (.str "Goblin King") } ∧
      heuristicThink twoTargetState =
        { action := .str "ATTACK", boss_id := .str "0xa", reason := .regularAttack (.str "0xa") } := by
  decide

/-- C19, counterexample: with balance 5 and an open target of cost 1, `heuristicThink`
returns ATTACK, not WAIT. -/
theorem heuristic_attacks_with_balance_five :
    affordableState.balance = JSNumber.ofInt 5 ∧
      (heuristicThink affordableState).action = .str "ATTACK" := by
  decide

/-- C19, instance of the amended claim: balance 5, an open target of cost 10. -/
theorem heuristic_never_withdraws_witness :
    (heuristicThink expensiveState).action ≠ .str "WITHDRAW" ∧
      (heuristicThink expensiveState).action = .str "WAIT" :=
  ⟨(heuristic_never_withdraws expensiveState rfl).1,
    ((heuristic_never_withdraws expensiveState rfl).2.2 (openTarget "0xa" 10) []
      { mant := 10, scale := 0 } (by decide) (by decide)).1 (by decide)⟩

/-- C20, evaluation at the failing inputs: a configured model answers with JSON whose
action is `DANCE`, which is none of the three actions the documentation of `think`
allows; `think` returns that value as it is, and it is not the decision of
`heuristicThink`. The same holds for an ATTACK without `boss_id`. -/
theorem malformed_decision_is_returned_unchecked :
    think liveConfig (.value danceDecision) listedState = danceDecision ∧
      danceDecision ≠ heuristicThink listedState ∧
      think liveConfig (.value blindAttack) twoTargetState = blindAttack ∧
      blindAttack ≠ heuristicThink twoTargetState := by
  decide

/-- C15, instance of the amended claim: two ticks on `pendingQueue` that do not overlap. -/
theorem single_flight_without_overlap_witness :
    (pendingQueue.map Prod.fst).Nodup ∧
      ["0xb055"].Nodup ∧
      (timerFires 40000 { createQueue := pendingQueue, inFlight := [] }).inFlight.length ≤ 1 :=
  ⟨by decide,
    (single_flight_without_overlap eventlessTicks pendingQueue 40000 (by decide)).1 ["0xb055"]
      (by decide),
    (single_flight_without_overlap eventlessTicks pendingQueue 40000 (by decide)).2⟩

/-- An instance of the fallbacks of `think`: a configured model whose answer is `DANCE`
and a model without a key. -/
theorem think_falls_back_on_failed_calls_witness :
    notConfigured liveConfig = false ∧
      think liveConfig (.value danceDecision) listedState = danceDecision ∧
      think { llmApiKey := none, llmModel := some "ep-2024" } (.value danceDecision)
        listedState = heuristicThink listedState :=
  ⟨by decide,
    (think_falls_back_on_failed_calls liveConfig listedState .throws danceDecision
      { gameState := .throws, decision := fun _ => .throws, attack := fun _ => .throws,
        withdraw := .throws }
      { isThinking := true, calls := [] }).2.2.2.2.1 (by decide),
    (think_falls_back_on_failed_calls { llmApiKey := none, llmModel := some "ep-2024" }
      listedState (.value danceDecision) danceDecision
      { gameState := .throws, decision := fun _ => .throws, attack := fun _ => .throws,
        withdraw := .throws }
      { isThinking := true, calls := [] }).1 (by decide)⟩

/-! ## Lemmas on the tools `createBosses`, `attack_boss`, `withdraw` and `register_agent` -/

theorem isSuccess_without_flag (r : CommandResult) (h : r.confirmedLocalExecution = false) :
    isSuccess r = some true ↔
      (commandStatus r = some (some "Success") ∨ commandStatus r = some (some "success") ∨
        (commandStatus r ≠ none ∧ v2IsSuccessText r = true)) := by
  unfold isSuccess
  cases hs : commandStatus r with
  | none => simp
  | some st =>
    simp only [h, Bool.or_false, Option.some.injEq, Bool.or_eq_true, beq_iff_eq, ne_eq,
      not_false_eq_true, true_and, reduceCtorEq]
    tauto

theorem attack_reports_success_iff (s : Submission) :
    (attackBossAnswer s).reportsSuccess = true ↔
      ∃ r st, s = .returns r ∧ r.effects = some st ∧ st.status ≠ "failure" := by
  cases s with
  | throws m => simp [attackBossAnswer, ToolAnswer.reportsSuccess]
  | returns r =>
    cases he : r.effects with
    | none => simp [attackBossAnswer, ToolAnswer.reportsSuccess, he]
    | some st =>
      by_cases hf : st.status = "failure" <;>
        simp [attackBossAnswer, ToolAnswer.reportsSuccess, he, hf]

theorem registrySet_keys (reg : Registry) (k : String) (a : AgentRecord) :
    (registrySet reg k a).map Prod.fst =
      if reg.any (fun p => p.1 == k) then reg.map Prod.fst else reg.map Prod.fst ++ [k] := by
  unfold registrySet
  split
  · simp only [List.map_map]
    apply List.map_congr_left
    intro p _
    by_cases h : p.1 = k <;> simp [h]
  · simp

theorem registrySet_mem (reg : Registry) (k : String) (a : AgentRecord) :
    ∀ p ∈ registrySet reg k a, p = (k, a) ∨ (p ∈ reg ∧ p.1 ≠ k) := by
  intro p hp
  unfold registrySet at hp
  split at hp
  · simp only [List.mem_map] at hp
    obtain ⟨x, hx, rfl⟩ := hp
    by_cases h : x.1 = k
    · simp [h]
    · right
      simp [h, hx]
  · rename_i hany
    simp only [List.mem_append, List.mem_singleton] at hp
    rcases hp with hp | hp
    · right
      refine ⟨hp, ?_⟩
      intro hk
      apply hany
      simp only [List.any_eq_true, beq_iff_eq]
      exact ⟨p, hp, hk⟩
    · exact Or.inl hp

theorem replaced_names (k : String) (a : AgentRecord) :
    ∀ reg : Registry, (reg.map Prod.fst).Nodup → (reg.map (fun p => p.2.name)).Nodup →
      (∀ p ∈ reg, p.2.name ≠ a.name) →
      ((reg.map (fun p => if p.1 == k then (k, a) else p)).map (fun p => p.2.name)).Nodup := by
  intro reg
  induction reg with
  | nil => intro _ _ _; simp
  | cons x rest ih =>
    intro hkeys hnames hnew
    rw [List.map_cons, List.nodup_cons] at hkeys hnames
    have hrest : ∀ p ∈ rest, p.2.name ≠ a.name := fun p hp => hnew p (List.mem_cons_of_mem _ hp)
    have hx0 : x.2.name ≠ a.name := hnew x (List.mem_cons_self _ _)
    rw [List.map_cons, List.map_cons, List.nodup_cons]
    refine ⟨?_, ih hkeys.2 hnames.2 hrest⟩
    intro hmem
    rw [List.mem_map] at hmem
    obtain ⟨q, hq, hqn⟩ := hmem
    rw [List.mem_map] at hq
    obtain ⟨p, hp, hpq⟩ := hq
    by_cases hx : x.1 = k
    · have hpk : ¬ p.1 = k := by
        intro hpk
        apply hkeys.1
        rw [List.mem_map]
        exact ⟨p, hp, by rw [hpk, hx]⟩
      have hpk2 : (p.1 == k) = false := by simpa using hpk
      rw [hpk2] at hpq
      simp only [Bool.false_eq_true, if_false] at hpq
      rw [← hpq] at hqn
      have hx2 : (x.1 == k) = true := by simpa using hx
      rw [hx2] at hqn
      simp only [if_true] at hqn
      exact hrest p hp hqn
    · have hx2 : (x.1 == k) = false := by simpa using hx
      rw [hx2] at hqn
      simp only [Bool.false_eq_true, if_false] at hqn
      by_cases hpk : p.1 = k
      · have hpk2 : (p.1 == k) = true := by simpa using hpk
        rw [hpk2] at hpq
        simp only [if_true] at hpq
        rw [← hpq] at hqn
        exact hx0 hqn.symm
      · have hpk2 : (p.1 == k) = false := by simpa using hpk
        rw [hpk2] at hpq
        simp only [Bool.false_eq_true, if_false] at hpq
        rw [← hpq] at hqn
        apply hnames.1
        rw [List.mem_map]
        exact ⟨p, hp, hqn⟩

theorem registrySet_names (reg : Registry) (k : String) (a : AgentRecord)
    (hkeys : (reg.map Prod.fst).Nodup) (hnames : (reg.map (fun p => p.2.name)).Nodup)
    (hnew : ∀ p ∈ reg, p.2.name ≠ a.name) :
    ((registrySet reg k a).map (fun p => p.2.name)).Nodup := by
  unfold registrySet
  split
  · exact replaced_names k a reg hkeys hnames hnew
  · rw [List.map_append]
    refine List.Nodup.append hnames (by simp) ?_
    intro n hn hn2
    rw [List.mem_map] at hn
    obtain ⟨p, hp, hpn⟩ := hn
    simp only [List.map_cons, List.map_nil, List.mem_singleton] at hn2
    exact hnew p hp (hpn.trans hn2)

/-! ## Lemmas on the replay of a page and on the new entries of a poll -/

theorem handleEvent_stable (g : String → GetObjectResult) (q q1 q2 : CreateQueue)
    (e : CombatEvent) (h : handleEvent g q e = some q1) (hp : q1 <+: q2) :
    handleEvent g q2 e = some q2 := by
  unfold handleEvent at h ⊢
  cases hj : e.parsedJson with
  | none => rfl
  | some j =>
    simp only [hj] at h ⊢
    by_cases hk : j.is_kill = true
    · simp only [hk, if_true] at h ⊢
      by_cases hq2 : queueHas q2 j.boss_id = true
      · simp [hq2]
      · simp only [hq2, Bool.false_eq_true, if_false]
        have hq : ¬ queueHas q j.boss_id = true := by
          intro hq
          apply hq2
          rw [queueHas_iff] at hq ⊢
          have := (handleEvent_grows g q q1 e (by unfold handleEvent; simp [hj, hk]; exact h)).1
          exact ((this.trans hp).sublist.map Prod.fst).subset hq
        simp only [hq, Bool.false_eq_true, if_false] at h
        cases hg : g j.boss_id with
        | throws => simp [hg] at h
        | noContent => rfl
        | content f =>
          simp only [hg, Option.some.injEq] at h
          exfalso
          apply hq2
          rw [queueHas_iff]
          rw [queueSet_of_absent q _ _ hq] at h
          have hmem : (j.boss_id, taskOfFields f) ∈ q2 := hp.subset (by rw [← h]; simp)
          exact List.mem_map_of_mem Prod.fst hmem
    · simp [hk]

theorem killLoop_replay (g : String → GetObjectResult) (last : Option String)
    (page : List CombatEvent) :
    ∀ q : CreateQueue,
      (killLoop g last (killLoop g last q page).createQueue page).createQueue =
        (killLoop g last q page).createQueue := by
  induction page with
  | nil => intro q; rfl
  | cons e es ih =>
    intro q
    by_cases hc : isCursor last e = true
    · simp [killLoop, hc]
    · have hc2 : isCursor last e = false := by simpa using hc
      cases hh : handleEvent g q e with
      | none => simp [killLoop, hc2, hh]
      | some q1 =>
        have hgrow := (killLoop_grows g last es q1).1
        have hst := handleEvent_stable g q q1 _ e hh hgrow
        simp only [killLoop, hc2, hh, Bool.false_eq_true, if_false, hst]
        exact ih q1

theorem killLoop_new_entry (g : String → GetObjectResult) (last : Option String)
    (page : List CombatEvent) :
    ∀ q : CreateQueue, ∀ p ∈ (killLoop g last q page).createQueue,
      p ∈ q ∨ ∃ f, g p.1 = .content f ∧ p.2 = taskOfFields f := by
  induction page with
  | nil =>
    intro q p hp
    exact Or.inl hp
  | cons e es ih =>
    intro q p hp
    by_cases hc : isCursor last e = true
    · simp only [killLoop, hc, if_true] at hp
      exact Or.inl hp
    · have hc2 : isCursor last e = false := by simpa using hc
      cases hh : handleEvent g q e with
      | none =>
        simp only [killLoop, hc2, hh, Bool.false_eq_true, if_false] at hp
        exact Or.inl hp
      | some q1 =>
        simp only [killLoop, hc2, hh, Bool.false_eq_true, if_false] at hp
        rcases ih q1 p hp with h1 | h1
        · exact handleEvent_new_entry g q q1 e hh p h1
        · exact Or.inr h1

theorem unreadable_death_time_is_never_due (f : BossFields) (k : String) (now : Int)
    (exec : String → Task → TxOutcome) (hnan : parseInt f.death_time = none) :
    (taskOfFields f).createAt = none ∧ isDue now (taskOfFields f) = false ∧
      processQueue exec now [(k, taskOfFields f)] =
        { createQueue := [(k, taskOfFields f)], submitted := [] } := by
  have h1 : (taskOfFields f).createAt = none := by simp [taskOfFields, hnan, jsAdd]
  have h2 : isDue now (taskOfFields f) = false := by simp [isDue, h1, jsGe]
  exact ⟨h1, h2, by simp [processQueue, h2]⟩

/-! ## The claims on the tools and on the replay of a page -/

/-- C22, evaluation at the failing inputs: a result whose `effects.status.status` is any
text, `failure` among them, is classified as a success by `createBosses` as soon as
`confirmedLocalExecution` is set; and a result whose `effects.V2.status` is the text
`success` in lower case is not classified as a success. -/
theorem local_execution_flag_overrides_failure_status (s : String) :
    commandStatus
        { effects := some { v2 := none, status := .object (some s) },
          confirmedLocalExecution := true } = some (some s) ∧
      isSuccess
        { effects := some { v2 := none, status := .object (some s) },
          confirmedLocalExecution := true } = some true ∧
      commandStatus failedButConfirmed = some (some "failure") ∧
      isSuccess failedButConfirmed = some true ∧
      isSuccess lowerCaseSuccess = some false := by
  refine ⟨rfl, ?_, rfl, by decide, by decide⟩
  simp [isSuccess, commandStatus, readInnerStatus]

/-- C23, evaluation at the failing inputs: when the ledger returns a result whose effects
status is `failure`, the tool `withdraw` answers `Withdrawal successful! Hash: ...`,
while `attack_boss` answers with its failure text on the same result. -/
theorem withdraw_reports_success_for_failed_transaction (d e : String)
    (c : Option (String × String)) :
    withdrawAnswer
        (.returns
          { digest := d, effects := some { status := "failure", error := e }, combat := c }) =
        .withdrawalSuccessful d ∧
      (ToolAnswer.withdrawalSuccessful d).render = "Withdrawal successful! Hash: " ++ d ∧
      attackBossAnswer
        (.returns
          { digest := d, effects := some { status := "failure", error := e }, combat := c }) =
        .attackFailedOnChain e ∧
      (withdrawAnswer (.returns rejectedTransfer)).render =
        "Withdrawal successful! Hash: 9xQk" := by
  refine ⟨rfl, rfl, ?_, by decide⟩
  simp [attackBossAnswer]

/-- C27: replaying a page from an old cursor is idempotent. Whatever `getObject` answers
(as a function of the boss id), whatever the state of the oracle and whatever the page,
a second `pollKillEvents` on the same page, started with `lastProcessedEventId` reset to
its earlier value and with the queue the first run left, leaves the same `createQueue`
as the first run. -/
theorem replay_of_a_page_is_idempotent (g : String → GetObjectResult) (st : OracleState)
    (page : List CombatEvent) :
    (pollKillEvents g
        { lastProcessedEventId := st.lastProcessedEventId,
          createQueue := (pollKillEvents g st (some page)).1.createQueue }
        (some page)).1.createQueue =
      (pollKillEvents g st (some page)).1.createQueue := by
  rw [pollKillEvents_queue, pollKillEvents_queue]
  exact killLoop_replay g st.lastProcessedEventId page st.createQueue

/-- C28 (amended): when every boss object that `getObject` answers with carries a
`death_time` that `parseInt` reads as a number, every entry a poll adds to `createQueue`
has a numeric `createAt`, and a call of `processQueue` at any clock value
`now >= createAt` on a queue holding the entry submits it. -/
theorem readable_death_time_respawn_becomes_due (g : String → GetObjectResult)
    (st : OracleState) (page : List CombatEvent)
    (hread : ∀ id f, g id = .content f → parseInt f.death_time ≠ none) :
    ∀ p ∈ (pollKillEvents g st (some page)).1.createQueue, p ∉ st.createQueue →
      ∃ c : Int, p.2.createAt = some c ∧
        ∀ (now : Int) (exec : String → Task → TxOutcome) (q : CreateQueue),
          c ≤ now → p ∈ q → p.1 ∈ (processQueue exec now q).submitted := by
  intro p hp hnew
  rw [pollKillEvents_queue] at hp
  rcases killLoop_new_entry g st.lastProcessedEventId page st.createQueue p hp with h | h
  · exact absurd h hnew
  · obtain ⟨f, hg, hf⟩ := h
    cases hd : parseInt f.death_time with
    | none => exact absurd hd (hread p.1 f hg)
    | some d =>
      refine ⟨d + 30000, by rw [hf]; simp [taskOfFields, hd, jsAdd], ?_⟩
      intro now exec q hle hq
      rw [processQueue_submitted, List.mem_map]
      refine ⟨p, ?_, rfl⟩
      rw [List.mem_filter]
      refine ⟨hq, ?_⟩
      rw [isDue_iff]
      exact ⟨d + 30000, by rw [hf]; simp [taskOfFields, hd, jsAdd], hle⟩

/-- C29 (amended): starting from a registry in which every key is the id of its entry,
no key occurs twice and no two entries share a name, a call of `register_agent` keeps
the first two facts whatever its arguments, and keeps the names distinct when it carries
a name or finds its agent. A call that finds a registered agent leaves the registry
unchanged and, when the ledger call returns or throws `AlreadyRegistered`, answers with
the stored address and api key of that agent. -/
theorem register_agent_keeps_registry_well_formed (reg : Registry) (args : RegisterArgs)
    (env : RegisterEnv) (h : WellFormed reg) :
    (∀ p ∈ (registerAgent reg args env).1, p.1 = p.2.id) ∧
      ((registerAgent reg args env).1.map Prod.fst).Nodup ∧
      (truthyArg args.name = true ∨ (findAgent reg args).isSome = true →
        WellFormed (registerAgent reg args env).1) ∧
      (∀ a, findAgent reg args = some a →
        (registerAgent reg args env).1 = reg ∧
          (∀ d, env.ledger = .ok d →
            (registerAgent reg args env).2 = .success (nameOr args a.name) a.id a.apiKey d) ∧
          (∀ m, env.ledger = .error m →
            includesChars "AlreadyRegistered".toList m.toList = true →
            (registerAgent reg args env).2 =
              .alreadyRegistered (nameOr args a.name) a.id a.apiKey)) := by
  obtain ⟨hid, hkeys, hnames⟩ := h
  have hreg : ∀ a, findAgent reg args = some a → (registerAgent reg args env).1 = reg := by
    intro a ha
    simp [registerAgent, ha]
  have hnone : findAgent reg args = none →
      (registerAgent reg args env).1 = registrySet reg env.newAddress
        { id := env.newAddress, name := nameOr args "Unnamed_Agent",
          secretKey := env.newSecretKey, apiKey := env.newApiKey, registeredAt := env.now } := by
    intro ha
    simp [registerAgent, ha]
  have h1 : ∀ p ∈ (registerAgent reg args env).1, p.1 = p.2.id := by
    cases hf : findAgent reg args with
    | some a =>
      rw [hreg a hf]
      exact hid
    | none =>
      rw [hnone hf]
      intro p hp
      rcases registrySet_mem reg _ _ p hp with h | h
      · rw [h]
      · exact hid p h.1
  have h2 : ((registerAgent reg args env).1.map Prod.fst).Nodup := by
    cases hf : findAgent reg args with
    | some a =>
      rw [hreg a hf]
      exact hkeys
    | none =>
      rw [hnone hf, registrySet_keys]
      split
      · exact hkeys
      · rename_i hany
        refine List.Nodup.append hkeys (by simp) ?_
        intro k hk hk2
        simp only [List.mem_singleton] at hk2
        apply hany
        rw [List.mem_map] at hk
        obtain ⟨p, hp, hpk⟩ := hk
        simp only [List.any_eq_true, beq_iff_eq]
        exact ⟨p, hp, hpk.trans hk2⟩
  refine ⟨h1, h2, ?_, ?_⟩
  · intro hcase
    refine ⟨h1, h2, ?_⟩
    cases hf : findAgent reg args with
    | some a =>
      rw [hreg a hf]
      exact hnames
    | none =>
      have hname : truthyArg args.name = true := by
        rcases hcase with h | h
        · exact h
        · rw [hf] at h
          exact absurd h (by simp)
      rw [hnone hf]
      apply registrySet_names reg _ _ hkeys hnames
      intro p hp hpn
      have hfind : reg.find? (fun p => p.2.name == args.name.getD "") = none := by
        unfold findAgent at hf
        simp only [hname, if_true] at hf
        split at hf
        · exact absurd hf (by simp)
        · simpa using hf
      rw [List.find?_eq_none] at hfind
      apply hfind p hp
      simp only [nameOr, hname, if_true] at hpn
      simp [hpn]
  · intro a ha
    refine ⟨hreg a ha, ?_, ?_⟩
    · intro d hd
      simp [registerAgent, ha, hd]
    · intro m hm hinc
      unfold registerAgent
      simp only [ha, hm]
      rw [if_pos hinc]

/-! ## Evaluations, counterexamples and instances for the tools -/

/-- C27, instance: the page with the kill of `0xb055` is replayed on the oracle at
start; the queue holds the one entry after the first run and after the second. -/
theorem replay_of_a_page_is_idempotent_witness :
    (pollKillEvents getDeadBoss
        { lastProcessedEventId := freshOracle.lastProcessedEventId,
          createQueue := (pollKillEvents getDeadBoss freshOracle (some [killEvent])).1.createQueue }
        (some [killEvent])).1.createQueue =
      (pollKillEvents getDeadBoss freshOracle (some [killEvent])).1.createQueue :=
  replay_of_a_page_is_idempotent getDeadBoss freshOracle [killEvent]

/-- C28, counterexample: the boss object of the killed boss has no `death_time`. The
poll enqueues it with `createAt = NaN`, the test `now >= createAt` is false at the clock
value 10^15 as at any other, and `processQueue` leaves the entry where it is without
submitting anything. -/
theorem undated_respawn_is_never_executed :
    (pollKillEvents getUndatedBoss freshOracle (some [killEvent])).1.createQueue =
        [("0xb055", taskOfFields undatedBoss)] ∧
      (taskOfFields undatedBoss).createAt = none ∧
      isDue 1000000000000000 (taskOfFields undatedBoss) = false ∧
      processQueue succeedWithoutEvent 1000000000000000 [("0xb055", taskOfFields undatedBoss)] =
        { createQueue := [("0xb055", taskOfFields undatedBoss)], submitted := [] } := by
  decide

/-- C28, instance of the amended claim: the boss object carries `death_time` 100, the
entry is created at 30100 and submitted by a call at 40000. -/
theorem readable_death_time_respawn_becomes_due_witness :
    (taskOfFields deadBoss).createAt = some 30100 ∧
      "0xb055" ∈ (processQueue succeedWithoutEvent 40000 pendingQueue).submitted := by
  obtain ⟨c, hc, hsub⟩ := readable_death_time_respawn_becomes_due getDeadBoss freshOracle
    [killEvent] (fun _ f hf => by
      have hfd : f = deadBoss := by
        simp only [getDeadBoss, GetObjectResult.content.injEq] at hf
        exact hf.symm
      rw [hfd]
      decide)
    ("0xb055", taskOfFields deadBoss) (by decide) (by decide)
  have hc2 : c = 30100 := by
    have h0 : (taskOfFields deadBoss).createAt = some 30100 := by decide
    rw [h0] at hc
    exact (Option.some.inj hc).symm
  refine ⟨by decide, ?_⟩
  exact hsub 40000 succeedWithoutEvent pendingQueue (by rw [hc2]; decide) (by decide)

/-- C29, counterexample: the registry holds one agent that was registered without a
name. A second call without arguments adds an entry for the fresh address `0xbbb` under
the same default name, so two entries share the name `Unnamed_Agent`. And a call that
names the registered agent `alpha` while the network is down answers with an error that
carries neither address nor api key. -/
theorem nameless_calls_share_the_default_name :
    (namelessRegistry.map (fun p => p.2.name)).Nodup ∧
      (registerAgent namelessRegistry namelessCall freshEnv).1.map (fun p => (p.1, p.2.name)) =
        [("0xaaa", "Unnamed_Agent"), ("0xbbb", "Unnamed_Agent")] ∧
      ¬ ((registerAgent namelessRegistry namelessCall freshEnv).1.map
        (fun p => p.2.name)).Nodup ∧
      (registerAgent alphaRegistry alphaCall offlineEnv).2 =
        .error "On-chain registration failed: fetch failed" := by
  decide

/-- C29, instance of the amended claim: a call that names the registered agent `alpha`. -/
theorem register_agent_keeps_registry_well_formed_witness :
    ((registerAgent alphaRegistry alphaCall freshEnv).1.map Prod.fst).Nodup ∧
      WellFormed (registerAgent alphaRegistry alphaCall freshEnv).1 ∧
      (registerAgent alphaRegistry alphaCall freshEnv).1 = alphaRegistry ∧
      (registerAgent alphaRegistry alphaCall freshEnv).2 =
        .success (nameOr alphaCall "alpha") "0xaaa" "sk_1" "5tXh" :=
  have hw : WellFormed alphaRegistry := by
    unfold WellFormed
    decide
  ⟨(register_agent_keeps_registry_well_formed alphaRegistry alphaCall freshEnv hw).2.1,
    (register_agent_keeps_registry_well_formed alphaRegistry alphaCall freshEnv hw).2.2.1
      (Or.inl (by decide)),
    ((register_agent_keeps_registry_well_formed alphaRegistry alphaCall freshEnv hw).2.2.2
      { id := "0xaaa", name := "alpha", secretKey := "c2VjcmV0", apiKey := "sk_1",
        registeredAt := "2026-01-01T00:00:00.000Z" } (by decide)).1,
    ((register_agent_keeps_registry_well_formed alphaRegistry alphaCall freshEnv hw).2.2.2
      { id := "0xaaa", name := "alpha", secretKey := "c2VjcmV0", apiKey := "sk_1",
        registeredAt := "2026-01-01T00:00:00.000Z" } (by decide)).2.1 "5tXh" rfl⟩

/-! ## Lemmas on `getBossStats` -/

theorem attacksOn_append (l1 l2 : List StatEvent) (b : String) :
    attacksOn (l1 ++ l2) b = attacksOn l1 b ++ attacksOn l2 b := by
  simp [attacksOn, List.filterMap_append]

theorem attacksBy_append (l1 l2 : List StatEvent) (b a : String) :
    attacksBy (l1 ++ l2) b a = attacksBy l1 b a ++ attacksBy l2 b a := by
  simp [attacksBy, attacksOn_append]

theorem damageBy_append (l1 l2 : List StatEvent) (b a : String) :
    damageBy (l1 ++ l2) b a = damageBy l1 b a + damageBy l2 b a := by
  simp [damageBy, attacksBy_append]

theorem leaderboardAdd_keys (a : String) (dmg : JSNum) :
    ∀ lb : Leaderboard, (leaderboardAdd lb a dmg).map Prod.fst =
      if a ∈ lb.map Prod.fst then lb.map Prod.fst else lb.map Prod.fst ++ [a] := by
  intro lb
  induction lb with
  | nil => simp [leaderboardAdd]
  | cons p rest ih =>
    obtain ⟨k, v⟩ := p
    by_cases hk : k = a
    · simp [leaderboardAdd, hk]
    · have hk2 : ¬ a = k := fun h => hk h.symm
      simp only [leaderboardAdd, beq_iff_eq, hk, if_false, List.map_cons, ih, List.mem_cons, hk2,
        false_or]
      split <;> simp

theorem leaderboardAdd_mem (a : String) (dmg : JSNum) :
    ∀ lb : Leaderboard, (lb.map Prod.fst).Nodup → ∀ p ∈ leaderboardAdd lb a dmg,
      (p.1 ≠ a ∧ p ∈ lb) ∨
        (p.1 = a ∧ ((∃ v0, (a, v0) ∈ lb ∧
            p.2 = { damage := jsAdd v0.damage dmg, attacks := v0.attacks + 1 }) ∨
          (a ∉ lb.map Prod.fst ∧ p.2 = { damage := jsAdd (some 0) dmg, attacks := 1 }))) := by
  intro lb
  induction lb with
  | nil =>
    intro _ p hp
    simp only [leaderboardAdd, List.mem_singleton] at hp
    subst hp
    right
    exact ⟨rfl, Or.inr ⟨by simp, rfl⟩⟩
  | cons q rest ih =>
    intro hnd p hp
    obtain ⟨k, v⟩ := q
    rw [List.map_cons, List.nodup_cons] at hnd
    by_cases hk : k = a
    · subst hk
      simp only [leaderboardAdd, beq_self_eq_true, if_true, List.mem_cons] at hp
      rcases hp with hp | hp
      · subst hp
        right
        exact ⟨rfl, Or.inl ⟨v, List.mem_cons_self _ _, rfl⟩⟩
      · left
        refine ⟨?_, List.mem_cons_of_mem _ hp⟩
        intro hpk
        apply hnd.1
        rw [List.mem_map]
        exact ⟨p, hp, hpk⟩
    · have hk2 : (k == a) = false := by simpa using hk
      simp only [leaderboardAdd, hk2, Bool.false_eq_true, if_false, List.mem_cons] at hp
      rcases hp with hp | hp
      · subst hp
        left
        exact ⟨hk, List.mem_cons_self _ _⟩
      · rcases ih hnd.2 p hp with h | h
        · left
          exact ⟨h.1, List.mem_cons_of_mem _ h.2⟩
        · right
          refine ⟨h.1, ?_⟩
          rcases h.2 with ⟨v0, hv0, hp2⟩ | ⟨hno, hp2⟩
          · exact Or.inl ⟨v0, List.mem_cons_of_mem _ hv0, hp2⟩
          · right
            refine ⟨?_, hp2⟩
            simp only [List.map_cons, List.mem_cons, not_or]
            exact ⟨fun h => hk h.symm, hno⟩

theorem stats_fold (b : String) (l : List StatEvent) :
    (∀ j ∈ attacksOn l b, parseInt j.damage ≠ none) →
      (l.foldl (statsStep b) { totalDamage := some 0, totalAttacks := 0, leaderboard := [] }).totalAttacks =
          (attacksOn l b).length ∧
        (l.foldl (statsStep b) { totalDamage := some 0, totalAttacks := 0, leaderboard := [] }).totalDamage =
          some ((attacksOn l b).map damageValue).sum ∧
        ((l.foldl (statsStep b)
          { totalDamage := some 0, totalAttacks := 0, leaderboard := [] }).leaderboard.map
            Prod.fst).Nodup ∧
        (∀ p ∈ (l.foldl (statsStep b)
            { totalDamage := some 0, totalAttacks := 0, leaderboard := [] }).leaderboard,
          p.2.damage = some (damageBy l b p.1) ∧ p.2.attacks = (attacksBy l b p.1).length ∧
            0 < p.2.attacks) ∧
        (∀ a, attacksBy l b a ≠ [] → a ∈ (l.foldl (statsStep b)
            { totalDamage := some 0, totalAttacks := 0, leaderboard := [] }).leaderboard.map
              Prod.fst) := by
  induction l using List.reverseRecOn with
  | nil =>
    intro _
    simp [attacksOn, attacksBy]
  | append_singleton l e ih =>
    intro hnum
    have hnum1 : ∀ j ∈ attacksOn l b, parseInt j.damage ≠ none := by
      intro j hj
      apply hnum j
      rw [attacksOn_append]
      exact List.mem_append_left _ hj
    obtain ⟨i1, i2, i3, i4, i5⟩ := ih hnum1
    rw [List.foldl_append, List.foldl_cons, List.foldl_nil]
    generalize l.foldl (statsStep b) { totalDamage := some 0, totalAttacks := 0, leaderboard := [] } =
      acc at i1 i2 i3 i4 i5 ⊢
    have hskip : attacksOn [e] b = [] →
        (statsStep b acc e = acc) →
        (statsStep b acc e).totalAttacks = (attacksOn (l ++ [e]) b).length ∧
        (statsStep b acc e).totalDamage = some ((attacksOn (l ++ [e]) b).map damageValue).sum ∧
        ((statsStep b acc e).leaderboard.map Prod.fst).Nodup ∧
        (∀ p ∈ (statsStep b acc e).leaderboard,
          p.2.damage = some (damageBy (l ++ [e]) b p.1) ∧
            p.2.attacks = (attacksBy (l ++ [e]) b p.1).length ∧ 0 < p.2.attacks) ∧
        (∀ a, attacksBy (l ++ [e]) b a ≠ [] → a ∈ (statsStep b acc e).leaderboard.map Prod.fst) := by
      intro h0 hs
      have hon : attacksOn (l ++ [e]) b = attacksOn l b := by rw [attacksOn_append, h0]; simp
      have hby : ∀ a, attacksBy (l ++ [e]) b a = attacksBy l b a := by
        intro a
        simp [attacksBy, hon]
      have hdm : ∀ a, damageBy (l ++ [e]) b a = damageBy l b a := by
        intro a
        simp [damageBy, hby]
      rw [hs, hon]
      refine ⟨i1, i2, i3, ?_, ?_⟩
      · intro p hp
        rw [hdm, hby]
        exact i4 p hp
      · intro a ha
        rw [hby] at ha
        exact i5 a ha
    cases hj : e.parsedJson with
    | none =>
      apply hskip
      · simp [attacksOn, hj]
      · simp [statsStep, hj]
    | some j =>
      by_cases hb : j.boss_id = b
      · have h1 : attacksOn [e] b = [j] := by simp [attacksOn, hj, hb]
        have hon : attacksOn (l ++ [e]) b = attacksOn l b ++ [j] := by rw [attacksOn_append, h1]
        have hjn : parseInt j.damage ≠ none := by
          apply hnum j
          rw [hon]
          simp
        obtain ⟨d, hd⟩ := Option.ne_none_iff_exists'.1 hjn
        have hdv : damageValue j = d := by simp [damageValue, hd]
        have hstep : statsStep b acc e =
            { totalDamage := jsAdd acc.totalDamage (some d), totalAttacks := acc.totalAttacks + 1,
              leaderboard := leaderboardAdd acc.leaderboard j.attacker (some d) } := by
          simp [statsStep, hj, hb, hd]
        have hby : ∀ a, attacksBy (l ++ [e]) b a =
            attacksBy l b a ++ (if j.attacker = a then [j] else []) := by
          intro a
          simp only [attacksBy, hon, List.filter_append]
          by_cases ha : j.attacker = a <;> simp [ha]
        have hdm : ∀ a, damageBy (l ++ [e]) b a =
            damageBy l b a + (if j.attacker = a then d else 0) := by
          intro a
          simp only [damageBy, hby]
          by_cases ha : j.attacker = a <;> simp [ha, hdv]
        rw [hstep]
        refine ⟨?_, ?_, ?_, ?_, ?_⟩
        · simp [hon, i1]
        · simp [hon, i2, jsAdd, hdv]
        · show ((leaderboardAdd acc.leaderboard j.attacker (some d)).map Prod.fst).Nodup
          rw [leaderboardAdd_keys]
          split
          · exact i3
          · rename_i hno
            refine List.Nodup.append i3 (by simp) ?_
            intro k hk hk2
            simp only [List.mem_singleton] at hk2
            exact hno (hk2 ▸ hk)
        · intro p hp
          rcases leaderboardAdd_mem j.attacker (some d) acc.leaderboard i3 p hp with h | h
          · obtain ⟨hne, hmem⟩ := h
            have hne2 : ¬ j.attacker = p.1 := fun h => hne h.symm
            rw [hdm, hby]
            simp only [hne2, if_false, add_zero, List.append_nil]
            exact i4 p hmem
          · obtain ⟨heq, hcase⟩ := h
            rw [hdm, hby]
            simp only [heq, if_true, List.length_append, List.length_singleton]
            rcases hcase with ⟨v0, hv0, hp2⟩ | ⟨hno, hp2⟩
            · obtain ⟨j1, j2, _⟩ := i4 (j.attacker, v0) hv0
              simp only at j1 j2
              rw [hp2]
              simp [j1, j2, jsAdd]
            · have hempty : attacksBy l b j.attacker = [] := by
                by_contra hne
                exact hno (i5 j.attacker hne)
              rw [hp2]
              simp [damageBy, hempty, jsAdd]
        · intro a ha
          show a ∈ (leaderboardAdd acc.leaderboard j.attacker (some d)).map Prod.fst
          rw [leaderboardAdd_keys]
          by_cases haj : j.attacker = a
          · subst haj
            split
            · assumption
            · simp
          · have hold : attacksBy l b a ≠ [] := by
              rw [hby] at ha
              simpa [haj] using ha
            have := i5 a hold
            split
            · exact this
            · exact List.mem_append_left _ this
      · apply hskip
        · simp [attacksOn, hj, hb]
        · simp [statsStep, hj, hb]

theorem dmgBefore_iff_dmgGe {a b : LeaderEntry} (ha : a.damage ≠ none) (hb : b.damage ≠ none) :
    dmgBefore a b ↔ dmgGe a b := by
  obtain ⟨x, hx⟩ := Option.ne_none_iff_exists'.1 ha
  obtain ⟨y, hy⟩ := Option.ne_none_iff_exists'.1 hb
  simp only [dmgBefore, dmgGe, dmgKey, hx, hy, jsSub, Option.getD_some]
  omega

theorem orderedInsert_dmg_congr (a : LeaderEntry) (l : List LeaderEntry) (ha : a.damage ≠ none)
    (hl : ∀ e ∈ l, e.damage ≠ none) :
    l.orderedInsert dmgBefore a = l.orderedInsert dmgGe a := by
  induction l with
  | nil => rfl
  | cons b t ih =>
    have hb : b.damage ≠ none := hl b (List.mem_cons_self _ _)
    have ht : ∀ e ∈ t, e.damage ≠ none := fun e he => hl e (List.mem_cons_of_mem _ he)
    simp only [List.orderedInsert]
    by_cases h : dmgBefore a b
    · have h2 : dmgGe a b := (dmgBefore_iff_dmgGe ha hb).1 h
      simp [h, h2]
    · have h2 : ¬ dmgGe a b := fun hk => h ((dmgBefore_iff_dmgGe ha hb).2 hk)
      simp [h, h2, ih ht]

theorem insertionSort_dmg_eq (l : List LeaderEntry) (hl : ∀ e ∈ l, e.damage ≠ none) :
    l.insertionSort dmgBefore = l.insertionSort dmgGe := by
  induction l with
  | nil => rfl
  | cons a t ih =>
    have ht : ∀ e ∈ t, e.damage ≠ none := fun e he => hl e (List.mem_cons_of_mem _ he)
    simp only [List.insertionSort]
    rw [ih ht]
    apply orderedInsert_dmg_congr a _ (hl a (List.mem_cons_self _ _))
    intro e he
    exact ht e ((List.perm_insertionSort dmgGe t).mem_iff.1 he)

/-! ## The claim on `getBossStats` -/

/-- C25: for every list of events whose attacks on the boss carry a damage that
`parseInt` reads as a number (as every CombatEvent does), `getBossStats` returns
`totalAttacks` equal to the number of events whose `boss_id` is the id, `totalDamage`
equal to the sum of their damages, and a leaderboard of at most five entries, sorted by
damage in non-increasing order, with one entry per attacker that carries the summed
damage and the attack count of that attacker; every attacker of the boss that is left out
has a total damage no greater than that of every attacker included. -/
theorem boss_stats_totals_and_top_five (events : List StatEvent) (bossId : String)
    (hnum : ∀ j ∈ attacksOn events bossId, parseInt j.damage ≠ none) :
    (getBossStats events bossId).totalAttacks = (attacksOn events bossId).length ∧
      (getBossStats events bossId).totalDamage =
        some ((attacksOn events bossId).map damageValue).sum ∧
      (getBossStats events bossId).leaderboard.length ≤ 5 ∧
      (getBossStats events bossId).leaderboard.Pairwise
        (fun x y => jsGe x.damage y.damage = true) ∧
      ((getBossStats events bossId).leaderboard.map (fun x => x.address)).Nodup ∧
      (∀ x ∈ (getBossStats events bossId).leaderboard,
        x.damage = some (damageBy events bossId x.address) ∧
          x.attacks = (attacksBy events bossId x.address).length ∧ 0 < x.attacks) ∧
      (∀ a, attacksBy events bossId a ≠ [] →
        a ∉ (getBossStats events bossId).leaderboard.map (fun x => x.address) →
        ∀ x ∈ (getBossStats events bossId).leaderboard,
          damageBy events bossId a ≤ damageBy events bossId x.address) := by
  obtain ⟨i1, i2, i3, i4, i5⟩ := stats_fold bossId events hnum
  simp only [getBossStats, sortedLeaderboard]
  generalize events.foldl (statsStep bossId)
    { totalDamage := some 0, totalAttacks := 0, leaderboard := [] } = acc at i1 i2 i3 i4 i5 ⊢
  have hentries : ∀ x ∈ acc.leaderboard.map (fun p =>
      ({ address := p.1, damage := p.2.damage, attacks := p.2.attacks } : LeaderEntry)),
      x.damage = some (damageBy events bossId x.address) ∧
        x.attacks = (attacksBy events bossId x.address).length ∧ 0 < x.attacks := by
    intro x hx
    rw [List.mem_map] at hx
    obtain ⟨p, hp, rfl⟩ := hx
    exact i4 p hp
  have hnumeric : ∀ x ∈ acc.leaderboard.map (fun p =>
      ({ address := p.1, damage := p.2.damage, attacks := p.2.attacks } : LeaderEntry)),
      x.damage ≠ none := by
    intro x hx
    rw [(hentries x hx).1]
    simp
  rw [insertionSort_dmg_eq _ hnumeric]
  generalize hen : acc.leaderboard.map (fun p =>
      ({ address := p.1, damage := p.2.damage, attacks := p.2.attacks } : LeaderEntry)) = entries
    at hentries hnumeric ⊢
  have hperm : (entries.insertionSort dmgGe).Perm entries := List.perm_insertionSort dmgGe entries
  have hsorted : (entries.insertionSort dmgGe).Sorted dmgGe := List.sorted_insertionSort dmgGe entries
  have haddr : (entries.map (fun x => x.address)).Nodup := by
    rw [← hen, List.map_map]
    exact i3
  have hmemS : ∀ x ∈ entries.insertionSort dmgGe, x ∈ entries := fun x hx => hperm.mem_iff.1 hx
  have hge : ∀ x y, x ∈ entries → y ∈ entries → dmgGe x y →
      damageBy events bossId y.address ≤ damageBy events bossId x.address := by
    intro x y hx hy hxy
    have h1 := (hentries x hx).1
    have h2 := (hentries y hy).1
    simpa [dmgGe, dmgKey, h1, h2] using hxy
  have hsplit : (entries.insertionSort dmgGe).take 5 ++ (entries.insertionSort dmgGe).drop 5 =
      entries.insertionSort dmgGe := List.take_append_drop 5 _
  have hpw : ((entries.insertionSort dmgGe).take 5 ++ (entries.insertionSort dmgGe).drop 5).Pairwise
      dmgGe := by
    rw [hsplit]
    exact hsorted
  rw [List.pairwise_append] at hpw
  have htake : ∀ x ∈ (entries.insertionSort dmgGe).take 5, x ∈ entries :=
    fun x hx => hmemS x (List.mem_of_mem_take hx)
  refine ⟨i1, i2, ?_, ?_, ?_, ?_, ?_⟩
  · simp only [List.length_take]
    omega
  · refine hpw.1.imp_of_mem ?_
    intro x y hx hy hxy
    have h1 := (hentries x (htake x hx)).1
    have h2 := (hentries y (htake y hy)).1
    have := hge x y (htake x hx) (htake y hy) hxy
    simp [jsGe, h1, h2, this]
  · have hsub : ((entries.insertionSort dmgGe).take 5).Sublist (entries.insertionSort dmgGe) :=
      List.take_sublist 5 _
    exact (hsub.map _).nodup ((hperm.map _).nodup_iff.2 haddr)
  · intro x hx
    exact hentries x (htake x hx)
  · intro a ha hout x hx
    have hkey := i5 a ha
    rw [List.mem_map] at hkey
    obtain ⟨p, hp, hpa⟩ := hkey
    have hy : ({ address := p.1, damage := p.2.damage, attacks := p.2.attacks } : LeaderEntry) ∈
        entries := by
      rw [← hen]
      exact List.mem_map_of_mem _ hp
    have hyS := hperm.mem_iff.2 hy
    rw [← hsplit, List.mem_append] at hyS
    rcases hyS with hin | hin
    · exfalso
      apply hout
      rw [List.mem_map]
      exact ⟨_, hin, hpa⟩
    · have := hge x _ (htake x hx) hy (hpw.2.2 x hx _ hin)
      simpa [hpa] using this

/-- C25, instance: four attacks on `0xb055` by two attackers among six events. -/
theorem boss_stats_totals_and_top_five_witness :
    (getBossStats sampleAttacks "0xb055").totalAttacks = (attacksOn sampleAttacks "0xb055").length ∧
      (getBossStats sampleAttacks "0xb055").totalDamage =
        some ((attacksOn sampleAttacks "0xb055").map damageValue).sum ∧
      getBossStats sampleAttacks "0xb055" =
        { totalDamage := some 43, totalAttacks := 4,
          leaderboard := [{ address := "0xa2", damage := some 26, attacks := 2 },
                          { address := "0xa1", damage := some 17, attacks := 2 }] } :=
  ⟨(boss_stats_totals_and_top_five sampleAttacks "0xb055" (by decide)).1,
    (boss_stats_totals_and_top_five sampleAttacks "0xb055" (by decide)).2.1, by decide⟩

/-! ## The claim on the game state built from `list_bosses` -/

theorem jsLt_nan_right (x : JSNumber) : jsLt x .nan = false := by
  cases x <;> rfl

theorem isAliveBoss_asRead (b : ListedBoss) :
    isAliveBoss b.asRead = jsLt (JSNumber.ofInt 0) (toNumber b.hp) := by
  simp [isAliveBoss, ListedBoss.asRead, JSAtom.truthy]

/-- C26, evaluation at the failing inputs: on the game state `getGameState` builds from
an answer of `list_bosses`, `heuristicThink` returns ATTACK as soon as one listed boss
has `hp > 0`, whatever the balance and whatever `attack_cost` and `is_alive` say, since
it reads the keys `attackCost` and `isAlive`, which the listed bosses do not have. With
an alive boss of cost `1.00 SUI` and the balance text `Balance: 0.0000 SUI` it attacks
with a balance of 0; and it targets a boss whose `is_alive` is false and whose `hp` is
20. -/
theorem listed_bosses_bypass_the_balance_guard (bosses : List ListedBoss)
    (balanceText : String) :
    ((heuristicThink (getGameState (.bosses bosses) balanceText)).action = .str "ATTACK" ↔
        ∃ b ∈ bosses, jsLt (JSNumber.ofInt 0) (toNumber b.hp) = true) ∧
      (getGameState (.bosses [goblinKing]) "Balance: 0.0000 SUI").balance =
        .fin { mant := 0, scale := 4 } ∧
      heuristicThink (getGameState (.bosses [goblinKing]) "Balance: 0.0000 SUI") =
        { action := .str "ATTACK", boss_id := .str "0x567",
          reason := .regularAttack (.str "Goblin King") } ∧
      heuristicThink (getGameState (.bosses [fallenKing]) "Balance: 5.0000 SUI") =
        { action := .str "ATTACK", boss_id := .str "0x568",
          reason := .regularAttack (.str "Fallen King") } := by
  refine ⟨?_, by decide, by decide, by decide⟩
  have halive : aliveBosses (getGameState (.bosses bosses) balanceText) =
      (bosses.map ListedBoss.asRead).filter isAliveBoss := rfl
  unfold heuristicThink
  rw [halive]
  cases hf : (bosses.map ListedBoss.asRead).filter isAliveBoss with
  | nil =>
    have hne : ¬ (JSAtom.str "WAIT" = JSAtom.str "ATTACK") := by decide
    refine ⟨fun h => absurd h hne, ?_⟩
    rintro ⟨b, hb, hhp⟩
    have hmem : b.asRead ∈ (bosses.map ListedBoss.asRead).filter isAliveBoss := by
      rw [List.mem_filter]
      exact ⟨List.mem_map_of_mem _ hb, by rw [isAliveBoss_asRead]; exact hhp⟩
    rw [hf] at hmem
    exact absurd hmem (by simp)
  | cons target rest =>
    have hmem : target ∈ (bosses.map ListedBoss.asRead).filter isAliveBoss := by
      rw [hf]
      exact List.mem_cons_self _ _
    rw [List.mem_filter, List.mem_map] at hmem
    obtain ⟨⟨b, hb, hbt⟩, halive2⟩ := hmem
    have hcost : parseFloat target.attackCost = .nan := by
      rw [← hbt]
      rfl
    simp only [hcost, jsLt_nan_right, Bool.false_eq_true, if_false, true_iff]
    refine ⟨b, hb, ?_⟩
    rw [← isAliveBoss_asRead, hbt]
    exact halive2

/-! ## Lemmas on the balance pattern -/

theorem isDigitOrDot_head (c : Char) (h : isDigitOrDot c = true) :
    isStrWhiteSpace c = false ∧ (c.toNat == 45) = false ∧ (c.toNat == 43) = false ∧
      (c.toNat == 73) = false := by
  have hc : (48 ≤ c.toNat ∧ c.toNat ≤ 57) ∨ c.toNat = 46 := by
    simpa [isDigitOrDot] using h
  refine ⟨?_, ?_, ?_, ?_⟩
  · simp only [isStrWhiteSpace, Bool.or_eq_false_iff, beq_eq_false_iff_ne, ne_eq,
      Bool.and_eq_false_iff, decide_eq_false_iff_not, not_le]
    omega
  · simp only [beq_eq_false_iff_ne, ne_eq]
    omega
  · simp only [beq_eq_false_iff_ne, ne_eq]
    omega
  · simp only [beq_eq_false_iff_ne, ne_eq]
    omega

theorem parseFloatChars_of_run (c : Char) (cs : List Char) (h : isDigitOrDot c = true) :
    parseFloatChars (c :: cs) = .nan ∨ ∃ d, parseFloatChars (c :: cs) = .fin d := by
  obtain ⟨h1, h2, h3, h4⟩ := isDigitOrDot_head c h
  have hinf : infinityWord.isPrefixOf (c :: cs) = false := by
    have : infinityWord = Char.ofNat 73 :: "nfinity".toList := by decide
    rw [this]
    simp only [List.isPrefixOf, Bool.and_eq_false_iff]
    left
    simp only [beq_eq_false_iff_ne, ne_eq]
    intro hc
    rw [← hc] at h4
    simp at h4
  unfold parseFloatChars
  simp only [List.dropWhile, h1, h2, h3, Bool.false_eq_true, if_false, hinf]
  cases scanDecimal (c :: cs) with
  | none => exact Or.inl rfl
  | some p => exact Or.inr ⟨_, rfl⟩

theorem matchBalanceAt_head (cs g : List Char) (h : matchBalanceAt cs = some g) :
    ∃ c r, g = c :: r ∧ isDigitOrDot c = true := by
  unfold matchBalanceAt at h
  split at h
  · simp only at h
    split at h
    · rename_i hcond
      simp only [Option.some.injEq] at h
      simp only [Bool.and_eq_true, Bool.not_eq_true', List.isEmpty_eq_false] at hcond
      cases hg : g with
      | nil =>
        rw [← h] at hg
        simp [hg] at hcond
      | cons c r =>
        refine ⟨c, r, rfl, ?_⟩
        have hmem : c ∈ (cs.drop 9).takeWhile isDigitOrDot := by
          rw [h, hg]
          exact List.mem_cons_self _ _
        exact List.mem_takeWhile_imp hmem
    · exact absurd h (by simp)
  · exact absurd h (by simp)

theorem matchBalance_head : ∀ (cs g : List Char), matchBalance cs = some g →
    ∃ c r, g = c :: r ∧ isDigitOrDot c = true := by
  intro cs
  induction cs with
  | nil =>
    intro g h
    exact absurd h (by simp [matchBalance])
  | cons c cs ih =>
    intro g h
    simp only [matchBalance] at h
    cases hm : matchBalanceAt (c :: cs) with
    | some g2 =>
      rw [hm] at h
      simp only [Option.some.injEq] at h
      rw [← h]
      exact matchBalanceAt_head _ _ hm
    | none =>
      rw [hm] at h
      exact ih g h

theorem parsedBalance_cases (text : String) :
    parsedBalance text = none ∨ parsedBalance text = some .nan ∨
      ∃ b, parsedBalance text = some (.fin b) := by
  unfold parsedBalance
  cases hm : matchBalance text.toList with
  | none => exact Or.inl rfl
  | some g =>
    obtain ⟨c, r, hg, hc⟩ := matchBalance_head _ _ hm
    right
    rw [hg]
    rcases parseFloatChars_of_run c r hc with h | ⟨d, h⟩
    · exact Or.inl (by simp [h])
    · exact Or.inr ⟨d, by simp [h]⟩

/-! ## Lemmas on the rounding to binary floating point -/

theorem pow2_pos (e : Int) : 0 < pow2 e := by
  unfold pow2
  positivity

theorem pow2_of_nonpos (e : Int) (h : e ≤ 0) : pow2 e = 1 := by
  unfold pow2
  have : e.toNat = 0 := by omega
  rw [this]
  rfl

theorem bitLengthAux_zero (fuel : Nat) : bitLengthAux fuel 0 = 0 := by
  cases fuel <;> simp [bitLengthAux]

theorem bitLengthAux_lt : ∀ (fuel n : Nat), n ≤ fuel → n < 2 ^ bitLengthAux fuel n := by
  intro fuel
  induction fuel with
  | zero =>
    intro n hn
    have : n = 0 := by omega
    subst this
    simp [bitLengthAux]
  | succ fuel ih =>
    intro n hn
    by_cases h0 : n = 0
    · subst h0
      simp [bitLengthAux]
    · simp only [bitLengthAux, h0, if_false]
      have := ih (n / 2) (by omega)
      rw [pow_succ]
      omega

theorem bitLengthAux_ge : ∀ (fuel n : Nat), n ≤ fuel → 0 < n →
    2 ^ (bitLengthAux fuel n - 1) ≤ n := by
  intro fuel
  induction fuel with
  | zero =>
    intro n hn hpos
    omega
  | succ fuel ih =>
    intro n hn hpos
    have h0 : n ≠ 0 := by omega
    simp only [bitLengthAux, h0, if_false, Nat.add_sub_cancel]
    by_cases h1 : n / 2 = 0
    · rw [h1, bitLengthAux_zero]
      simpa using hpos
    · have := ih (n / 2) (by omega) (by omega)
      have hb : 0 < bitLengthAux fuel (n / 2) := by
        by_contra hb
        have hz : bitLengthAux fuel (n / 2) = 0 := by omega
        have := bitLengthAux_lt fuel (n / 2) (by omega)
        rw [hz] at this
        omega
      have hs : bitLengthAux fuel (n / 2) = (bitLengthAux fuel (n / 2) - 1) + 1 := by omega
      rw [hs, pow_succ]
      omega

theorem bitLength_lt (n : Nat) : n < 2 ^ bitLength n :=
  bitLengthAux_lt n n (Nat.le_refl n)

theorem bitLength_ge (n : Nat) (h : 0 < n) : 2 ^ (bitLength n - 1) ≤ n :=
  bitLengthAux_ge n n (Nat.le_refl n) h

theorem bitLength_pos (n : Nat) (h : 0 < n) : 0 < bitLength n := by
  by_contra hb
  have hz : bitLength n = 0 := by omega
  have := bitLength_lt n
  rw [hz] at this
  omega

/-- The exponent chosen by `binaryExponent` is not too large: `2 ^ k ≤ num / den`. -/
theorem binaryExponent_le (num den : Nat) (hn : 0 < num) (hd : 0 < den) :
    den * pow2 (binaryExponent num den) ≤ num * pow2 (- binaryExponent num den) := by
  unfold binaryExponent
  simp only
  split
  · assumption
  · have h1 := bitLength_ge num hn
    have h2 := bitLength_lt den
    have h3 := bitLength_pos num hn
    have h4 := bitLength_pos den hd
    generalize bitLength num = bn at h1 h2 h3 h4 ⊢
    generalize bitLength den = bd at h1 h2 h3 h4 ⊢
    unfold pow2
    by_cases hc : bd + 1 ≤ bn
    · have e1 : ((bn : Int) - (bd : Int) - 1).toNat = bn - bd - 1 := by omega
      have e2 : (-((bn : Int) - (bd : Int) - 1)).toNat = 0 := by omega
      rw [e1, e2, pow_zero, Nat.mul_one]
      calc den * 2 ^ (bn - bd - 1) ≤ 2 ^ bd * 2 ^ (bn - bd - 1) :=
            Nat.mul_le_mul_right _ (Nat.le_of_lt h2)
        _ = 2 ^ (bn - 1) := by
            rw [← pow_add]
            congr 1
            omega
        _ ≤ num := h1
    · have e1 : ((bn : Int) - (bd : Int) - 1).toNat = 0 := by omega
      have e2 : (-((bn : Int) - (bd : Int) - 1)).toNat = bd - bn + 1 := by omega
      rw [e1, e2, pow_zero, Nat.mul_one]
      calc den ≤ 2 ^ bd := Nat.le_of_lt h2
        _ = 2 ^ (bn - 1) * 2 ^ (bd - bn + 1) := by
            rw [← pow_add]
            congr 1
            omega
        _ ≤ num * 2 ^ (bd - bn + 1) := Nat.mul_le_mul_right _ h1

/-- The exponent chosen by `binaryExponent` is not too small: `num / den < 2 ^ (k + 1)`. -/
theorem binaryExponent_lt (num den : Nat) (hn : 0 < num) (hd : 0 < den) :
    num * pow2 (- (binaryExponent num den + 1)) < den * pow2 (binaryExponent num den + 1) := by
  unfold binaryExponent
  simp only
  have h1 := bitLength_lt num
  have h2 := bitLength_ge den hd
  have h3 := bitLength_pos num hn
  have h4 := bitLength_pos den hd
  split
  · generalize bitLength num = bn at h1 h2 h3 h4 ⊢
    generalize bitLength den = bd at h1 h2 h3 h4 ⊢
    unfold pow2
    by_cases hc : bd ≤ bn
    · have e1 : ((bn : Int) - (bd : Int) + 1).toNat = bn - bd + 1 := by omega
      have e2 : (-((bn : Int) - (bd : Int) + 1)).toNat = 0 := by omega
      rw [e1, e2, pow_zero, Nat.mul_one]
      calc num < 2 ^ bn := h1
        _ = 2 ^ (bd - 1) * 2 ^ (bn - bd + 1) := by
            rw [← pow_add]
            congr 1
            omega
        _ ≤ den * 2 ^ (bn - bd + 1) := Nat.mul_le_mul_right _ h2
    · have e1 : ((bn : Int) - (bd : Int) + 1).toNat = 0 := by omega
      have e2 : (-((bn : Int) - (bd : Int) + 1)).toNat = bd - bn - 1 := by omega
      rw [e1, e2, pow_zero, Nat.mul_one]
      calc num * 2 ^ (bd - bn - 1) < 2 ^ bn * 2 ^ (bd - bn - 1) :=
            Nat.mul_lt_mul_of_pos_right h1 (by positivity)
        _ = 2 ^ (bd - 1) := by
            rw [← pow_add]
            congr 1
            omega
        _ ≤ den := h2
  · rename_i htest
    simp only [sub_add_cancel]
    rw [not_le] at htest
    exact htest

/-- The result of `roundHalfEven` is within one half of the quotient. -/
theorem roundHalfEven_near (num den : Nat) (hd : 0 < den) :
    2 * (roundHalfEven num den * den) ≤ 2 * num + den ∧
      2 * num ≤ 2 * (roundHalfEven num den * den) + den := by
  have hq := Nat.div_add_mod num den
  have hr := Nat.mod_lt num hd
  have hmul : ∀ k : Nat, (k + 1) * den = k * den + den := fun k => by ring
  have hcomm : num / den * den = den * (num / den) := Nat.mul_comm _ _
  unfold roundHalfEven
  simp only
  split
  · rw [hcomm]
    omega
  · split
    · rw [hmul, hcomm]
      omega
    · split
      · rw [hcomm]
        omega
      · rw [hmul, hcomm]
        omega

theorem roundHalfEven_one (a : Nat) : roundHalfEven a 1 = a := by
  simp [roundHalfEven, Nat.mod_one]

/-- An integer below 2^53 is converted without rounding. -/
theorem numberOfDigits_exact (N : Nat) (h : N < 2 ^ 53) :
    (numberOfDigits N).mant * pow2 (numberOfDigits N).exp =
      N * pow2 (- (numberOfDigits N).exp) := by
  unfold numberOfDigits roundToDouble
  by_cases h0 : N = 0
  · simp [h0]
  · simp only [h0, if_false]
    have hk := binaryExponent_le N 1 (by omega) (by omega)
    have hle : binaryExponent N 1 ≤ 52 := by
      by_contra hc
      have hneg : pow2 (- binaryExponent N 1) = 1 := pow2_of_nonpos _ (by omega)
      rw [hneg] at hk
      have hbig : 2 ^ 53 ≤ pow2 (binaryExponent N 1) := by
        unfold pow2
        exact Nat.pow_le_pow_right (by omega) (by omega)
      omega
    have he : pow2 (binaryExponent N 1 - 52) = 1 := pow2_of_nonpos _ (by omega)
    rw [he, Nat.one_mul, roundHalfEven_one, Nat.mul_one]

/-- The number written by `get_balance` for a balance below 2^53 MIST is below 10^21,
and its rounding to four decimals is a nearest one to the balance in SUI. -/
theorem fixedMantissa_near (N : Nat) (h : N < 2 ^ 53) :
    ¬ (10 ^ 21 * pow2 (- ((numberOfDigits N).divNat 1000000000).exp) ≤
        ((numberOfDigits N).divNat 1000000000).mant *
          pow2 ((numberOfDigits N).divNat 1000000000).exp) ∧
      fixedMantissa 4 ((numberOfDigits N).divNat 1000000000) * 100000 ≤ N + 50000 ∧
      N ≤ fixedMantissa 4 ((numberOfDigits N).divNat 1000000000) * 100000 + 50000 := by
  have hx0 := numberOfDigits_exact N h
  unfold Double.divNat
  rw [hx0]
  generalize hD : pow2 (- (numberOfDigits N).exp) = D
  have hDpos : 0 < D := by
    rw [← hD]
    exact pow2_pos _
  unfold roundToDouble
  by_cases h0 : N = 0
  · subst h0
    simp [fixedMantissa, pow2]
  · have hND : N * D ≠ 0 := Nat.mul_ne_zero h0 (by omega)
    simp only [hND, if_false, fixedMantissa]
    have hk := binaryExponent_le (N * D) (1000000000 * D) (by positivity) (by positivity)
    generalize binaryExponent (N * D) (1000000000 * D) = k at hk ⊢
    have hle : k ≤ 23 := by
      by_contra hc
      have hneg : pow2 (- k) = 1 := pow2_of_nonpos _ (by omega)
      rw [hneg, Nat.mul_one] at hk
      have hbig : 2 ^ 24 ≤ pow2 k := by
        unfold pow2
        exact Nat.pow_le_pow_right (by omega) (by omega)
      have hstep : 1000000000 * D * 2 ^ 24 ≤ N * D :=
        Nat.le_trans (Nat.mul_le_mul_left _ hbig) hk
      have hstep2 : D * (1000000000 * 2 ^ 24) ≤ D * N := by
        calc D * (1000000000 * 2 ^ 24) = 1000000000 * D * 2 ^ 24 := by ring
          _ ≤ N * D := hstep
          _ = D * N := by ring
      have := Nat.le_of_mul_le_mul_left hstep2 hDpos
      norm_num at this h
      omega
    have he : pow2 (k - 52) = 1 := pow2_of_nonpos _ (by omega)
    have hE : 2 ^ 29 ≤ pow2 (- (k - 52)) := by
      unfold pow2
      exact Nat.pow_le_pow_right (by omega) (by omega)
    generalize pow2 (- (k - 52)) = E at hE ⊢
    rw [he, Nat.mul_one, Nat.mul_one]
    have hr := roundHalfEven_near (N * D * E) (1000000000 * D) (by positivity)
    generalize roundHalfEven (N * D * E) (1000000000 * D) = m at hr ⊢
    have r1 : 2 * 1000000000 * m ≤ 2 * (N * E) + 1000000000 := by
      have : D * (2 * 1000000000 * m) ≤ D * (2 * (N * E) + 1000000000) := by
        calc D * (2 * 1000000000 * m) = 2 * (m * (1000000000 * D)) := by ring
          _ ≤ 2 * (N * D * E) + 1000000000 * D := hr.1
          _ = D * (2 * (N * E) + 1000000000) := by ring
      exact Nat.le_of_mul_le_mul_left this hDpos
    have r2 : 2 * (N * E) ≤ 2 * 1000000000 * m + 1000000000 := by
      have : D * (2 * (N * E)) ≤ D * (2 * 1000000000 * m + 1000000000) := by
        calc D * (2 * (N * E)) = 2 * (N * D * E) := by ring
          _ ≤ 2 * (m * (1000000000 * D)) + 1000000000 * D := hr.2
          _ = D * (2 * 1000000000 * m + 1000000000) := by ring
      exact Nat.le_of_mul_le_mul_left this hDpos
    have hE2 : 536870912 ≤ E := by
      norm_num at hE
      exact hE
    have hEpos : 0 < 2 * E := by omega
    have hN : N < 9007199254740992 := by
      norm_num at h
      exact h
    generalize hn : (2 * (m * 10 ^ 4) + E) / (2 * E) = n
    have f1 : 2 * (n * E) ≤ 2 * 10000 * m + E := by
      have := Nat.div_mul_le_self (2 * (m * 10 ^ 4) + E) (2 * E)
      rw [hn] at this
      calc 2 * (n * E) = n * (2 * E) := by ring
        _ ≤ 2 * (m * 10 ^ 4) + E := this
        _ = 2 * 10000 * m + E := by ring
    have f2 : 2 * 10000 * m + E < 2 * (n * E) + 2 * E := by
      have := Nat.lt_div_mul_add (a := 2 * (m * 10 ^ 4) + E) hEpos
      rw [hn] at this
      calc 2 * 10000 * m + E = 2 * (m * 10 ^ 4) + E := by ring
        _ < n * (2 * E) + 2 * E := this
        _ = 2 * (n * E) + 2 * E := by ring
    refine ⟨?_, ?_, ?_⟩
    · intro hbig
      have hNE : N * E ≤ 9007199254740992 * E := Nat.mul_le_mul_right _ (by omega)
      have : 10 ^ 21 * E ≤ m := hbig
      norm_num at this
      omega
    · by_contra hc
      have hc2 : N + 50001 ≤ n * 100000 := by omega
      have hc3 : (N + 50001) * E ≤ n * 100000 * E := Nat.mul_le_mul_right _ hc2
      have hc4 : N * E + 50001 * E ≤ 100000 * (n * E) := by
        calc N * E + 50001 * E = (N + 50001) * E := by ring
          _ ≤ n * 100000 * E := hc3
          _ = 100000 * (n * E) := by ring
      omega
    · by_contra hc
      have hc2 : n * 100000 + 50001 ≤ N := by omega
      have hc3 : (n * 100000 + 50001) * E ≤ N * E := Nat.mul_le_mul_right _ hc2
      have hc4 : 100000 * (n * E) + 50001 * E ≤ N * E := by
        calc 100000 * (n * E) + 50001 * E = (n * 100000 + 50001) * E := by ring
          _ ≤ N * E := hc3
      omega

/-! ## Lemmas on the digits of `toFixed` and on their parse -/

theorem digitChar_spec (d : Nat) (h : d < 10) :
    digitValue 10 (digitChar d) = some d ∧ isDigitOrDot (digitChar d) = true := by
  interval_cases d <;> exact ⟨by decide, by decide⟩

theorem digitsValue_append_one (ds : List Nat) (r : Nat) :
    digitsValue (ds ++ [r]) = digitsValue ds * 10 + r := by
  simp [digitsValue, List.foldl_append]

theorem digitsValue_zeros (k : Nat) (ds : List Nat) :
    digitsValue (List.replicate k 0 ++ ds) = digitsValue ds := by
  unfold digitsValue
  rw [List.foldl_append]
  congr 1
  induction k with
  | zero => rfl
  | succ k ih =>
    rw [List.replicate_succ, List.foldl_cons]
    exact ih

theorem natDigitsAux_spec : ∀ (fuel n : Nat) (acc : List Char), n ≤ fuel →
    ∃ ds : List Nat, (∀ d ∈ ds, d < 10) ∧ digitsValue ds = n ∧ (0 < n → ds ≠ []) ∧
      natDigitsAux fuel n acc = ds.map digitChar ++ acc := by
  intro fuel
  induction fuel with
  | zero =>
    intro n acc hn
    have : n = 0 := by omega
    subst this
    exact ⟨[], by simp, rfl, by simp, rfl⟩
  | succ fuel ih =>
    intro n acc hn
    by_cases h0 : n = 0
    · subst h0
      exact ⟨[], by simp, rfl, by simp, by simp [natDigitsAux]⟩
    · obtain ⟨ds, h1, h2, _, h4⟩ := ih (n / 10) (digitChar (n % 10) :: acc) (by omega)
      refine ⟨ds ++ [n % 10], ?_, ?_, ?_, ?_⟩
      · intro d hd
        rw [List.mem_append, List.mem_singleton] at hd
        rcases hd with hd | hd
        · exact h1 d hd
        · omega
      · rw [digitsValue_append_one, h2]
        omega
      · intro _
        simp
      · simp only [natDigitsAux, h0, if_false, h4, List.map_append, List.map_cons, List.map_nil,
          List.append_assoc, List.singleton_append]

theorem natDigits_spec (n : Nat) :
    ∃ ds : List Nat, (∀ d ∈ ds, d < 10) ∧ digitsValue ds = n ∧ ds ≠ [] ∧
      natDigits n = ds.map digitChar := by
  unfold natDigits
  by_cases h0 : n = 0
  · subst h0
    exact ⟨[0], by simp, rfl, by simp, rfl⟩
  · obtain ⟨ds, h1, h2, h3, h4⟩ := natDigitsAux_spec n n [] (Nat.le_refl n)
    refine ⟨ds, h1, h2, h3 (by omega), ?_⟩
    simp only [h0, if_false, h4, List.append_nil]

/-- The text of `toFixed`: digits, a dot, and `f` digits, which together write `n`. -/
theorem fixedDigits_spec (f n : Nat) :
    ∃ A B : List Nat, A ≠ [] ∧ B.length = f ∧ (∀ d ∈ A ++ B, d < 10) ∧
      digitsValue (A ++ B) = n ∧
      fixedDigits f n = A.map digitChar ++ Char.ofNat 46 :: B.map digitChar := by
  obtain ⟨ds, h1, h2, h3, h4⟩ := natDigits_spec n
  have hpad : List.replicate (f + 1 - (natDigits n).length) (digitChar 0) ++ natDigits n =
      (List.replicate (f + 1 - ds.length) 0 ++ ds).map digitChar := by
    rw [h4]
    simp
  generalize hps : List.replicate (f + 1 - ds.length) 0 ++ ds = ps at hpad
  have hlen : f + 1 ≤ ps.length := by
    rw [← hps]
    simp only [List.length_append, List.length_replicate]
    omega
  have hval : digitsValue ps = n := by
    rw [← hps, digitsValue_zeros, h2]
  have hdig : ∀ d ∈ ps, d < 10 := by
    intro d hd
    rw [← hps, List.mem_append] at hd
    rcases hd with hd | hd
    · have := List.eq_of_mem_replicate hd
      omega
    · exact h1 d hd
  refine ⟨ps.take (ps.length - f), ps.drop (ps.length - f), ?_, ?_, ?_, ?_, ?_⟩
  · intro hnil
    have := congrArg List.length hnil
    simp only [List.length_take, List.length_nil] at this
    omega
  · simp only [List.length_drop]
    omega
  · rw [List.take_append_drop]
    exact hdig
  · rw [List.take_append_drop]
    exact hval
  · unfold fixedDigits
    simp only [hpad, List.length_map, List.map_take, List.map_drop]

theorem takeDigits_digits (ds : List Nat) (rest : List Char) (h : ∀ d ∈ ds, d < 10) :
    takeDigits 10 (ds.map digitChar ++ rest) = ds ++ takeDigits 10 rest := by
  induction ds with
  | nil => rfl
  | cons d ds ih =>
    have hd := (digitChar_spec d (h d (List.mem_cons_self _ _))).1
    have ih2 := ih (fun x hx => h x (List.mem_cons_of_mem _ hx))
    show takeDigits 10 (digitChar d :: (ds.map digitChar ++ rest)) =
      d :: (ds ++ takeDigits 10 rest)
    rw [takeDigits, hd]
    simp only [ih2]

/-- The decimal literal of `toFixed` is read back as the integer it writes, with the
number of digits behind the dot as scale. -/
theorem scanDecimal_fixed (A B : List Nat) (hA : A ≠ []) (h : ∀ d ∈ A ++ B, d < 10) :
    scanDecimal (A.map digitChar ++ Char.ofNat 46 :: B.map digitChar) =
      some ({ mant := (digitsValue (A ++ B) : Nat), scale := B.length }, []) := by
  have hAd : ∀ d ∈ A, d < 10 := fun d hd => h d (List.mem_append_left _ hd)
  have hBd : ∀ d ∈ B, d < 10 := fun d hd => h d (List.mem_append_right _ hd)
  have hdot : takeDigits 10 (Char.ofNat 46 :: B.map digitChar) = [] := by
    simp only [takeDigits]
    rfl
  have hip : takeDigits 10 (A.map digitChar ++ Char.ofNat 46 :: B.map digitChar) = A := by
    rw [takeDigits_digits A _ hAd, hdot, List.append_nil]
  have hdrop : (A.map digitChar ++ Char.ofNat 46 :: B.map digitChar).drop A.length =
      Char.ofNat 46 :: B.map digitChar := by
    have hl : (A.map digitChar).length = A.length := List.length_map _ _
    rw [← hl, List.drop_left]
  have hfp : takeDigits 10 (B.map digitChar) = B := by
    have := takeDigits_digits B [] hBd
    simpa [takeDigits] using this
  have hAe : A.isEmpty = false := by
    cases A with
    | nil => exact absurd rfl hA
    | cons a t => rfl
  have hBl : (B.map digitChar).drop B.length = [] := by
    have hl : (B.map digitChar).length = B.length := List.length_map _ _
    rw [← hl, List.drop_length]
  have h46 : ((Char.ofNat 46).toNat == 46) = true := by decide
  unfold scanDecimal
  simp only [hip, hdrop, h46, if_true, List.drop_one, List.tail_cons, hfp, hAe, Bool.false_and,
    Bool.false_eq_true, if_false, hBl, scanExponent, le_refl, Int.toNat_zero, pow_zero,
    Nat.mul_one]

theorem parseFloatChars_fixed (f n : Nat) :
    parseFloatChars (fixedDigits f n) = .fin { mant := (n : Int), scale := f } := by
  obtain ⟨A, B, hA, hB, hd, hv, htext⟩ := fixedDigits_spec f n
  rw [htext]
  have hscan := scanDecimal_fixed A B hA hd
  rw [hv, hB] at hscan
  cases A with
  | nil => exact absurd rfl hA
  | cons a t =>
    have ha : isDigitOrDot (digitChar a) = true :=
      (digitChar_spec a (hd a (by simp))).2
    obtain ⟨h1, h2, h3, h4⟩ := isDigitOrDot_head (digitChar a) ha
    have hinf : infinityWord.isPrefixOf
        ((a :: t).map digitChar ++ Char.ofNat 46 :: B.map digitChar) = false := by
      have : infinityWord = Char.ofNat 73 :: "nfinity".toList := by decide
      rw [this]
      simp only [List.map_cons, List.cons_append, List.isPrefixOf, Bool.and_eq_false_iff]
      left
      simp only [beq_eq_false_iff_ne, ne_eq]
      intro hc
      rw [← hc] at h4
      simp at h4
    unfold parseFloatChars
    simp only [List.map_cons, List.cons_append, List.dropWhile, h1, h2, h3, Bool.false_eq_true,
      if_false, List.append_eq]
    simp only [List.map_cons, List.cons_append] at hinf hscan
    rw [hinf, hscan]
    rfl

theorem fixedDigits_class (f n : Nat) :
    fixedDigits f n ≠ [] ∧ ∀ c ∈ fixedDigits f n, isDigitOrDot c = true := by
  obtain ⟨A, B, hA, _, hd, _, htext⟩ := fixedDigits_spec f n
  rw [htext]
  refine ⟨by simp, ?_⟩
  intro c hc
  rw [List.mem_append, List.mem_cons] at hc
  rcases hc with hc | hc | hc
  · rw [List.mem_map] at hc
    obtain ⟨d, hdm, rfl⟩ := hc
    exact (digitChar_spec d (hd d (List.mem_append_left _ hdm))).2
  · rw [hc]
    decide
  · rw [List.mem_map] at hc
    obtain ⟨d, hdm, rfl⟩ := hc
    exact (digitChar_spec d (hd d (List.mem_append_right _ hdm))).2

/-- The pattern matches a text made of `Balance: `, a run of digits and dots, and
` SUI`, and its group is that run. -/
theorem matchBalance_of_run (g : List Char) (hne : g ≠ [])
    (hg : ∀ c ∈ g, isDigitOrDot c = true) :
    matchBalance ("Balance: ".toList ++ g ++ " SUI".toList) = some g := by
  have hat : matchBalanceAt ("Balance: ".toList ++ g ++ " SUI".toList) = some g := by
    unfold matchBalanceAt
    have hpre : "Balance: ".toList.isPrefixOf ("Balance: ".toList ++ g ++ " SUI".toList) =
        true := by
      rw [ List.isPrefixOf_iff_prefix, List.append_assoc]
      exact List.prefix_append _ _
    have hdrop : ("Balance: ".toList ++ g ++ " SUI".toList).drop 9 = g ++ " SUI".toList := by
      rw [List.append_assoc]
      exact List.drop_left' rfl
    have htake : (g ++ " SUI".toList).takeWhile isDigitOrDot = g := by
      rw [List.takeWhile_append_of_pos hg]
      have : " SUI".toList.takeWhile isDigitOrDot = [] := by decide
      rw [this, List.append_nil]
    have hrest : (g ++ " SUI".toList).drop g.length = " SUI".toList := List.drop_left' rfl
    have hge : g.isEmpty = false := by
      cases g with
      | nil => exact absurd rfl hne
      | cons a t => rfl
    have hsui : " SUI".toList.isPrefixOf " SUI".toList = true := by decide
    simp only [hpre, if_true, hdrop, htake, hrest, hge, Bool.not_false, Bool.true_and, hsui]
  have hcons : "Balance: ".toList ++ g ++ " SUI".toList =
      Char.ofNat 66 :: ("alance: ".toList ++ g ++ " SUI".toList) := by
    have : "Balance: ".toList = Char.ofNat 66 :: "alance: ".toList := by decide
    rw [this]
    rfl
  rw [hcons] at hat ⊢
  simp only [matchBalance, hat]

/-! ## The claim on the balance text -/

/-- C24 (amended): for every balance `totalBalance < 2^53` in MIST, the text the
`get_balance` tool produces is `Balance: `, the digits of a number with four decimals,
and ` SUI`; the pattern of the agent matches it with these digits as its group; and the
decimal `n / 10^4` the agent parses from the group is a nearest decimal with four places
to `totalBalance / 10^9`, that is, `|n * 10^5 - totalBalance| ≤ 50000`. -/
theorem balance_text_round_trips (totalBalance : Nat) (h : totalBalance < 2 ^ 53) :
    ∃ n : Nat,
      (getBalanceText totalBalance).toList =
          "Balance: ".toList ++ fixedDigits 4 n ++ " SUI".toList ∧
        matchBalance (getBalanceText totalBalance).toList = some (fixedDigits 4 n) ∧
        parsedBalance (getBalanceText totalBalance) =
          some (.fin { mant := (n : Int), scale := 4 }) ∧
        n * 100000 ≤ totalBalance + 50000 ∧ totalBalance ≤ n * 100000 + 50000 := by
  obtain ⟨hsmall, hlo, hhi⟩ := fixedMantissa_near totalBalance h
  have htext : (getBalanceText totalBalance).toList =
      "Balance: ".toList ++
        fixedDigits 4 (fixedMantissa 4 ((numberOfDigits totalBalance).divNat 1000000000)) ++
        " SUI".toList := by
    unfold getBalanceText toFixed
    rw [if_neg hsmall]
    rfl
  have hclass := fixedDigits_class 4
    (fixedMantissa 4 ((numberOfDigits totalBalance).divNat 1000000000))
  have hmatch := matchBalance_of_run _ hclass.1 hclass.2
  refine ⟨fixedMantissa 4 ((numberOfDigits totalBalance).divNat 1000000000), htext, ?_, ?_,
    hlo, hhi⟩
  · rw [htext]
    exact hmatch
  · unfold parsedBalance
    rw [htext, hmatch, Option.map_some', parseFloatChars_fixed]

/-! ## Evaluations, counterexamples and instances for the balance text -/

/-- C24, counterexample: for the balance `10^30 - 1` MIST the quotient is rounded to the
binary number `10^21`, `toFixed(4)` writes it as `1e+21`, and the pattern of the agent
does not match the text. For `10^29 + 5 * 10^8` MIST, which is
`100000000000000000000.5` SUI, the agent parses `99999999999999983616`. And for
`9007199254849999` MIST, just above `2^53`, the agent parses `9007199.2549` although
`9007199.2548` is nearer to the balance. -/
theorem large_balance_text_does_not_round_trip :
    getBalanceText (10 ^ 30 - 1) = "Balance: 1e+21 SUI" ∧
      matchBalance (getBalanceText (10 ^ 30 - 1)).toList = none ∧
      parsedBalance (getBalanceText (10 ^ 29 + 5 * 10 ^ 8)) =
        some (.fin { mant := 999999999999999836160000, scale := 4 }) ∧
      parsedBalance (getBalanceText 9007199254849999) =
        some (.fin { mant := 90071992549, scale := 4 }) ∧
      ¬ (90071992549 * 100000 ≤ 9007199254849999 + 50000) := by
  decide

/-- C24, instance of the amended claim: the balance of the documented example,
`125500000000` MIST. -/
theorem balance_text_round_trips_witness :
    getBalanceText 125500000000 = "Balance: 125.5000 SUI" ∧
      parsedBalance (getBalanceText 125500000000) =
        some (.fin { mant := 1255000, scale := 4 }) := by
  obtain ⟨n, _, _, hp, hlo, hhi⟩ := balance_text_round_trips 125500000000 (by norm_num)
  have hn : n = 1255000 := by omega
  subst hn
  exact ⟨by decide, hp⟩

/-! ## Lemmas on binary64 numbers as rational numbers -/

theorem pow2_cast (e : Int) :
    ((pow2 e : Nat) : ℚ) / ((pow2 (- e) : Nat) : ℚ) = (2 : ℚ) ^ e := by
  unfold pow2
  rcases le_or_lt 0 e with h | h
  · have h1 : (- e).toNat = 0 := by omega
    obtain ⟨n, hn⟩ := Int.eq_ofNat_of_zero_le h
    subst hn
    simp [h1]
  · have h1 : e.toNat = 0 := by omega
    obtain ⟨n, hn⟩ : ∃ n : ℕ, e = - (n : ℤ) := ⟨(- e).toNat, by omega⟩
    subst hn
    simp [h1]

theorem pow2_cast_pos (e : Int) : (0 : ℚ) < ((pow2 e : Nat) : ℚ) := by
  exact_mod_cast pow2_pos e

theorem Double.toRat_eq (x : Double) :
    x.toRat = ((x.mant * pow2 x.exp : Nat) : ℚ) / ((pow2 (- x.exp) : Nat) : ℚ) := by
  unfold Double.toRat
  rw [← pow2_cast x.exp]
  push_cast
  ring

theorem Double.le_iff (a b : Double) : a.le b = true ↔ a.toRat ≤ b.toRat := by
  rw [Double.toRat_eq, Double.toRat_eq,
    div_le_div_iff₀ (pow2_cast_pos _) (pow2_cast_pos _)]
  unfold Double.le
  rw [decide_eq_true_iff]
  constructor
  · intro h
    exact_mod_cast h
  · intro h
    exact_mod_cast h

theorem roundHalfEven_mul (z b : Nat) (hb : 0 < b) : roundHalfEven (z * b) b = z := by
  unfold roundHalfEven
  simp only [Nat.mul_mod_left, Nat.mul_zero, hb, if_true]
  exact Nat.mul_div_cancel z hb

theorem roundToDouble_zero (den : Nat) : roundToDouble 0 den = { mant := 0, exp := 0 } := by
  simp [roundToDouble]

theorem roundHalfEven_rat (a b : Nat) (hb : 0 < b) :
    |((roundHalfEven a b : Nat) : ℚ) - (a : ℚ) / b| ≤ 1 / 2 := by
  have hr := roundHalfEven_near a b hb
  generalize roundHalfEven a b = m at hr ⊢
  have hbq : (0 : ℚ) < (b : ℚ) := by exact_mod_cast hb
  have h1 : (2 : ℚ) * ((m : ℚ) * b) ≤ 2 * a + b := by exact_mod_cast hr.1
  have h2 : (2 : ℚ) * a ≤ 2 * ((m : ℚ) * b) + b := by exact_mod_cast hr.2
  generalize hz : (a : ℚ) / b = z
  have ha : (a : ℚ) = z * b := by
    rw [← hz]
    field_simp
  rw [ha] at h1 h2
  rw [abs_le]
  constructor
  · have : (2 * z - 1 - 2 * (m : ℚ)) * b ≤ 0 := by linarith
    have := nonpos_of_mul_nonpos_left this hbq
    linarith
  · have : (2 * (m : ℚ) - 2 * z - 1) * b ≤ 0 := by linarith
    have := nonpos_of_mul_nonpos_left this hbq
    linarith

/-- The rounding of a positive quotient: the exponent is that of the quotient, the result
is within half a unit of the last place, and the mantissa has 53 binary digits (or is
2^53). -/
theorem roundToDouble_spec (num den : Nat) (hn : 0 < num) (hd : 0 < den) :
    (2 : ℚ) ^ ((roundToDouble num den).exp + 52) ≤ (num : ℚ) / den ∧
      (num : ℚ) / den < (2 : ℚ) ^ ((roundToDouble num den).exp + 53) ∧
      |(roundToDouble num den).toRat - (num : ℚ) / den| ≤
        (2 : ℚ) ^ ((roundToDouble num den).exp - 1) ∧
      2 ^ 52 ≤ (roundToDouble num den).mant ∧ (roundToDouble num den).mant ≤ 2 ^ 53 := by
  have hn0 : num ≠ 0 := by omega
  have hdq : (0 : ℚ) < (den : ℚ) := by exact_mod_cast hd
  have hk1 := binaryExponent_le num den hn hd
  have hk2 := binaryExponent_lt num den hn hd
  unfold roundToDouble
  simp only [hn0, if_false, Double.toRat]
  generalize binaryExponent num den = k at hk1 hk2 ⊢
  have h2 : (0 : ℚ) < 2 := by norm_num
  have hlow : (2 : ℚ) ^ k ≤ (num : ℚ) / den := by
    rw [← pow2_cast k, div_le_div_iff₀ (pow2_cast_pos _) hdq]
    have : ((den * pow2 k : Nat) : ℚ) ≤ ((num * pow2 (- k) : Nat) : ℚ) := by exact_mod_cast hk1
    push_cast at this
    linarith
  have hhigh : (num : ℚ) / den < (2 : ℚ) ^ (k + 1) := by
    rw [← pow2_cast (k + 1), div_lt_div_iff₀ hdq (pow2_cast_pos _)]
    have : ((num * pow2 (- (k + 1)) : Nat) : ℚ) < ((den * pow2 (k + 1) : Nat) : ℚ) := by
      exact_mod_cast hk2
    push_cast at this
    linarith
  have hBpos : 0 < den * pow2 (k - 52) := Nat.mul_pos hd (pow2_pos _)
  have hr := roundHalfEven_rat (num * pow2 (- (k - 52))) (den * pow2 (k - 52)) hBpos
  have hz : ((num * pow2 (- (k - 52)) : Nat) : ℚ) / ((den * pow2 (k - 52) : Nat) : ℚ) =
      (num : ℚ) / den / (2 : ℚ) ^ (k - 52) := by
    rw [← pow2_cast (k - 52)]
    push_cast
    have h1 := pow2_cast_pos (k - 52)
    have h3 := pow2_cast_pos (- (k - 52))
    field_simp
  rw [hz] at hr
  generalize roundHalfEven (num * pow2 (- (k - 52))) (den * pow2 (k - 52)) = m at hr ⊢
  generalize (num : ℚ) / den = x at hlow hhigh hr ⊢
  have hpow : (0 : ℚ) < (2 : ℚ) ^ (k - 52) := zpow_pos h2 _
  have e1 : (2 : ℚ) ^ (k - 52 + 52) = (2 : ℚ) ^ k := by
    congr 1
    omega
  have e2 : (2 : ℚ) ^ (k - 52 + 53) = (2 : ℚ) ^ (k + 1) := by
    congr 1
    omega
  have e3 : (2 : ℚ) ^ (k - 52 - 1) = (2 : ℚ) ^ (k - 52) / 2 := by
    rw [zpow_sub_one₀ (by norm_num)]
    rfl
  have e4 : (2 : ℚ) ^ k = (2 : ℚ) ^ (k - 52) * 2 ^ 52 := by
    have : k = (k - 52) + (52 : ℕ) := by omega
    conv_lhs => rw [this]
    rw [zpow_add₀ (by norm_num), zpow_natCast]
  have e5 : (2 : ℚ) ^ (k + 1) = (2 : ℚ) ^ (k - 52) * 2 ^ 53 := by
    have : k + 1 = (k - 52) + (53 : ℕ) := by omega
    conv_lhs => rw [this]
    rw [zpow_add₀ (by norm_num), zpow_natCast]
  generalize (2 : ℚ) ^ (k - 52) = p at hpow hr e3 e4 e5 ⊢
  generalize hzd : x / p = z at hr
  have hxz : x = z * p := by
    rw [← hzd]
    field_simp
  rw [abs_le] at hr
  have hzlow : (2 : ℚ) ^ 52 ≤ z := by
    have : (2 : ℚ) ^ 52 * p ≤ z * p := by
      rw [← hxz]
      linarith
    exact le_of_mul_le_mul_right this hpow
  have hzhigh : z < (2 : ℚ) ^ 53 := by
    have : z * p < (2 : ℚ) ^ 53 * p := by
      rw [← hxz]
      linarith
    exact lt_of_mul_lt_mul_right this (le_of_lt hpow)
  refine ⟨by rw [e1]; exact hlow, by rw [e2]; exact hhigh, ?_, ?_, ?_⟩
  · rw [e3, hxz, abs_le]
    have hm : (m : ℚ) * p - z * p = ((m : ℚ) - z) * p := by ring
    rw [hm]
    constructor
    · have : (- (1 / 2) : ℚ) * p ≤ ((m : ℚ) - z) * p :=
        mul_le_mul_of_nonneg_right hr.1 (le_of_lt hpow)
      linarith
    · have : ((m : ℚ) - z) * p ≤ (1 / 2 : ℚ) * p :=
        mul_le_mul_of_nonneg_right hr.2 (le_of_lt hpow)
      linarith
  · have h3 : ((2 ^ 52 - 1 : Nat) : ℚ) < (m : ℚ) := by
      push_cast
      linarith [hr.1]
    have h4 : 2 ^ 52 - 1 < m := by exact_mod_cast h3
    omega
  · have h3 : (m : ℚ) < ((2 ^ 53 + 1 : Nat) : ℚ) := by
      push_cast
      linarith [hr.2]
    have h4 : m < 2 ^ 53 + 1 := by exact_mod_cast h3
    omega

/-- A quotient that is a binary64 number, `M * 2 ^ e` with `M < 2 ^ 53`, is not changed
by the rounding. -/
theorem roundToDouble_exact (num den M : Nat) (e : Int) (hd : 0 < den) (hM : M < 2 ^ 53)
    (hx : (num : ℚ) / den = (M : ℚ) * (2 : ℚ) ^ e) :
    (roundToDouble num den).toRat = (num : ℚ) / den := by
  have hdq : (0 : ℚ) < (den : ℚ) := by exact_mod_cast hd
  by_cases hn0 : num = 0
  · subst hn0
    simp [roundToDouble, Double.toRat]
  · have hn : 0 < num := by omega
    obtain ⟨s1, s2, _, _, _⟩ := roundToDouble_spec num den hn hd
    have hexp : (roundToDouble num den).exp = binaryExponent num den - 52 := by
      simp [roundToDouble, hn0]
    have hmant : (roundToDouble num den).mant =
        roundHalfEven (num * pow2 (- (binaryExponent num den - 52)))
          (den * pow2 (binaryExponent num den - 52)) := by
      simp [roundToDouble, hn0]
    generalize binaryExponent num den - 52 = r at hexp hmant
    rw [hexp] at s1 s2
    have h2 : (1 : ℚ) < 2 := by norm_num
    have hpe : (0 : ℚ) < (2 : ℚ) ^ e := zpow_pos (by norm_num) _
    -- the exponent of the result is at most `e`
    have hle : r ≤ e := by
      have hMq : (M : ℚ) < (2 : ℚ) ^ (53 : ℤ) := by
        have h53 : ((2 ^ 53 : Nat) : ℚ) = (2 : ℚ) ^ (53 : ℤ) := by norm_num
        have : (M : ℚ) < ((2 ^ 53 : Nat) : ℚ) := by exact_mod_cast hM
        rw [h53] at this
        exact this
      have h3 : (2 : ℚ) ^ (r + 52) < (2 : ℚ) ^ (53 + e) := by
        calc (2 : ℚ) ^ (r + 52) ≤ (num : ℚ) / den := s1
          _ = (M : ℚ) * (2 : ℚ) ^ e := hx
          _ < (2 : ℚ) ^ (53 : ℤ) * (2 : ℚ) ^ e := mul_lt_mul_of_pos_right hMq hpe
          _ = (2 : ℚ) ^ (53 + e) := by rw [← zpow_add₀ (by norm_num)]
      have := (zpow_lt_zpow_iff_right₀ h2).1 h3
      omega
    obtain ⟨n, hn2⟩ : ∃ n : ℕ, e = r + (n : ℤ) := ⟨(e - r).toNat, by omega⟩
    -- the scaled numerator is a multiple of the scaled denominator
    have hmul : num * pow2 (- r) = M * 2 ^ n * (den * pow2 r) := by
      have hq : ((num * pow2 (- r) : Nat) : ℚ) = ((M * 2 ^ n * (den * pow2 r) : Nat) : ℚ) := by
        have hnum : (num : ℚ) = (M : ℚ) * (2 : ℚ) ^ e * den := by
          rw [← hx]
          field_simp
        have hp := pow2_cast r
        have hp1 := pow2_cast_pos r
        have hp2 := pow2_cast_pos (- r)
        have hpr : ((pow2 r : Nat) : ℚ) = (2 : ℚ) ^ r * ((pow2 (- r) : Nat) : ℚ) := by
          rw [← hp]
          field_simp
        push_cast
        rw [hnum, hpr, hn2, zpow_add₀ (by norm_num), zpow_natCast]
        ring
      exact_mod_cast hq
    rw [hmul, roundHalfEven_mul _ _ (Nat.mul_pos hd (pow2_pos _))] at hmant
    unfold Double.toRat
    rw [hmant, hexp, hx, hn2, zpow_add₀ (by norm_num), zpow_natCast]
    push_cast
    ring

theorem roundToDouble_pos (num den : Nat) (hn : 0 < num) (hd : 0 < den) :
    0 < (roundToDouble num den).toRat := by
  obtain ⟨_, _, _, hm, _⟩ := roundToDouble_spec num den hn hd
  unfold Double.toRat
  have h1 : (0 : ℚ) < ((roundToDouble num den).mant : ℚ) := by
    have : 0 < (roundToDouble num den).mant := by
      have : 0 < 2 ^ 52 := by norm_num
      omega
    exact_mod_cast this
  exact mul_pos h1 (zpow_pos (by norm_num) _)

/-- The quotient that `Double.sub` rounds is the exact difference. -/
theorem Double.sub_ratio (a b : Double) (h : b.toRat ≤ a.toRat) :
    ((a.mant * pow2 a.exp * pow2 (- b.exp) - b.mant * pow2 b.exp * pow2 (- a.exp) : Nat) : ℚ) /
        ((pow2 (- a.exp) * pow2 (- b.exp) : Nat) : ℚ) =
      a.toRat - b.toRat := by
  have hle : b.mant * pow2 b.exp * pow2 (- a.exp) ≤ a.mant * pow2 a.exp * pow2 (- b.exp) := by
    have := (Double.le_iff b a).2 h
    simpa [Double.le] using this
  rw [Nat.cast_sub hle, Double.toRat_eq a, Double.toRat_eq b]
  have h1 := pow2_cast_pos (- a.exp)
  have h2 := pow2_cast_pos (- b.exp)
  push_cast
  field_simp
  ring

theorem Double.sub_exact (a b : Double) (M : Nat) (e : Int) (h : b.toRat ≤ a.toRat)
    (hM : M < 2 ^ 53) (hx : a.toRat - b.toRat = (M : ℚ) * (2 : ℚ) ^ e) :
    (a.sub b).toRat = a.toRat - b.toRat := by
  have hr := Double.sub_ratio a b h
  unfold Double.sub
  rw [roundToDouble_exact _ _ M e (Nat.mul_pos (pow2_pos _) (pow2_pos _)) hM (by rw [hr, hx]), hr]

/-- A difference that is not zero after rounding comes from two different numbers. -/
theorem Double.sub_pos (a b : Double) (h : b.toRat ≤ a.toRat) (hpos : 0 < (a.sub b).toRat) :
    b.toRat < a.toRat := by
  rcases lt_or_eq_of_le h with h1 | h1
  · exact h1
  · exfalso
    have hr := Double.sub_ratio a b h
    rw [h1, sub_self] at hr
    have hnum : a.mant * pow2 a.exp * pow2 (- b.exp) - b.mant * pow2 b.exp * pow2 (- a.exp) =
        0 := by
      have hden : ((pow2 (- a.exp) * pow2 (- b.exp) : Nat) : ℚ) ≠ 0 := by
        have := Nat.mul_pos (pow2_pos (- a.exp)) (pow2_pos (- b.exp))
        exact_mod_cast (by omega : pow2 (- a.exp) * pow2 (- b.exp) ≠ 0)
      have := (div_eq_zero_iff.1 hr).resolve_right hden
      exact_mod_cast this
    unfold Double.sub at hpos
    rw [hnum, roundToDouble_zero] at hpos
    simp [Double.toRat] at hpos

theorem Dec.toDouble_ratio (d : Dec) (h : 0 ≤ d.mant) :
    ((d.mant.toNat : Nat) : ℚ) / ((10 ^ d.scale : Nat) : ℚ) = d.toRat := by
  unfold Dec.toRat
  have : ((d.mant.toNat : Nat) : ℤ) = d.mant := Int.toNat_of_nonneg h
  have h2 : ((d.mant.toNat : Nat) : ℚ) = (d.mant : ℚ) := by exact_mod_cast this
  rw [h2]
  push_cast
  rfl

theorem oneTenth_value : oneTenth = { mant := 7205759403792794, exp := -56 } := by
  decide

theorem oneTenth_gt : (1 : ℚ) / 10 < oneTenth.toRat := by
  rw [oneTenth_value]
  unfold Double.toRat
  norm_num

theorem Double.gt_oneTenth (a : Double) (h : a.le oneTenth = false) :
    (1 : ℚ) / 10 < a.toRat := by
  have h1 : ¬ a.toRat ≤ oneTenth.toRat := by
    intro hle
    rw [(Double.le_iff a oneTenth).2 hle] at h
    exact absurd h (by simp)
  have := oneTenth_gt
  linarith [not_le.1 h1]

/-! ## Lemmas on `checkAndWithdraw` -/

theorem Dec.le_zero_iff (t : Dec) : Dec.le t { mant := 0, scale := 0 } = true ↔ t.mant ≤ 0 := by
  simp [Dec.le]

/-- The calls of `checkAndWithdraw`: what the configuration, the answer of `get_balance`
and the call are when one is made. -/
theorem checkAndWithdraw_some_iff (c : WithdrawConfig) (answer : Option String)
    (call : WithdrawCall) :
    checkAndWithdraw c answer = some call ↔
      ∃ (t b : Dec) (text : String), c.withdrawThreshold = .fin t ∧ answer = some text ∧
        parsedBalance text = some (.fin b) ∧ c.withdrawAddress = some call.target_address ∧
        call.target_address ≠ "" ∧ 0 < t.mant ∧ t.toDouble.le b.toDouble = true ∧
        (b.toDouble.sub t.toDouble).le oneTenth = false ∧
        call.amount_sui = b.toDouble.sub t.toDouble := by
  constructor
  · intro h
    unfold checkAndWithdraw at h
    cases haddr : c.withdrawAddress with
    | none => simp [haddr] at h
    | some address =>
      simp only [haddr] at h
      split at h
      · exact absurd h (by simp)
      · rename_i hguard
        simp only [Bool.or_eq_true, decide_eq_true_eq, not_or] at hguard
        cases hans : answer with
        | none => simp [hans] at h
        | some text =>
          simp only [hans] at h
          split at h
          · rename_i b t hp ht
            split at h
            · rename_i hge
              split at h
              · exact absurd h (by simp)
              · rename_i hmargin
                simp only [Option.some.injEq] at h
                have hpos : 0 < t.mant := by
                  have := hguard.2
                  rw [ht] at this
                  simp only [jsLe, JSNumber.ofInt] at this
                  rw [Dec.le_zero_iff] at this
                  omega
                refine ⟨t, b, text, ht, rfl, hp, ?_, ?_, hpos, hge, ?_, ?_⟩
                · rw [← h]
                · rw [← h]
                  exact hguard.1
                · simpa using hmargin
                · rw [← h]
            · exact absurd h (by simp)
          · exact absurd h (by simp)
  · rintro ⟨t, b, text, ht, hans, hp, haddr, hne, hpos, hge, hmargin, hamount⟩
    unfold checkAndWithdraw
    have hg1 : ¬ Dec.le t { mant := 0, scale := 0 } = true := by
      rw [Dec.le_zero_iff]
      omega
    simp only [haddr, ht, hans, hp, jsLe, JSNumber.ofInt, hne, hg1, hge, hmargin,
      decide_False, Bool.or_self, Bool.false_eq_true, if_false, if_true, Option.some.injEq]
    cases call
    simp only at hamount
    simp [hamount]

/-- What holds of every call: the amount is the rounded difference, it is greater than
0.1 and within a relative error of `2 ^ -53` of the exact difference of the two binary64
numbers, and the balance is greater than the threshold. -/
theorem withdrawal_amount (t b : Dec) (hle : t.toDouble.le b.toDouble = true)
    (hmargin : (b.toDouble.sub t.toDouble).le oneTenth = false) :
    (1 : ℚ) / 10 < (b.toDouble.sub t.toDouble).toRat ∧
      t.toDouble.toRat < b.toDouble.toRat ∧
      |(b.toDouble.sub t.toDouble).toRat - (b.toDouble.toRat - t.toDouble.toRat)| ≤
        (b.toDouble.toRat - t.toDouble.toRat) / 2 ^ 53 := by
  have h1 := Double.gt_oneTenth _ hmargin
  have hle2 := (Double.le_iff _ _).1 hle
  have hlt := Double.sub_pos _ _ hle2 (by linarith)
  refine ⟨h1, hlt, ?_⟩
  have hr := Double.sub_ratio b.toDouble t.toDouble hle2
  have hden : 0 < pow2 (- b.toDouble.exp) * pow2 (- t.toDouble.exp) :=
    Nat.mul_pos (pow2_pos _) (pow2_pos _)
  have hnum : 0 < b.toDouble.mant * pow2 b.toDouble.exp * pow2 (- t.toDouble.exp) -
      t.toDouble.mant * pow2 t.toDouble.exp * pow2 (- b.toDouble.exp) := by
    by_contra hc
    have hz : b.toDouble.mant * pow2 b.toDouble.exp * pow2 (- t.toDouble.exp) -
        t.toDouble.mant * pow2 t.toDouble.exp * pow2 (- b.toDouble.exp) = 0 := by omega
    rw [hz] at hr
    simp only [Nat.cast_zero, zero_div] at hr
    linarith
  obtain ⟨s1, _, s3, _, _⟩ := roundToDouble_spec _ _ hnum hden
  rw [hr] at s1 s3
  unfold Double.sub
  generalize (roundToDouble
    (b.toDouble.mant * pow2 b.toDouble.exp * pow2 (- t.toDouble.exp) -
      t.toDouble.mant * pow2 t.toDouble.exp * pow2 (- b.toDouble.exp))
    (pow2 (- b.toDouble.exp) * pow2 (- t.toDouble.exp))) = a at s1 s3 ⊢
  have hp : (2 : ℚ) ^ (a.exp - 1) = (2 : ℚ) ^ (a.exp + 52) / 2 ^ 53 := by
    have : a.exp + 52 = (a.exp - 1) + (53 : ℕ) := by
      push_cast
      ring
    rw [this, zpow_add₀ (by norm_num), zpow_natCast]
    field_simp
  rw [hp] at s3
  refine le_trans s3 ?_
  exact div_le_div_of_nonneg_right s1 (by positivity)

/-- With a threshold that is a whole number and a balance below 2^53, the subtraction of
`checkAndWithdraw` is exact. -/
theorem withdrawal_exact_for_whole_threshold (t b : Dec) (T : Nat) (hpos : 0 < t.mant)
    (hT : t.toRat = T) (hle : t.toDouble.le b.toDouble = true)
    (hsmall : b.toDouble.toRat < 2 ^ 53) :
    t.toDouble.toRat = T ∧
      (b.toDouble.sub t.toDouble).toRat = b.toDouble.toRat - T := by
  have hle2 := (Double.le_iff _ _).1 hle
  have htr := Dec.toDouble_ratio t (by omega)
  have hTpos : 0 < T := by
    have : (0 : ℚ) < t.toRat := by
      unfold Dec.toRat
      have : (0 : ℚ) < (t.mant : ℚ) := by exact_mod_cast hpos
      positivity
    rw [hT] at this
    exact_mod_cast this
  have htn : 0 < t.mant.toNat := by omega
  have hspec := roundToDouble_spec t.mant.toNat (10 ^ t.scale) htn (by positivity)
  -- the threshold is below 2^53, since the balance is
  have hTlt : T < 2 ^ 53 := by
    by_contra hc
    have hc2 : 2 ^ 53 ≤ T := by omega
    obtain ⟨_, s2, _, s4, _⟩ := hspec
    rw [htr, hT] at s2
    have hTq : ((2 : ℚ) ^ (53 : ℤ)) ≤ (T : ℚ) := by
      have : ((2 ^ 53 : Nat) : ℚ) ≤ (T : ℚ) := by exact_mod_cast hc2
      have h53 : ((2 ^ 53 : Nat) : ℚ) = (2 : ℚ) ^ (53 : ℤ) := by norm_num
      rw [h53] at this
      exact this
    have hexp : (53 : ℤ) < (roundToDouble t.mant.toNat (10 ^ t.scale)).exp + 53 :=
      (zpow_lt_zpow_iff_right₀ (by norm_num : (1 : ℚ) < 2)).1 (lt_of_le_of_lt hTq s2)
    have hbig : (2 : ℚ) ^ 53 ≤ t.toDouble.toRat := by
      unfold Dec.toDouble Double.toRat
      have hm : ((2 : ℚ) ^ 52) ≤ ((roundToDouble t.mant.toNat (10 ^ t.scale)).mant : ℚ) := by
        exact_mod_cast s4
      have he : (2 : ℚ) ^ (1 : ℤ) ≤
          (2 : ℚ) ^ (roundToDouble t.mant.toNat (10 ^ t.scale)).exp :=
        zpow_le_zpow_right₀ (by norm_num) (by omega)
      calc (2 : ℚ) ^ 53 = (2 : ℚ) ^ 52 * (2 : ℚ) ^ (1 : ℤ) := by norm_num
        _ ≤ _ := mul_le_mul hm he (by positivity) (by positivity)
    linarith
  have htex : t.toDouble.toRat = T := by
    unfold Dec.toDouble
    rw [roundToDouble_exact _ _ T 0 (by positivity) hTlt (by rw [htr, hT]; simp), htr, hT]
  refine ⟨htex, ?_⟩
  rw [htex] at hle2
  -- the balance is `m * 2 ^ e` with `e ≤ 0`
  have hbn : 0 < b.mant.toNat := by
    by_contra hc
    have hz : b.mant.toNat = 0 := by omega
    have : b.toDouble.toRat = 0 := by
      unfold Dec.toDouble
      rw [hz, roundToDouble_zero]
      simp [Double.toRat]
    rw [this] at hle2
    have : (0 : ℚ) < (T : ℚ) := by exact_mod_cast hTpos
    linarith
  obtain ⟨_, _, _, m1, m2⟩ := roundToDouble_spec b.mant.toNat (10 ^ b.scale) hbn (by positivity)
  have hbval : b.toDouble.toRat = (b.toDouble.mant : ℚ) * (2 : ℚ) ^ b.toDouble.exp := rfl
  have hm1 : 2 ^ 52 ≤ b.toDouble.mant := m1
  have hm2 : b.toDouble.mant ≤ 2 ^ 53 := m2
  generalize b.toDouble = x at hle2 hsmall hbval hm1 hm2 ⊢
  have hm1q : ((2 : ℚ) ^ 52) ≤ (x.mant : ℚ) := by exact_mod_cast hm1
  have hexp : x.exp ≤ 0 := by
    by_contra hc
    have he : (2 : ℚ) ^ (1 : ℤ) ≤ (2 : ℚ) ^ x.exp :=
      zpow_le_zpow_right₀ (by norm_num) (by omega)
    have : (2 : ℚ) ^ 53 ≤ x.toRat := by
      rw [hbval]
      calc (2 : ℚ) ^ 53 = (2 : ℚ) ^ 52 * (2 : ℚ) ^ (1 : ℤ) := by norm_num
        _ ≤ _ := mul_le_mul hm1q he (by positivity) (by positivity)
    linarith
  obtain ⟨n, hn⟩ : ∃ n : ℕ, x.exp = - (n : ℤ) := ⟨(- x.exp).toNat, by omega⟩
  have hpe : (2 : ℚ) ^ x.exp = 1 / (2 : ℚ) ^ n := by
    rw [hn, zpow_neg, zpow_natCast]
    simp
  have hpn : (0 : ℚ) < (2 : ℚ) ^ n := by positivity
  -- `T * 2 ^ n ≤ m`
  have hTm : T * 2 ^ n ≤ x.mant := by
    have : ((T * 2 ^ n : Nat) : ℚ) ≤ (x.mant : ℚ) := by
      push_cast
      rw [hbval, hpe] at hle2
      have h3 : (T : ℚ) * (2 : ℚ) ^ n ≤ ((x.mant : ℚ) * (1 / (2 : ℚ) ^ n)) * (2 : ℚ) ^ n :=
        mul_le_mul_of_nonneg_right hle2 (le_of_lt hpn)
      have h4 : ((x.mant : ℚ) * (1 / (2 : ℚ) ^ n)) * (2 : ℚ) ^ n = (x.mant : ℚ) := by
        field_simp
      linarith
    exact_mod_cast this
  have hone : 1 ≤ T * 2 ^ n := Nat.mul_pos hTpos (by positivity)
  have hM : x.mant - T * 2 ^ n < 2 ^ 53 := by omega
  have hdiff : x.toRat - (T : ℚ) = ((x.mant - T * 2 ^ n : Nat) : ℚ) * (2 : ℚ) ^ x.exp := by
    rw [Nat.cast_sub hTm, hbval, hpe]
    push_cast
    field_simp
    ring
  have hle3 : t.toDouble.toRat ≤ x.toRat := by rw [htex]; exact hle2
  have := Double.sub_exact x t.toDouble (x.mant - T * 2 ^ n) x.exp hle3 hM (by rw [htex]; exact hdiff)
  rw [this, htex]

/-! ## The claims on `checkAndWithdraw` -/

/-- C21 (amended): for every configured withdrawal policy (a destination address that is
not empty and a threshold that is a positive number) and every text the `get_balance`
tool answers with, `checkAndWithdraw` calls the `withdraw` tool exactly when the text
matches the pattern, the number parsed from it is at least the threshold, and the
difference of the two, as binary64 computes it, is greater than the binary64 number
`0.1`. Every call names the destination and passes that difference, which is greater than
one tenth; and the balance of a call is greater than the threshold, so that no call is
made for a balance that is equal to the threshold. -/
theorem withdrawal_needs_the_margin_above_threshold (address : String) (t : Dec)
    (text : String) (haddr : address ≠ "") (hpos : 0 < t.mant) :
    ((checkAndWithdraw { withdrawThreshold := .fin t, withdrawAddress := some address }
        (some text)).isSome = true ↔
      ∃ b, parsedBalance text = some (.fin b) ∧ t.toDouble.le b.toDouble = true ∧
        (b.toDouble.sub t.toDouble).le oneTenth = false) ∧
    (∀ call,
      checkAndWithdraw { withdrawThreshold := .fin t, withdrawAddress := some address }
          (some text) = some call →
        call.target_address = address ∧ (1 : ℚ) / 10 < call.amount_sui.toRat ∧
          ∃ b, parsedBalance text = some (.fin b) ∧
            call.amount_sui = b.toDouble.sub t.toDouble ∧
            t.toDouble.toRat < b.toDouble.toRat) := by
  refine ⟨⟨?_, ?_⟩, ?_⟩
  · intro h
    obtain ⟨call, hc⟩ := Option.isSome_iff_exists.1 h
    obtain ⟨t2, b, text2, ht, hans, hp, _, _, _, hge, hmargin, _⟩ :=
      (checkAndWithdraw_some_iff _ _ _).1 hc
    simp only [JSNumber.fin.injEq] at ht
    simp only [Option.some.injEq] at hans
    subst ht
    subst hans
    exact ⟨b, hp, hge, hmargin⟩
  · rintro ⟨b, hb, hge, hmargin⟩
    have : checkAndWithdraw { withdrawThreshold := .fin t, withdrawAddress := some address }
        (some text) =
        some { target_address := address, amount_sui := b.toDouble.sub t.toDouble } := by
      rw [checkAndWithdraw_some_iff]
      exact ⟨t, b, text, rfl, rfl, hb, rfl, haddr, hpos, hge, hmargin, rfl⟩
    rw [this]
    rfl
  · intro call hc
    obtain ⟨t2, b, text2, ht, hans, hp, hto, _, _, hge, hmargin, hamount⟩ :=
      (checkAndWithdraw_some_iff _ _ _).1 hc
    simp only [JSNumber.fin.injEq] at ht
    simp only [Option.some.injEq] at hans hto
    subst ht
    subst hans
    obtain ⟨h1, h2, _⟩ := withdrawal_amount t b hge hmargin
    refine ⟨hto.symm, ?_, b, hp, hamount, h2⟩
    rw [hamount]
    exact h1

/-- C30 (amended): whenever `checkAndWithdraw` calls the `withdraw` tool, the threshold
is a positive number, the balance parsed from the text of `get_balance` is greater than
it, and the `amount_sui` it passes is the difference of the two as binary64 computes it:
it is greater than one tenth and within a relative error of `2 ^ -53` of the exact
difference. When the threshold is a whole number and the balance is below 2^53, the
difference is exact, so that the parsed balance less the amount is the threshold.
Without a destination address, or with a threshold that is zero or negative, and so
with the configuration of the constructor, it never calls `withdraw`. -/
theorem auto_withdrawal_leaves_the_threshold (c : WithdrawConfig) (answer : Option String) :
    (∀ call, checkAndWithdraw c answer = some call →
      ∃ t b : Dec, c.withdrawThreshold = .fin t ∧ 0 < t.mant ∧
        (∃ text, answer = some text ∧ parsedBalance text = some (.fin b)) ∧
        call.amount_sui = b.toDouble.sub t.toDouble ∧
        (1 : ℚ) / 10 < call.amount_sui.toRat ∧
        t.toDouble.toRat < b.toDouble.toRat ∧
        |call.amount_sui.toRat - (b.toDouble.toRat - t.toDouble.toRat)| ≤
          (b.toDouble.toRat - t.toDouble.toRat) / 2 ^ 53 ∧
        (∀ T : Nat, t.toRat = T → b.toDouble.toRat < 2 ^ 53 →
          t.toDouble.toRat = T ∧ b.toDouble.toRat - call.amount_sui.toRat = T)) ∧
      (c.withdrawAddress = none ∨ c.withdrawAddress = some "" ∨
          jsLe c.withdrawThreshold (JSNumber.ofInt 0) = true →
        checkAndWithdraw c answer = none) ∧
      checkAndWithdraw constructorConfig answer = none := by
  refine ⟨?_, ?_, ?_⟩
  · intro call h
    obtain ⟨t, b, text, ht, hans, hp, _, _, hpos, hge, hmargin, hamount⟩ :=
      (checkAndWithdraw_some_iff _ _ _).1 h
    obtain ⟨h1, h2, h3⟩ := withdrawal_amount t b hge hmargin
    refine ⟨t, b, ht, hpos, ⟨text, hans, hp⟩, hamount, ?_, h2, ?_, ?_⟩
    · rw [hamount]
      exact h1
    · rw [hamount]
      exact h3
    · intro T hT hsmall
      obtain ⟨e1, e2⟩ := withdrawal_exact_for_whole_threshold t b T hpos hT hge hsmall
      refine ⟨e1, ?_⟩
      rw [hamount, e2]
      ring
  · intro h
    unfold checkAndWithdraw
    rcases h with h | h | h
    · simp [h]
    · simp [h]
    · cases c.withdrawAddress <;> simp [h]
  · rfl

/-! ## Evaluations, counterexamples and instances for `checkAndWithdraw` -/

/-- C21, counterexample: with the policy of `Strategy_Aggressive.js` (threshold 50) and
the balance text `Balance: 50.0500 SUI`, the parsed balance 50.05 is at least the
threshold, the difference is within the margin of 0.1, and no withdrawal is submitted;
nor is one submitted for `Balance: 50.0000 SUI`. -/
theorem balance_within_the_margin_is_not_withdrawn :
    parsedBalance "Balance: 50.0500 SUI" = some (.fin { mant := 500500, scale := 4 }) ∧
      (Dec.toDouble { mant := 50, scale := 0 }).le
        (Dec.toDouble { mant := 500500, scale := 4 }) = true ∧
      checkAndWithdraw aggressiveConfig (some "Balance: 50.0500 SUI") = none ∧
      checkAndWithdraw aggressiveConfig (some "Balance: 50.0000 SUI") = none := by
  decide

/-- C21, instance of the amended claim: threshold 50 and the balance text
`Balance: 50.1000 SUI`. The binary64 difference `50.1 - 50` is
`7205759403792896 / 2^56 = 0.10000000000000142...`, which is greater than the binary64
number `0.1`, so the withdrawal is submitted with that amount. -/
theorem withdrawal_needs_the_margin_above_threshold_witness :
    checkAndWithdraw aggressiveConfig (some "Balance: 50.1000 SUI") =
        some { target_address :=
                 "0xf89a3f7ae3c528f13b3ce2a62d688e9263d8b93a2d0bdeec85c0300e425b32d3",
               amount_sui := { mant := 7205759403792896, exp := -56 } } ∧
      (1 : ℚ) / 10 < Double.toRat { mant := 7205759403792896, exp := -56 } :=
  ⟨by decide,
    ((withdrawal_needs_the_margin_above_threshold
      "0xf89a3f7ae3c528f13b3ce2a62d688e9263d8b93a2d0bdeec85c0300e425b32d3"
      { mant := 50, scale := 0 } "Balance: 50.1000 SUI" (by decide) (by decide)).2
      { target_address :=
          "0xf89a3f7ae3c528f13b3ce2a62d688e9263d8b93a2d0bdeec85c0300e425b32d3",
        amount_sui := { mant := 7205759403792896, exp := -56 } } (by decide)).2.1⟩

/-- C30, counterexample: a wallet of 50199960000 MIST, which is 50.19996 SUI, is shown
as `Balance: 50.2000 SUI`; with threshold 50 the agent withdraws `50.2 - 50`, the tool
turns that into 200000000 MIST, and the wallet is left with 49999960000 MIST, less than
the threshold, before any gas. And with threshold 0.1 and the text
`Balance: 0.3518 SUI` the amount is the rounded difference `0.2518`, and the balance
less that amount is `7205759403792792 / 2^56`, below the binary64 number `0.1`. -/
theorem withdrawal_can_leave_less_than_the_threshold :
    getBalanceText 50199960000 = "Balance: 50.2000 SUI" ∧
      checkAndWithdraw aggressiveConfig (some (getBalanceText 50199960000)) =
        some { target_address :=
                 "0xf89a3f7ae3c528f13b3ce2a62d688e9263d8b93a2d0bdeec85c0300e425b32d3",
               amount_sui := { mant := 7205759403792896, exp := -55 } } ∧
      withdrawAmountMist { mant := 7205759403792896, exp := -55 } = 200000000 ∧
      50199960000 - 200000000 < 50 * 1000000000 ∧
      checkAndWithdraw
          { withdrawThreshold := .fin { mant := 1, scale := 1 }, withdrawAddress := some "0xf8" }
          (some "Balance: 0.3518 SUI") =
        some { target_address := "0xf8",
               amount_sui := { mant := 4536025544687564, exp := -54 } } ∧
      (Dec.toDouble { mant := 3518, scale := 4 }).sub
          { mant := 4536025544687564, exp := -54 } =
        { mant := 7205759403792792, exp := -56 } ∧
      oneTenth = { mant := 7205759403792794, exp := -56 } ∧
      oneTenth.le ((Dec.toDouble { mant := 3518, scale := 4 }).sub
        { mant := 4536025544687564, exp := -54 }) = false := by
  decide

/-- C30, instance of the amended claim: threshold 60 and the balance text
`Balance: 125.5000 SUI` give a withdrawal of `65.5`, which is more than one tenth, and
the parsed balance less that amount is exactly the threshold; the configuration of the
constructor gives none. -/
theorem auto_withdrawal_leaves_the_threshold_witness :
    (1 : ℚ) / 10 < Double.toRat { mant := 4609152743636992, exp := -46 } ∧
      Double.toRat (Dec.toDouble { mant := 1255000, scale := 4 }) -
          Double.toRat { mant := 4609152743636992, exp := -46 } = ((60 : Nat) : ℚ) ∧
      checkAndWithdraw constructorConfig (some "Balance: 125.5000 SUI") = none := by
  obtain ⟨t, b, ht, _, ⟨text, hanswer, hparsed⟩, _, hmargin, _, _, hexact⟩ :=
    (auto_withdrawal_leaves_the_threshold
      { withdrawThreshold := JSNumber.ofInt 60, withdrawAddress := some "0x7dc4" }
      (some "Balance: 125.5000 SUI")).1
      { target_address := "0x7dc4",
        amount_sui := { mant := 4609152743636992, exp := -46 } }
      (by decide)
  have ht2 : JSNumber.fin { mant := 60, scale := 0 } = JSNumber.fin t := ht
  have ht3 : t = { mant := 60, scale := 0 } := (JSNumber.fin.inj ht2).symm
  have hp : parsedBalance "Balance: 125.5000 SUI" =
      some (.fin { mant := 1255000, scale := 4 }) := by decide
  have htext : text = "Balance: 125.5000 SUI" := (Option.some.inj hanswer).symm
  rw [htext, hp] at hparsed
  have hb : b = { mant := 1255000, scale := 4 } :=
    (JSNumber.fin.inj (Option.some.inj hparsed)).symm
  subst ht3 hb
  have hd : Dec.toDouble { mant := 1255000, scale := 4 } =
      { mant := 8831277394296832, exp := -46 } := by decide
  have hlt : Double.toRat (Dec.toDouble { mant := 1255000, scale := 4 }) < 2 ^ 53 := by
    rw [hd]
    norm_num [Double.toRat]
  exact ⟨hmargin, (hexact 60 (by norm_num [Dec.toRat]) hlt).2,
    (auto_withdrawal_leaves_the_threshold constructorConfig
      (some "Balance: 125.5000 SUI")).2.2⟩

end AgentBoss
